import Mathlib

/-!
Verification development for the notesdir core (reference resolver,
rearrange planner, direct repository, sqlite cache repository).

The Python sources are shallowly embedded: a Python `str` is a list of
Unicode code points (`PyStr := List Nat`), an absolute filesystem path is
its canonical list of components (`AbsP := List PyStr`), and the stateful
sqlite cache is an explicit record of table contents.  Functions from the
Python standard library that the source uses (`urllib.parse.quote`,
`unquote_plus`, `urlparse`, `urlunparse`, `os.path.relpath`,
`os.path.realpath`, ...) are modelled at the same granularity as the
source relies on them; the filesystem is modelled without symbolic links,
so `os.path.realpath` becomes lexical normalisation of `.` and `..`
(clamped at the root, as realpath does for absolute paths).
-/


/-- A Python string: list of Unicode code points. -/
abbrev PyStr := List Nat

/-- A canonical absolute path: its list of path components.  `[]` is the
filesystem root.  Wellformed components are nonempty, contain no slash and
are not the special names `.` and `..`; see `WfComp`. -/
abbrev AbsP := List PyStr

/-- Wellformedness of one path component of a canonical absolute path. -/
def WfComp (c : PyStr) : Prop :=
  c ≠ [] ∧ c ≠ [46] ∧ c ≠ [46, 46] ∧ ∀ ch ∈ c, ch < 0x110000 ∧ ¬(0xD800 ≤ ch ∧ ch < 0xE000) ∧ ch ≠ 47

instance (c : PyStr) : Decidable (WfComp c) := by unfold WfComp; infer_instance

/-- Wellformedness of a canonical absolute path. -/
def WfAbs (p : AbsP) : Prop := ∀ c ∈ p, WfComp c

instance (p : AbsP) : Decidable (WfAbs p) := by unfold WfAbs; infer_instance

/-- A valid Unicode scalar value (what Python's UTF-8 codec will encode). -/
def ValidCp (c : Nat) : Prop := c < 0x110000 ∧ ¬(0xD800 ≤ c ∧ c < 0xE000)

instance (c : Nat) : Decidable (ValidCp c) := by unfold ValidCp; infer_instance

/-! ### `urllib.parse.quote` (with its default `safe` set, which is `/`) -/

/-- ASCII letters and digits. -/
def isAlnumCp (c : Nat) : Bool :=
  (48 ≤ c && c ≤ 57) || (65 ≤ c && c ≤ 90) || (97 ≤ c && c ≤ 122)

/-- The characters `quote` leaves unencoded: the always-safe set
`ALPHA / DIGIT / "_" / "." / "-" / "~"` plus the default `safe` string `/`. -/
def isQuoteSafe (c : Nat) : Bool :=
  isAlnumCp c || c == 95 || c == 46 || c == 45 || c == 126 || c == 47

/-- Uppercase hexadecimal digit character for a nibble, as `quote` emits. -/
def hexDigitU (n : Nat) : Nat := if n < 10 then 48 + n else 55 + n

/-- UTF-8 encoding of one code point, as a list of bytes. -/
def utf8Encode (c : Nat) : List Nat :=
  if c < 0x80 then [c]
  else if c < 0x800 then [0xC0 + c / 0x40, 0x80 + c % 0x40]
  else if c < 0x10000 then
    [0xE0 + c / 0x1000, 0x80 + (c / 0x40) % 0x40, 0x80 + c % 0x40]
  else
    [0xF0 + c / 0x40000, 0x80 + (c / 0x1000) % 0x40, 0x80 + (c / 0x40) % 0x40, 0x80 + c % 0x40]

/-- The three characters `%XY` that percent-encode one byte. -/
def pctByte (b : Nat) : PyStr := [37, hexDigitU (b / 16), hexDigitU (b % 16)]

/-- Model of `urllib.parse.quote(s)`: safe characters pass through, every
other character is UTF-8 encoded and each byte written as `%XY`. -/
def quote (s : PyStr) : PyStr :=
  s.flatMap fun c => if isQuoteSafe c then [c] else (utf8Encode c).flatMap pctByte

/-! ### `urllib.parse.unquote_plus` -/

/-- Hexadecimal digit test (both cases), as `unquote` accepts. -/
def isHexCp (c : Nat) : Bool :=
  (48 ≤ c && c ≤ 57) || (65 ≤ c && c ≤ 70) || (97 ≤ c && c ≤ 102)

/-- Value of a hexadecimal digit character. -/
def hexVal (c : Nat) : Nat := if c ≤ 57 then c - 48 else if c ≤ 70 then c - 55 else c - 87

/-- One lexical unit recognised by `unquote`: either a literal character or
a byte written as a `%XY` escape. -/
inductive UTok where
  | lit (c : Nat)
  | byte (b : Nat)
deriving DecidableEq

/-- Scanner for `unquote`: a `%` followed by two hex digits yields a byte,
anything else stays a literal character (matching how `unquote` treats a
`%` not followed by two hex digits). -/
def scanPct : PyStr → List UTok
  | [] => []
  | c :: rest =>
    if c = 37 then
      match rest with
      | h1 :: h2 :: rest2 =>
        if isHexCp h1 && isHexCp h2 then .byte (16 * hexVal h1 + hexVal h2) :: scanPct rest2
        else .lit 37 :: scanPct (h1 :: h2 :: rest2)
      | r => .lit 37 :: scanPct r
    else .lit c :: scanPct rest
termination_by s => s.length

/-- Continuation byte test for UTF-8 decoding. -/
def isContB (b : Nat) : Bool := 0x80 ≤ b && b < 0xC0

/-- One UTF-8 decoding step: given the lead byte and the remaining bytes,
returns the decoded code point and how many continuation bytes it
consumed.  Malformed input yields U+FFFD consuming just the lead byte,
modelling `errors='replace'` on the inputs that can reach it here (the
decoder is exercised only on output of `utf8Encode`, where it is exact).
-/
def utf8Step (b : Nat) (rest : List Nat) : Nat × Nat :=
  if b < 0x80 then (b, 0)
  else if 0xC2 ≤ b && b < 0xE0 then
    match rest with
    | b1 :: _ => if isContB b1 then ((b - 0xC0) * 0x40 + (b1 - 0x80), 1) else (0xFFFD, 0)
    | [] => (0xFFFD, 0)
  else if 0xE0 ≤ b && b < 0xF0 then
    match rest with
    | b1 :: b2 :: _ =>
      if isContB b1 && isContB b2 then
        ((b - 0xE0) * 0x1000 + (b1 - 0x80) * 0x40 + (b2 - 0x80), 2)
      else (0xFFFD, 0)
    | _ => (0xFFFD, 0)
  else if 0xF0 ≤ b && b < 0xF5 then
    match rest with
    | b1 :: b2 :: b3 :: _ =>
      if isContB b1 && isContB b2 && isContB b3 then
        ((b - 0xF0) * 0x40000 + (b1 - 0x80) * 0x1000 + (b2 - 0x80) * 0x40 + (b3 - 0x80), 3)
      else (0xFFFD, 0)
    | _ => (0xFFFD, 0)
  else (0xFFFD, 0)

/-- UTF-8 decoding of a run of bytes, one code point at a time. -/
def utf8DecodeRun : List Nat → PyStr
  | [] => []
  | b :: rest => (utf8Step b rest).1 :: utf8DecodeRun (rest.drop (utf8Step b rest).2)
termination_by l => l.length
decreasing_by
  simp only [List.length_cons, List.length_drop]
  omega

/-- Rebuild the decoded string from scanner tokens: maximal runs of bytes
are UTF-8 decoded, literals pass through.  `run` holds the pending byte
run in reverse order. -/
def unTokens : List UTok → List Nat → PyStr
  | [], run => utf8DecodeRun run.reverse
  | .byte b :: rest, run => unTokens rest (b :: run)
  | .lit c :: rest, run => utf8DecodeRun run.reverse ++ c :: unTokens rest []

/-- Model of `urllib.parse.unquote(s)` (UTF-8, `errors='replace'`). -/
def unquote (s : PyStr) : PyStr := unTokens (scanPct s) []

/-- Model of `urllib.parse.unquote_plus(s)`: `+` becomes a space, then
percent-escapes are decoded. -/
def unquote_plus (s : PyStr) : PyStr :=
  unquote (s.map fun c => if c == 43 then 32 else c)

/-- Token chunk contributed to the scanner output by one source character
of `quote`'s input. -/
def tokChunk (c : Nat) : List UTok :=
  if isQuoteSafe c then [.lit c] else (utf8Encode c).map .byte

/-! ### Paths: `os.path` normalisation, `relpath`, rendering

The filesystem is modelled without symbolic links, so `os.path.realpath`
on an absolute path is lexical normalisation: split on `/`, drop empty
segments and `.`, let `..` remove the previous component (clamped at the
root, as realpath does for absolute paths). -/

/-- A lexical path token: `.`, `..`, or a plain component. -/
inductive PTok where
  | dot
  | dotdot
  | name (c : PyStr)
deriving DecidableEq

/-- One `realpath` normalisation step over an already-normalised prefix. -/
def normStep (acc : AbsP) : PTok → AbsP
  | .dot => acc
  | .dotdot => acc.dropLast
  | .name c => acc ++ [c]

/-- Normalise a token list into a canonical absolute path (the tokens are
interpreted relative to the root). -/
def normAbs (ts : List PTok) : AbsP := ts.foldl normStep []

/-- Split a string on `/` (Python `s.split(sep)` semantics: `n` slashes
produce `n+1` pieces, possibly empty). -/
def splitSlash : PyStr → List PyStr
  | [] => [[]]
  | c :: rest =>
    if c = 47 then [] :: splitSlash rest
    else
      match splitSlash rest with
      | h :: t2 => (c :: h) :: t2
      | [] => [[c]]

/-- Classify one split segment the way `realpath` does: empty segments
are dropped, `.` and `..` are special, the rest are components. -/
def parseTok (c : PyStr) : Option PTok :=
  if c = [] then none
  else if c = [46] then some .dot
  else if c = [46, 46] then some .dotdot
  else some (.name c)

/-- Lexical tokens of a path string. -/
def parseTokens (s : PyStr) : List PTok := (splitSlash s).filterMap parseTok

/-- Render one token back to its string form. -/
def renderTok : PTok → PyStr
  | .dot => [46]
  | .dotdot => [46, 46]
  | .name c => c

/-- Join pieces with `/` separators. -/
def joinSlash : List PyStr → PyStr
  | [] => []
  | x :: xs => x ++ xs.flatMap fun y => 47 :: y

/-- Render a relative token list as a path string (`a/../b` style). -/
def renderRel (ts : List PTok) : PyStr := joinSlash (ts.map renderTok)

/-- Render a canonical absolute path as a string (used where the source
manipulates paths as strings, e.g. `str.lower` sort keys). -/
def renderAbs (p : AbsP) : PyStr := 47 :: joinSlash p

/-- Length of the common component prefix of two paths, as
`os.path.relpath` computes it. -/
def commonPrefixLen : AbsP → AbsP → Nat
  | a :: as, b :: bs => if a = b then 1 + commonPrefixLen as bs else 0
  | _, _ => 0

/-- Model of `os.path.relpath(dest, start)` for canonical absolute
arguments, as a token list: `..` up to the common ancestor, then down to
`dest`; `.` when the two coincide. -/
def relTokens (dest start : AbsP) : List PTok :=
  let i := commonPrefixLen start dest
  let ts := List.replicate (start.length - i) PTok.dotdot ++ (dest.drop i).map PTok.name
  if ts = [] then [PTok.dot] else ts

/-- Model of `notesdir.rearrange.href_path(src, dest)`: the relative path
from `src`'s directory to `dest` (both resolved), rendered as a string. -/
def href_path (src dest : AbsP) : PyStr := renderRel (relTokens dest src.dropLast)

/-- Tokens whose rendering round-trips: plain components must be
wellformed; `.` and `..` always do. -/
def WfTok (t : PTok) : Prop := ∀ c, t = PTok.name c → WfComp c

instance (t : PTok) : Decidable (WfTok t) := by
  unfold WfTok
  cases t <;> (simp; infer_instance)

/-! ### `urllib.parse.urlsplit` / `urlparse` / `urlunparse`

Modelled on CPython's `urllib.parse` (3.11): optional scheme (first
character an ASCII letter, all scheme characters, before the first `:`),
optional `//netloc`, fragment split at the first `#`, query at the first
`?`, and for `urlparse` additionally `;params` split from the path.
`ValueError` (invalid IPv6 URL) is modelled as `none`; the bracketed-host
validity check itself is omitted (all bracketed hosts accepted).
`str.lower()` is modelled on ASCII. -/

/-- ASCII decimal digit. -/
def isDigitCp (c : Nat) : Bool := 48 ≤ c && c ≤ 57

/-- ASCII letter. -/
def isAsciiAlpha (c : Nat) : Bool := (65 ≤ c && c ≤ 90) || (97 ≤ c && c ≤ 122)

/-- Characters allowed in a URL scheme after the first. -/
def isSchemeChar (c : Nat) : Bool := isAlnumCp c || c == 43 || c == 45 || c == 46

/-- ASCII lowercase of one character. -/
def lowerCp (c : Nat) : Nat := if 65 ≤ c && c ≤ 90 then c + 32 else c

/-- ASCII lowercase of a string (model of `str.lower()`). -/
def lowerStr (s : PyStr) : PyStr := s.map lowerCp

/-- Split at the first occurrence of `sep`, if any (model of
`s.split(sep, 1)` when `sep` occurs). -/
def splitFirst (sep : Nat) : PyStr → Option (PyStr × PyStr)
  | [] => none
  | c :: rest =>
    if c = sep then some ([], rest)
    else
      match splitFirst sep rest with
      | some (a, b) => some (c :: a, b)
      | none => none

/-- The five fields of `urlsplit`'s result. -/
structure SplitUrl where
  scheme : PyStr
  netloc : PyStr
  path : PyStr
  query : PyStr
  fragment : PyStr
deriving DecidableEq

/-- Model of `urllib.parse._splitnetloc`: the netloc extends to the first
`/`, `?` or `#`. -/
def splitnetlocM (s : PyStr) : PyStr × PyStr :=
  (s.takeWhile fun c => c ≠ 47 && c ≠ 63 && c ≠ 35,
   s.dropWhile fun c => c ≠ 47 && c ≠ 63 && c ≠ 35)

/-- Model of `urllib.parse.urlsplit` (with `allow_fragments=True`). -/
def urlsplitM (url0 : PyStr) : Option SplitUrl :=
  let url1 := url0.dropWhile fun c => c ≤ 32
  let url := url1.filter fun c => c ≠ 9 && c ≠ 10 && c ≠ 13
  let sr : PyStr × PyStr :=
    match splitFirst 58 url with
    | some (before, after) =>
      if (!before.isEmpty) && before.head?.elim false isAsciiAlpha && before.all isSchemeChar
      then (lowerStr before, after)
      else ([], url)
    | none => ([], url)
  let scheme := sr.1
  let rest := sr.2
  let nr : PyStr × PyStr :=
    if rest.take 2 = [47, 47] then splitnetlocM (rest.drop 2) else ([], rest)
  let netloc := nr.1
  let rest2 := nr.2
  if (91 ∈ netloc ∧ 93 ∉ netloc) ∨ (93 ∈ netloc ∧ 91 ∉ netloc) then none
  else
    let fr : PyStr × PyStr :=
      match splitFirst 35 rest2 with
      | some (a, b) => (a, b)
      | none => (rest2, [])
    let qr : PyStr × PyStr :=
      match splitFirst 63 fr.1 with
      | some (a, b) => (a, b)
      | none => (fr.1, [])
    some ⟨scheme, netloc, qr.1, qr.2, fr.2⟩

/-- The six fields of `urlparse`'s `ParseResult`. -/
structure UrlParts where
  scheme : PyStr
  netloc : PyStr
  path : PyStr
  params : PyStr
  query : PyStr
  fragment : PyStr
deriving DecidableEq

/-- Model of `urllib.parse._splitparams`: the params are whatever follows
the first `;` in the last path segment. -/
def splitparamsM (s : PyStr) : PyStr × PyStr :=
  if 47 ∈ s then
    let tailp := (s.reverse.takeWhile fun c => c ≠ 47).reverse
    let headp := s.take (s.length - tailp.length)
    match splitFirst 59 tailp with
    | some (a, b) => (headp ++ a, b)
    | none => (s, [])
  else
    match splitFirst 59 s with
    | some (a, b) => (a, b)
    | none => (s, [])

/-- Model of `urllib.parse.urlparse`. -/
def urlparseM (href : PyStr) : Option UrlParts :=
  match urlsplitM href with
  | none => none
  | some u =>
    let pp : PyStr × PyStr := if 59 ∈ u.path then splitparamsM u.path else (u.path, [])
    some ⟨u.scheme, u.netloc, pp.1, pp.2, u.query, u.fragment⟩

/-- Model of `urllib.parse.urlunsplit` applied to
`(scheme, netloc, url, query, fragment)`. -/
def urlunsplitM (scheme netloc url query fragment : PyStr) : PyStr :=
  let url2 :=
    if netloc ≠ [] ∨ (url ≠ [] ∧ url.take 2 = [47, 47]) then
      47 :: 47 :: netloc ++ (if url ≠ [] ∧ url.take 1 ≠ [47] then 47 :: url else url)
    else url
  let url3 := if scheme ≠ [] then scheme ++ 58 :: url2 else url2
  let url4 := if query ≠ [] then url3 ++ 63 :: query else url3
  if fragment ≠ [] then url4 ++ 35 :: fragment else url4

/-- Model of `urllib.parse.urlunparse`. -/
def urlunparseM (u : UrlParts) : PyStr :=
  let url := if u.params ≠ [] then u.path ++ 59 :: u.params else u.path
  urlunsplitM u.scheme u.netloc url u.query u.fragment

/-! ### The reference resolver: `LinkInfo.referent` -/

/-- The string `file`. -/
def fileStr : PyStr := [102, 105, 108, 101]

/-- The string `localhost`. -/
def localhostStr : PyStr := [108, 111, 99, 97, 108, 104, 111, 115, 116]

/-- Model of `os.path.isabs`. -/
def isabs (s : PyStr) : Bool := s.take 1 = [47]

/-- `os.path.realpath` of an absolute path string (symlink-free model:
lexical normalisation). -/
def realAbsStr (s : PyStr) : AbsP := normAbs (parseTokens s)

/-- `os.path.realpath(os.path.join(referrer, '..', rel))` for a canonical
absolute `referrer` and a relative string `rel` (symlink-free model). -/
def realTokensRel (referrer : AbsP) (rel : PyStr) : AbsP :=
  ((referrer.map PTok.name) ++ PTok.dotdot :: parseTokens rel).foldl normStep []

/-- A link as stored in `FileInfo.links` / `backlinks`: the containing
file and the raw href. -/
structure MLink where
  referrer : AbsP
  href : PyStr
deriving DecidableEq

/-- Model of `notesdir.models.LinkInfo.referent()`: the canonical local
path the href refers to, if it is a local-file reference.  A parse error
(`ValueError`) yields `none`; a scheme other than empty or `file`, or a
`file` URL with a host other than empty/`localhost`, yields `none`; an
empty path yields the referrer itself; otherwise the percent-decoded
path is resolved against the referrer's parent directory. -/
def referentM (referrer : AbsP) (href : PyStr) : Option AbsP :=
  match urlparseM href with
  | none => none
  | some u =>
    if u.scheme = [] ∨ (u.scheme = fileStr ∧ (u.netloc = [] ∨ u.netloc = localhostStr)) then
      if u.path = [] then some referrer
      else
        let r := unquote_plus u.path
        if isabs r then some (realAbsStr r) else some (realTokensRel referrer r)
    else none

/-- Model of `notesdir.rearrange.path_as_href(path, into_url)`:
percent-encode the path and, when `into_url` is given, keep every other
URL part.  The `ValueError` for a relative path with scheme or netloc is
modelled as `none`. -/
def path_as_href (path : PyStr) (intoUrl : Option UrlParts) : Option PyStr :=
  match intoUrl with
  | none => some (quote path)
  | some u =>
    if (u.scheme ≠ [] ∨ u.netloc ≠ []) ∧ ¬ isabs path then none
    else some (urlunparseM { u with path := quote path })

/-! ### The rearrange planner: `edits_for_raw_moves`, `edits_for_rearrange`

Paths handed to the planner are modelled as canonical absolute paths, so
`os.path.realpath` on them is the identity.  A Python `dict` is an
insertion-ordered association list with in-place update; iteration over
`set(resolved.values())` (whose order CPython leaves unspecified) is
modelled as first-occurrence order.  `tempfile.mkstemp(prefix=destname,
dir=destdir)` is modelled by an oracle `tmpName` indexed by the call
count: the created file lives in `destdir` and its name extends
`destname`, which is what `mkstemp` guarantees. -/

/-- Insert into an insertion-ordered association list with dict update
semantics (existing key keeps its position, value replaced). -/
def dictInsert (k v : AbsP) : List (AbsP × AbsP) → List (AbsP × AbsP)
  | [] => [(k, v)]
  | (k', v') :: rest => if k' = k then (k', v) :: rest else (k', v') :: dictInsert k v rest

/-- Key lookup in an association list. -/
def dictLookup (k : AbsP) : List (AbsP × AbsP) → Option AbsP
  | [] => none
  | (k', v') :: rest => if k' = k then some v' else dictLookup k rest

/-- Build a dict from a list of items (a Python dict comprehension). -/
def dictOf (ps : List (AbsP × AbsP)) : List (AbsP × AbsP) :=
  ps.foldl (fun d p => dictInsert p.1 p.2 d) []

/-- The planner's view of the filesystem and of `mkstemp`. -/
structure RWorld where
  fsExists : AbsP → Bool
  isDir : AbsP → Bool
  descendants : AbsP → List AbsP
  tmpName : Nat → PyStr

/-- The commands the planner emits (`ReplaceHrefCmd` and `MoveCmd`). -/
inductive MCmd where
  | replaceHref (path : AbsP) (original replacement : PyStr)
  | move (path dest : AbsP)
deriving DecidableEq

/-- Is the command a `ReplaceHrefCmd`? -/
def isReplaceCmd : MCmd → Bool
  | .replaceHref _ _ _ => true
  | .move _ _ => false

/-- The temporary path `mkstemp(prefix=destname, dir=destdir)` creates for
the `n`-th staging call: a fresh name extending `destname` inside the
destination's parent directory. -/
def stagePath (w : RWorld) (n : Nat) (dest : AbsP) : AbsP :=
  dest.dropLast ++ [(dest.getLast?.getD []) ++ w.tmpName n]

/-- One step of the staging loop of `edits_for_raw_moves`: a destination
that is also a pending source (and exists) is moved to a temporary file
now, and from there to its own destination in phase 2. -/
def rawStageStep (w : RWorld) (resolved : List (AbsP × AbsP))
    (st : Nat × List MCmd × List MCmd) (dest : AbsP) : Nat × List MCmd × List MCmd :=
  if (dictLookup dest resolved).isSome ∧ w.fsExists dest = true then
    (st.1 + 1,
     st.2.1 ++ [MCmd.move dest (stagePath w st.1 dest)],
     st.2.2 ++ [MCmd.move (stagePath w st.1 dest) ((dictLookup dest resolved).getD [])])
  else st

/-- Model of `notesdir.rearrange.edits_for_raw_moves`. -/
def edits_for_raw_moves (w : RWorld) (renames : List (AbsP × AbsP)) : List MCmd :=
  let resolved := dictOf renames
  let dests := (resolved.map (·.2)).dedup
  let st := dests.foldl (rawStageStep w resolved) (0, [], [])
  let direct := resolved.filterMap fun sd =>
    if sd.1 ∉ resolved.map (·.2) ∧ w.fsExists sd.1 = true then some (MCmd.move sd.1 sd.2)
    else none
  st.2.1 ++ direct ++ st.2.2

/-- What the store reports for one path: outbound links and backlinks
(`FileInfoReq(path=True, links=True, backlinks=True)`). -/
structure MFileRearr where
  links : List MLink
  backlinks : List MLink

/-- The expanded move map: each requested rename, plus one rename per
descendant of a renamed directory (`glob(src + '/**/*')` returns paths
strictly below `src`, for which `os.path.join(dest, os.path.relpath(p,
src))` appends the component suffix). -/
def allMovesOf (w : RWorld) (toMove : List (AbsP × AbsP)) : List (AbsP × AbsP) :=
  toMove.foldl (fun am sd =>
    let am1 := dictInsert sd.1 sd.2 am
    if w.isDir sd.1 then
      (w.descendants sd.1).foldl (fun am2 p =>
        dictInsert p (sd.2 ++ p.drop sd.1.length) am2) am1
    else am1) []

/-- Model of `notesdir.rearrange.edits_for_path_replacement` (the
`ValueError` that `path_as_href` raises for a scheme/netloc href is
`none`, aborting the generator). -/
def edits_for_path_replacement (referrer : AbsP) (hrefs : List PyStr) (replacement : AbsP) :
    Option (List MCmd) :=
  hrefs.foldlM (fun acc href =>
    match urlparseM href with
    | none => none
    | some url =>
      match path_as_href (href_path referrer replacement) (some url) with
      | none => none
      | some newref => some (acc ++ [MCmd.replaceHref referrer href newref])) []

/-- One outbound link of a moved file: rewrite it when its referent is
itself being moved or when re-encoding changes the string; hrefs that do
not resolve to a local file are left alone. -/
def outboundEditsOne (allMoves : List (AbsP × AbsP)) (src dest : AbsP) (l : MLink) :
    Option (List MCmd) :=
  match referentM l.referrer l.href with
  | none => some []
  | some referent =>
    let referent2 := (dictLookup referent allMoves).getD referent
    match urlparseM l.href with
    | none => none
    | some url =>
      match path_as_href (href_path dest referent2) (some url) with
      | none => none
      | some newhref =>
        some (if l.href = newhref then [] else [MCmd.replaceHref src l.href newhref])

/-- The rewrite edits contributed by one entry of `all_moves`: outbound
rewrites of the moved file itself, then inbound rewrites of every
non-moved referrer. -/
def rearrangeEntryEdits (store : AbsP → MFileRearr) (allMoves : List (AbsP × AbsP))
    (src dest : AbsP) : Option (List MCmd) := do
  let out ← (store src).links.foldlM
    (fun acc l => do pure (acc ++ (← outboundEditsOne allMoves src dest l))) []
  let inb ← (store src).backlinks.foldlM
    (fun acc l =>
      if (dictLookup l.referrer allMoves).isSome then pure acc
      else do pure (acc ++ (← edits_for_path_replacement l.referrer [l.href] dest))) []
  pure (out ++ inb)

/-- Model of `notesdir.rearrange.edits_for_rearrange`: rewrite edits for
every entry of the expanded move map, then the raw moves.  `none` models
an uncaught `ValueError` escaping the generator. -/
def edits_for_rearrange (store : AbsP → MFileRearr) (w : RWorld)
    (renames : List (AbsP × AbsP)) : Option (List MCmd) := do
  let toMove := dictOf renames
  let allMoves := allMovesOf w toMove
  let rewrites ← allMoves.foldlM
    (fun acc sd => do pure (acc ++ (← rearrangeEntryEdits store allMoves sd.1 sd.2))) []
  pure (rewrites ++ edits_for_raw_moves w toMove)

/-! ### Decomposition of the planner's output (C4) -/

/-- The destinations that coincide with a pending source and currently
exist: exactly those `edits_for_raw_moves` stages through a temporary
file, in iteration order. -/
def conflictedDests (w : RWorld) (resolved : List (AbsP × AbsP)) : List AbsP :=
  ((resolved.map (·.2)).dedup).filter fun d =>
    (dictLookup d resolved).isSome && w.fsExists d

/-- The non-conflicting moves: sources that are not also destinations
(and exist) move directly to their destination. -/
def directMoves (w : RWorld) (resolved : List (AbsP × AbsP)) : List MCmd :=
  resolved.filterMap fun sd =>
    if sd.1 ∉ resolved.map (·.2) ∧ w.fsExists sd.1 = true then some (MCmd.move sd.1 sd.2)
    else none

/-- Store for the C4 witness: no links anywhere. -/
def rearrStoreW : AbsP → MFileRearr := fun _ => ⟨[], []⟩

/-- World for the C4 witness: files `/a` and `/b` exist; `mkstemp` names
are `t0`, `t1`, ... -/
def rearrWorldW : RWorld :=
  ⟨fun p => p == [[97]] || p == [[98]], fun _ => false, fun _ => [], fun n => [116, 48 + n]⟩

/-- Renames for the C4 witness: the swap `/a` to `/b` and `/b` to `/a`. -/
def rearrRenamesW : List (AbsP × AbsP) := [([[97]], [[98]]), ([[98]], [[97]])]

/-- Strings free of tab, LF and CR (what `urlsplit`'s byte-removal leaves
unchanged). -/
def NoTabNl (s : PyStr) : Prop := ∀ c ∈ s, c ≠ 9 ∧ c ≠ 10 ∧ c ≠ 13

instance (s : PyStr) : Decidable (NoTabNl s) := by unfold NoTabNl; infer_instance

/-- The tail of `urlsplitM` after the scheme and netloc have been split
off: the bracket check and the fragment/query splits, as a named
function. -/
def urlsplitTail (schemeV netloc rest2 : PyStr) : Option SplitUrl :=
  if (91 ∈ netloc ∧ 93 ∉ netloc) ∨ (93 ∈ netloc ∧ 91 ∉ netloc) then none
  else
    let fr : PyStr × PyStr :=
      match splitFirst 35 rest2 with
      | some (a, b) => (a, b)
      | none => (rest2, [])
    let qr : PyStr × PyStr :=
      match splitFirst 63 fr.1 with
      | some (a, b) => (a, b)
      | none => (fr.1, [])
    some ⟨schemeV, netloc, qr.1, qr.2, fr.2⟩

/-! ### C7: counterexample and witness worlds -/

/-- Store for the C7 scenarios: `/r/a.md` has one backlink, the href
`a.md` found in `/r/x.md`; no other file has links. -/
def c7Store : AbsP → MFileRearr := fun p =>
  if p = [[114], [97, 46, 109, 100]] then
    ⟨[], [⟨[[114], [120, 46, 109, 100]], [97, 46, 109, 100]⟩]⟩
  else ⟨[], []⟩

/-- World for the C7 scenarios: only `/r/a.md` exists; `mkstemp` names
are `t0`, `t1`, ... -/
def c7World : RWorld :=
  ⟨fun p => p == [[114], [97, 46, 109, 100]], fun _ => false, fun _ => [], fun n => [116, 48 + n]⟩

/-- Renames for the C7 counterexample: `/r/a.md` onto itself. -/
def c7Renames : List (AbsP × AbsP) :=
  [([[114], [97, 46, 109, 100]], [[114], [97, 46, 109, 100]])]

/-- Renames for the C7 witness: `/r/a.md` to `/r/b.md`. -/
def c7wRenames : List (AbsP × AbsP) :=
  [([[114], [97, 46, 109, 100]], [[114], [98, 46, 109, 100]])]

/-! ### The repositories: filesystem walk, direct queries, and the SQLite cache

A filesystem state is modelled as the list of files the configured roots'
walk yields (`DirectRepo._paths`), in walk order: each entry carries its
canonical absolute path, its stat signature `(st_ctime, st_mtime,
st_size)`, its `skip_parse` flag, and what the accessor would parse from
its bytes (title, created, tags, links).  Tags model a Python set by its
iteration order; timestamps are numbers.  The accessor is total here (the
`ParseError` path is modelled separately for the error-handling claim). -/

structure FsEntry where
  path : AbsP
  sig : Nat × Nat × Nat
  skipParse : Bool
  title : Option PyStr
  created : Option Nat
  tags : List PyStr
  links : List PyStr
deriving DecidableEq

/-- The fields of `FileInfo` that the query paths populate (`backlinks`
stays empty under `FileInfoReq.internal()`, which is `query`'s default). -/
structure MFileInfo where
  path : AbsP
  links : List MLink
  tags : List PyStr
  title : Option PyStr
  created : Option Nat
  backlinks : List MLink
deriving DecidableEq

/-- `DirectRepo.info` for a walked entry (fields = `internal()`): an
entry marked `skip_parse` yields an otherwise-empty `FileInfo`. -/
def direct_info (e : FsEntry) : MFileInfo :=
  if e.skipParse then ⟨e.path, [], [], none, none, []⟩
  else ⟨e.path, e.links.map (fun h => ⟨e.path, h⟩), e.tags, e.title, e.created, []⟩

/-- Lexicographic comparison of Python strings by code point. -/
def lexLe : PyStr → PyStr → Bool
  | [], _ => true
  | _ :: _, [] => false
  | a :: as, b :: bs => if a < b then true else if b < a then false else lexLe as bs

/-- The sort fields of `FileQuerySortField`. -/
inductive MSortField where
  | backlinksCount
  | createdF
  | filename
  | pathF
  | tagsCount
  | title
deriving DecidableEq

/-- One entry of `FileQuery.sort_by`. -/
structure MSort where
  field : MSortField
  reverse : Bool
  ignoreCase : Bool
  missingFirst : Bool
deriving DecidableEq

/-- A missing `created` sorts as `datetime(1, 1, 1)` or
`datetime(9999, 12, 31, ...)`; the model uses 0 and a number larger than
any real timestamp. -/
def missingCreated (missingFirst : Bool) : Nat :=
  if missingFirst then 0 else 1000000000000000000

/-- `FileQuerySort.key` compared for two infos (the key of the left is
less-or-equal the key of the right). -/
def sortKeyLe (s : MSort) (x y : MFileInfo) : Bool :=
  match s.field with
  | .backlinksCount => x.backlinks.length ≤ y.backlinks.length
  | .createdF =>
    x.created.getD (missingCreated s.missingFirst) ≤ y.created.getD (missingCreated s.missingFirst)
  | .filename =>
    let bx := x.path.getLast?.getD []
    let by' := y.path.getLast?.getD []
    if s.ignoreCase then lexLe (lowerStr bx) (lowerStr by') else lexLe bx by'
  | .pathF =>
    if s.ignoreCase then lexLe (lowerStr (renderAbs x.path)) (lowerStr (renderAbs y.path))
    else lexLe (renderAbs x.path) (renderAbs y.path)
  | .tagsCount => x.tags.length ≤ y.tags.length
  | .title =>
    let kx := match x.title with
      | some t => if t = [] then (if s.missingFirst then [] else [0x10ffff])
                  else if s.ignoreCase then lowerStr t else t
      | none => if s.missingFirst then [] else [0x10ffff]
    let ky := match y.title with
      | some t => if t = [] then (if s.missingFirst then [] else [0x10ffff])
                  else if s.ignoreCase then lowerStr t else t
      | none => if s.missingFirst then [] else [0x10ffff]
    lexLe kx ky

/-- The comparison one `list.sort(key=..., reverse=...)` pass uses:
CPython's stable sort in descending mode keeps ties in original order. -/
def sortPassLe (s : MSort) (x y : MFileInfo) : Prop :=
  (if s.reverse then sortKeyLe s y x else sortKeyLe s x y) = true

instance (s : MSort) : DecidableRel (sortPassLe s) := by
  unfold sortPassLe
  infer_instance

/-- Model of `FileQuery`: tag filters (Python sets, by iteration order)
and the sort spec. -/
structure MQuery where
  includeTags : List PyStr
  excludeTags : List PyStr
  sortBy : List MSort
deriving DecidableEq

/-- Model of `FileQuery.apply_filtering`. -/
def apply_filtering (q : MQuery) (infos : List MFileInfo) : List MFileInfo :=
  infos.filter fun i =>
    q.includeTags.all (fun t => t ∈ i.tags) && q.excludeTags.all (fun t => t ∉ i.tags)

/-- Model of `FileQuery.apply_sorting`: one stable sort per sort key,
applied right to left. -/
def apply_sorting (q : MQuery) (infos : List MFileInfo) : List MFileInfo :=
  q.sortBy.reverse.foldl (fun acc s => acc.insertionSort (sortPassLe s)) infos

/-- Model of `DirectRepo.query` (fields = `internal()`, with `tags`
forced on by the tag filters). -/
def direct_query (fs : List FsEntry) (q : MQuery) : List MFileInfo :=
  apply_sorting q (apply_filtering q (fs.map direct_info))

/-! #### The SQLite cache -/

/-- A row of the `files` table. -/
structure FileRow where
  id : Nat
  path : AbsP
  existent : Bool
  sig : Option (Nat × Nat × Nat)
  title : Option PyStr
  created : Option Nat
deriving DecidableEq

/-- A row of the `file_links` table. -/
structure LinkRow where
  referrerId : Nat
  referentId : Option Nat
  href : PyStr
deriving DecidableEq

/-- The cache database: `files`, `file_tags` and `file_links` rows in
rowid order, and the next fresh rowid. -/
structure DB where
  files : List FileRow
  tags : List (Nat × PyStr)
  links : List LinkRow
  nextId : Nat
deriving DecidableEq

/-- A fresh cache database (sqlite rowids start at 1). -/
def emptyDB : DB := ⟨[], [], [], 1⟩

/-- `SELECT ... FROM files WHERE path = ?` (the path column is unique). -/
def rowByPath (p : AbsP) (rows : List FileRow) : Option FileRow :=
  rows.find? fun r => decide (r.path = p)

/-- What `SqliteRepo._refresh`'s walk loop parses for an entry: an entry
reaching the parse with `skip_parse` set yields an empty info. -/
def parsedOf (e : FsEntry) : Option PyStr × Option Nat × List PyStr × List PyStr :=
  if e.skipParse then (none, none, [], []) else (e.title, e.created, e.tags, e.links)

/-- The walk loop's running state: the database being edited,
`found_paths` (a set, kept as the list of additions), `ids_by_path`
(additions only ever use fresh keys, so lookup of the first match models
the dict), and `links_to_add` as `(referrer_id, referrer, href)`. -/
structure RSt where
  db : DB
  found : List AbsP
  idsByPath : List (AbsP × Nat)
  linksToAdd : List (Nat × AbsP × PyStr)
deriving DecidableEq

/-- One iteration of `_refresh`'s walk loop (`prior` is the snapshot of
the `files` table taken before the loop). -/
def walkStep (prior : List FileRow) (st : RSt) (e : FsEntry) : RSt :=
  let found := st.found ++ [e.path]
  match rowByPath e.path prior with
  | some r =>
    if e.skipParse then { st with found }
    else if r.sig = some e.sig then { st with found }
    else
      let info := parsedOf e
      { db := { files := st.db.files.map fun r2 =>
                  if r2.id = r.id then
                    { r2 with existent := true, sig := some e.sig,
                              title := info.1, created := info.2.1 }
                  else r2
                tags := (st.db.tags.filter fun t => t.1 ≠ r.id)
                          ++ info.2.2.1.map fun t => (r.id, t)
                links := st.db.links.filter fun l => l.referrerId ≠ r.id
                nextId := st.db.nextId }
        found
        idsByPath := st.idsByPath ++ [(e.path, r.id)]
        linksToAdd := st.linksToAdd ++ info.2.2.2.map fun h => (r.id, e.path, h) }
  | none =>
    let info := parsedOf e
    let fid := st.db.nextId
    { db := { files := st.db.files
                ++ [⟨fid, e.path, true, some e.sig, info.1, info.2.1⟩]
              tags := st.db.tags ++ info.2.2.1.map fun t => (fid, t)
              links := st.db.links
              nextId := fid + 1 }
      found
      idsByPath := st.idsByPath ++ [(e.path, fid)]
      linksToAdd := st.linksToAdd ++ info.2.2.2.map fun h => (fid, e.path, h) }

/-- One iteration of `_refresh`'s link loop: resolve the href; a local
referent is added to `found_paths` and resolved to a file id — the id
just assigned in the walk, else the prior row's id, else a freshly
inserted phantom row (`existent = FALSE`). -/
def linkStep (prior : List FileRow) (st : RSt) (x : Nat × AbsP × PyStr) : RSt :=
  match referentM x.2.1 x.2.2 with
  | none =>
    { st with db := { st.db with links := st.db.links ++ [⟨x.1, none, x.2.2⟩] } }
  | some ref =>
    let found := st.found ++ [ref]
    match (st.idsByPath.find? fun p => decide (p.1 = ref)) with
    | some p =>
      { st with found
                db := { st.db with links := st.db.links ++ [⟨x.1, some p.2, x.2.2⟩] } }
    | none =>
      match rowByPath ref prior with
      | some r =>
        { st with found
                  db := { st.db with links := st.db.links ++ [⟨x.1, some r.id, x.2.2⟩] } }
      | none =>
        let fid := st.db.nextId
        { db := { files := st.db.files ++ [⟨fid, ref, false, none, none, none⟩]
                  tags := st.db.tags
                  links := st.db.links ++ [⟨x.1, some fid, x.2.2⟩]
                  nextId := fid + 1 }
          found
          idsByPath := st.idsByPath ++ [(ref, fid)]
          linksToAdd := st.linksToAdd }

/-- One iteration of `_refresh`'s deletion loop, for a previously-known
row not revisited by the walk: the row is deleted when no link row names
it as referent, else kept with `existent = FALSE` and its content fields
cleared; its tag rows and outbound link rows go either way. -/
def deleteStep (db : DB) (r : FileRow) : DB :=
  let files :=
    if (db.links.filter fun l => l.referentId = some r.id).length = 0 then
      db.files.filter fun r2 => r2.id ≠ r.id
    else
      db.files.map fun r2 =>
        if r2.id = r.id then
          { r2 with existent := false, sig := none, title := none, created := none }
        else r2
  { db with files
            tags := db.tags.filter fun t => t.1 ≠ r.id
            links := db.links.filter fun l => l.referrerId ≠ r.id }

/-- Model of `SqliteRepo._refresh`: the walk loop, the link loop, then
the deletion loop over prior paths the walk did not revisit (and that no
re-parsed file's resolved link shielded via `found_paths`). -/
def sqlite_refresh (fs : List FsEntry) (db : DB) : DB :=
  let prior := db.files
  let st1 := fs.foldl (walkStep prior) ⟨db, [], [], []⟩
  let st2 := st1.linksToAdd.foldl (linkStep prior) { st1 with linksToAdd := [] }
  let stale := prior.filter fun r => ¬ r.path ∈ st2.found
  stale.foldl deleteStep st2.db

/-- Model of `SqliteRepo.info` (title/created come from the files row;
tag rows in rowid order model the tag set; hrefs are sorted;
`backlinks` joins the referrers and sorts by (referrer, href)). -/
def sqlite_info (db : DB) (p : AbsP) (ftags flinks fbacklinks : Bool) : MFileInfo :=
  match rowByPath p db.files with
  | none => ⟨p, [], [], none, none, []⟩
  | some r =>
    { path := p
      title := r.title
      created := r.created
      tags := if ftags then (db.tags.filter fun t => t.1 = r.id).map (·.2) else []
      links :=
        if flinks then
          (((db.links.filter fun l => l.referrerId = r.id).map (·.href)).insertionSort
              (fun a b => lexLe a b = true)).map fun h => ⟨p, h⟩
        else []
      backlinks :=
        if fbacklinks then
          ((db.links.filter fun l => l.referentId = some r.id).filterMap fun l =>
              (db.files.find? fun r2 => decide (r2.id = l.referrerId)).map fun r2 =>
                (⟨r2.path, l.href⟩ : MLink)).insertionSort
            (fun a b => (lexLe (renderAbs a.referrer) (renderAbs b.referrer)
              && (renderAbs a.referrer ≠ renderAbs b.referrer || lexLe a.href b.href)) = true)
        else []
      }

/-- Model of `SqliteRepo.query` (fields = `internal()` with `tags`
forced on): the paths of `existent = TRUE` rows in rowid order, their
infos filtered and sorted. -/
def sqlite_query (db : DB) (q : MQuery) : List MFileInfo :=
  apply_sorting q (apply_filtering q
    (((db.files.filter (·.existent)).map (·.path)).map fun p => sqlite_info db p true true false))

/-! #### Refreshing an empty cache (cold start) -/

/-- The files row the cold walk inserts for an entry, with rowid `n`. -/
def coldRow (n : Nat) (e : FsEntry) : FileRow :=
  ⟨n, e.path, true, some e.sig, (parsedOf e).1, (parsedOf e).2.1⟩

/-- The files rows the cold walk inserts, ids counting up from `n`. -/
def coldRows (n : Nat) : List FsEntry → List FileRow
  | [] => []
  | e :: fs => coldRow n e :: coldRows (n + 1) fs

/-- The tag rows the cold walk inserts. -/
def coldTags (n : Nat) : List FsEntry → List (Nat × PyStr)
  | [] => []
  | e :: fs => (parsedOf e).2.2.1.map (fun t => (n, t)) ++ coldTags (n + 1) fs

/-- The `links_to_add` list the cold walk accumulates. -/
def coldLinks (n : Nat) : List FsEntry → List (Nat × AbsP × PyStr)
  | [] => []
  | e :: fs => (parsedOf e).2.2.2.map (fun h => (n, e.path, h)) ++ coldLinks (n + 1) fs

/-- The `ids_by_path` entries the cold walk records. -/
def coldIds (n : Nat) : List FsEntry → List (AbsP × Nat)
  | [] => []
  | e :: fs => (e.path, n) :: coldIds (n + 1) fs

/-- Witness scenario for C1: two files, one tagged `j`, queried with
`include_tags = {j}` and a path sort. -/
def c1wFs : List FsEntry :=
  [⟨[[110], [97, 46, 109, 100]], (5, 6, 7), false, some [65], some 11, [[106]], []⟩,
   ⟨[[110], [98, 46, 109, 100]], (8, 9, 10), false, none, none, [], []⟩]

/-- Witness query for C1. -/
def c1wQ : MQuery := ⟨[[106]], [], [⟨MSortField.pathF, false, true, false⟩]⟩

/-- The warm-cache scenario: `/n/a.md` links to `/n/b.md`; both are
walked and cached; then `/n/b.md` is deleted and `/n/a.md` touched
(stat signature changed), and the cache is refreshed again. -/
def c1A : AbsP := [[110], [97, 46, 109, 100]]

/-- `/n/b.md`. -/
def c1B : AbsP := [[110], [98, 46, 109, 100]]

/-- The href `b.md`. -/
def c1Href : PyStr := [98, 46, 109, 100]

/-- First filesystem state: both files present. -/
def c1Fs1 : List FsEntry :=
  [⟨c1A, (0, 0, 1), false, none, none, [], [c1Href]⟩,
   ⟨c1B, (0, 0, 1), false, none, none, [], []⟩]

/-- Second filesystem state: `/n/b.md` gone, `/n/a.md` changed. -/
def c1Fs2 : List FsEntry :=
  [⟨c1A, (0, 0, 2), false, none, none, [], [c1Href]⟩]

/-- The empty query. -/
def c1Q : MQuery := ⟨[], [], []⟩

/-- The cache after the first refresh. -/
def c1Db1 : DB :=
  ⟨[⟨1, c1A, true, some (0, 0, 1), none, none⟩, ⟨2, c1B, true, some (0, 0, 1), none, none⟩],
   [], [⟨1, some 2, c1Href⟩], 3⟩

/-- The cache after the second refresh: `/n/b.md` is gone from the walk,
but re-parsing `/n/a.md` resolved its link to `/n/b.md` and added it to
`found_paths`, so the deletion loop never saw it — its row survives with
`existent = TRUE` and its stale signature. -/
def c1Db2 : DB :=
  ⟨[⟨1, c1A, true, some (0, 0, 2), none, none⟩, ⟨2, c1B, true, some (0, 0, 1), none, none⟩],
   [], [⟨1, some 2, c1Href⟩], 3⟩

/-- A wellformed cache: distinct rowids, unique paths, rowids below the
next fresh id. -/
def WfDB (db : DB) : Prop :=
  ((db.files.map (·.id)).Nodup)
  ∧ ((db.files.map (·.path)).Nodup)
  ∧ (∀ r ∈ db.files, r.id < db.nextId)
  ∧ (∀ t ∈ db.tags, t.1 < db.nextId)
  ∧ (∀ l ∈ db.links, l.referrerId < db.nextId)

instance (db : DB) : Decidable (WfDB db) :=
  inferInstanceAs (Decidable (_ ∧ _ ∧ _ ∧ _ ∧ _))

/-- Cache for the C8 witness: one row for `/n/a.md`, signature (1,1,1). -/
def c8wDb : DB :=
  ⟨[⟨1, [[110], [97, 46, 109, 100]], true, some (1, 1, 1), none, none⟩], [], [], 2⟩

/-- Walk for the C8 witness: `/n/a.md` unchanged. -/
def c8wFs : List FsEntry :=
  [⟨[[110], [97, 46, 109, 100]], (1, 1, 1), false, none, none, [], []⟩]

/-! ### C2: `DirectRepo.info` and `ParseError`

`Accessor.info` is documented "May raise ParseError", and
`DirectRepo.info` calls `self.accessor_factory(path).info()` with no
`try`: the error-handling model makes the accessor's outcome explicit as
an `Except`. -/

/-- A path as `DirectRepo.info` sees it: the skip-parse decision, whether
the path exists, and what the accessor's `info()` would do — return
parsed fields, or raise `ParseError` (`Except.error`). -/
structure FsEntryE where
  path : AbsP
  skipParse : Bool
  fsExists : Bool
  parse : Except Unit (Option PyStr × Option Nat × List PyStr × List PyStr)

/-- Model of `DirectRepo.info` (fields = `internal()`): a skip-parse or
missing path yields an otherwise-empty `FileInfo`; otherwise the
accessor is invoked and a `ParseError` propagates to the caller. -/
def direct_info_err (e : FsEntryE) : Except Unit MFileInfo :=
  if e.skipParse || !e.fsExists then Except.ok ⟨e.path, [], [], none, none, []⟩
  else
    match e.parse with
    | Except.error u => Except.error u
    | Except.ok pr =>
      Except.ok ⟨e.path, pr.2.2.2.map (fun h => (⟨e.path, h⟩ : MLink)), pr.2.2.1,
        pr.1, pr.2.1, []⟩

/-- Model of `DirectRepo.query` over such paths: every walked file's
info is computed, so the first `ParseError` aborts the whole query. -/
def direct_query_err (fs : List FsEntryE) (q : MQuery) : Except Unit (List MFileInfo) := do
  let infos ← fs.mapM direct_info_err
  pure (apply_sorting q (apply_filtering q infos))

/-! ### C9: `Notesdir.move` and existing destinations -/

/-- The filesystem and uuid source `Notesdir.move` consults: which paths
exist, which are directories, and the successive `shortuuid.uuid()`
draws. -/
structure MoveWorld where
  fsExists : AbsP → Bool
  isDir : AbsP → Bool
  uuid : Nat → PyStr

/-- `dest.name.split('.', 1)` as (stem, suffix): the suffix keeps its
leading dot. -/
def splitNameDot (name : PyStr) : PyStr × PyStr :=
  match splitFirst 46 name with
  | some ab => (ab.1, 46 :: ab.2)
  | none => (name, [])

/-- `dest.with_name(name)`. -/
def withName (p : AbsP) (name : PyStr) : AbsP := p.dropLast ++ [name]

/-- The `while` loop of `_find_available_name`, with fuel (the Python
loop can in principle draw uuids forever): each round appends
`_<uuid>` to the original stem.  Returns the chosen path and the next
uuid counter. -/
def findAvailLoop (w : MoveWorld) (stem suffix : PyStr) (unavailable : List AbsP) :
    Nat → Nat → AbsP → Option (AbsP × Nat)
  | 0, _, _ => none
  | fuel + 1, cnt, dest =>
    if dest ∈ unavailable ∨ w.fsExists dest = true then
      findAvailLoop w stem suffix unavailable fuel (cnt + 1)
        (withName dest (stem ++ 95 :: w.uuid cnt ++ suffix))
    else some (dest, cnt)

/-- Model of `notesdir.api._find_available_name`. -/
def find_available_name (w : MoveWorld) (fuel cnt : Nat) (dest : AbsP)
    (unavailable : List AbsP) : Option (AbsP × Nat) :=
  let parts := splitNameDot (dest.getLast?.getD [])
  findAvailLoop w parts.1 parts.2 unavailable fuel cnt dest

/-- One iteration of `Notesdir.move`'s planning loop: a missing source
raises `FileNotFoundError` (`none`); a directory destination (with
`into_dirs`) receives the source's filename; with `check_exists`, an
already-taken destination is silently renamed via `_find_available_name`
— not refused. -/
def movePlanStep (w : MoveWorld) (fuel : Nat) (checkExists intoDirs : Bool)
    (st : List (AbsP × AbsP) × List AbsP × Nat) (sd : AbsP × AbsP) :
    Option (List (AbsP × AbsP) × List AbsP × Nat) :=
  if w.fsExists sd.1 = false then none
  else
    let dest1 := if w.isDir sd.2 = true ∧ intoDirs = true
      then sd.2 ++ [sd.1.getLast?.getD []] else sd.2
    match (if checkExists then find_available_name w fuel st.2.2 dest1 st.2.1
           else some (dest1, st.2.2)) with
    | none => none
    | some dc => some (st.1 ++ [(sd.1, dc.1)], st.2.1 ++ [dc.1], dc.2)

/-- Model of the planning phase of `Notesdir.move` (everything before
`edits_for_rearrange` and `repo.change`): the computed `final_moves`. -/
def movePlan (w : MoveWorld) (fuel : Nat) (checkExists intoDirs : Bool)
    (moves : List (AbsP × AbsP)) : Option (List (AbsP × AbsP)) := do
  let moves1 := (dictOf moves).filter fun kv => kv.1 ≠ kv.2
  let st ← moves1.foldlM (movePlanStep w fuel checkExists intoDirs) ([], [], 0)
  pure st.1

/-- World for the C9 counterexample: `/n/a.md` and `/n/b.md` both exist;
uuids are `x`, `y`, ... -/
def c9World : MoveWorld :=
  ⟨fun p => p == [[110], [97, 46, 109, 100]] || p == [[110], [98, 46, 109, 100]],
   fun _ => false, fun n => [120 + n]⟩

/-! ### Round trip: `unquote_plus (quote s) = s` -/

theorem hexVal_hexDigitU : ∀ n < 16, hexVal (hexDigitU n) = n := by decide

theorem isHexCp_hexDigitU : ∀ n < 16, isHexCp (hexDigitU n) = true := by decide

theorem utf8DecodeRun_nil : utf8DecodeRun [] = [] := by rw [utf8DecodeRun]

theorem utf8DecodeRun_ascii (b : Nat) (t : List Nat) (h : b < 0x80) :
    utf8DecodeRun (b :: t) = b :: utf8DecodeRun t := by
  rw [utf8DecodeRun]
  simp [utf8Step, h]

theorem utf8DecodeRun_two (b b1 : Nat) (t : List Nat) (h1 : 0xC2 ≤ b) (h2 : b < 0xE0)
    (hc : isContB b1 = true) :
    utf8DecodeRun (b :: b1 :: t) = ((b - 0xC0) * 0x40 + (b1 - 0x80)) :: utf8DecodeRun t := by
  have hb0 : ¬ b < 0x80 := by omega
  have hb1 : (decide (0xC2 ≤ b) && decide (b < 0xE0)) = true := by simp; omega
  have hs : utf8Step b (b1 :: t) = ((b - 0xC0) * 0x40 + (b1 - 0x80), 1) := by
    simp [utf8Step, hb0, hb1, hc]
  rw [utf8DecodeRun, hs]
  simp

theorem utf8DecodeRun_three (b b1 b2 : Nat) (t : List Nat) (h1 : 0xE0 ≤ b) (h2 : b < 0xF0)
    (hc : isContB b1 = true) (hd : isContB b2 = true) :
    utf8DecodeRun (b :: b1 :: b2 :: t)
      = ((b - 0xE0) * 0x1000 + (b1 - 0x80) * 0x40 + (b2 - 0x80)) :: utf8DecodeRun t := by
  have hb0 : ¬ b < 0x80 := by omega
  have hb1 : (decide (0xC2 ≤ b) && decide (b < 0xE0)) = false := by simp; omega
  have hb2 : (decide (0xE0 ≤ b) && decide (b < 0xF0)) = true := by simp; omega
  have hs : utf8Step b (b1 :: b2 :: t)
      = ((b - 0xE0) * 0x1000 + (b1 - 0x80) * 0x40 + (b2 - 0x80), 2) := by
    simp [utf8Step, hb0, hb1, hb2, hc, hd]
  rw [utf8DecodeRun, hs]
  simp

theorem utf8DecodeRun_four (b b1 b2 b3 : Nat) (t : List Nat) (h1 : 0xF0 ≤ b) (h2 : b < 0xF5)
    (hc : isContB b1 = true) (hd : isContB b2 = true) (he : isContB b3 = true) :
    utf8DecodeRun (b :: b1 :: b2 :: b3 :: t)
      = ((b - 0xF0) * 0x40000 + (b1 - 0x80) * 0x1000 + (b2 - 0x80) * 0x40 + (b3 - 0x80))
          :: utf8DecodeRun t := by
  have hb0 : ¬ b < 0x80 := by omega
  have hb1 : (decide (0xC2 ≤ b) && decide (b < 0xE0)) = false := by simp; omega
  have hb2 : (decide (0xE0 ≤ b) && decide (b < 0xF0)) = false := by simp; omega
  have hb3 : (decide (0xF0 ≤ b) && decide (b < 0xF5)) = true := by simp; omega
  have hs : utf8Step b (b1 :: b2 :: b3 :: t)
      = ((b - 0xF0) * 0x40000 + (b1 - 0x80) * 0x1000 + (b2 - 0x80) * 0x40 + (b3 - 0x80), 3) := by
    simp [utf8Step, hb0, hb1, hb2, hb3, hc, hd, he]
  rw [utf8DecodeRun, hs]
  simp

theorem utf8Encode_lt256 (c : Nat) (hv : ValidCp c) : ∀ b ∈ utf8Encode c, b < 256 := by
  obtain ⟨h1, _⟩ := hv
  intro b hb
  by_cases ha : c < 0x80
  · simp [utf8Encode, ha] at hb; omega
  · by_cases hb2 : c < 0x800
    · simp [utf8Encode, ha, hb2] at hb
      rcases hb with h | h <;> omega
    · by_cases hc3 : c < 0x10000
      · simp [utf8Encode, ha, hb2, hc3] at hb
        rcases hb with h | h | h <;> omega
      · simp [utf8Encode, ha, hb2, hc3] at hb
        rcases hb with h | h | h | h <;> omega

theorem utf8DecodeRun_encode (c : Nat) (hv : ValidCp c) (t : List Nat) :
    utf8DecodeRun (utf8Encode c ++ t) = c :: utf8DecodeRun t := by
  obtain ⟨h1, h2⟩ := hv
  by_cases ha : c < 0x80
  · simp only [utf8Encode, ha, if_pos, List.cons_append, List.nil_append]
    rw [utf8DecodeRun_ascii c t ha]
  · by_cases hb : c < 0x800
    · simp only [utf8Encode, ha, hb, if_neg, if_pos, if_true, if_false, List.cons_append,
        List.nil_append]
      rw [utf8DecodeRun_two _ _ _ (by omega) (by omega) (by simp [isContB]; omega)]
      simp [List.cons.injEq]
      omega
    · by_cases hc3 : c < 0x10000
      · simp only [utf8Encode, ha, hb, hc3, if_neg, if_pos, if_true, if_false, List.cons_append,
          List.nil_append]
        rw [utf8DecodeRun_three _ _ _ _ (by omega) (by omega) (by simp [isContB]; omega)
          (by simp [isContB]; omega)]
        simp [List.cons.injEq]
        omega
      · simp only [utf8Encode, ha, hb, hc3, if_neg, if_pos, if_true, if_false, List.cons_append,
          List.nil_append]
        rw [utf8DecodeRun_four _ _ _ _ _ (by omega) (by omega) (by simp [isContB]; omega)
          (by simp [isContB]; omega) (by simp [isContB]; omega)]
        simp [List.cons.injEq]
        omega

theorem utf8DecodeRun_flatMap (cs : List Nat) (h : ∀ c ∈ cs, ValidCp c) :
    utf8DecodeRun (cs.flatMap utf8Encode) = cs := by
  induction cs with
  | nil => simp [utf8DecodeRun_nil]
  | cons c cs ih =>
    rw [List.flatMap_cons, utf8DecodeRun_encode c (h c (by simp)) _]
    rw [ih fun x hx => h x (by simp [hx])]

theorem quote_cons (c : Nat) (s : PyStr) :
    quote (c :: s)
      = (if isQuoteSafe c then [c] else (utf8Encode c).flatMap pctByte) ++ quote s := by
  rw [quote, List.flatMap_cons]
  rfl

theorem scanPct_cons_ne (c : Nat) (hc : c ≠ 37) (t : PyStr) :
    scanPct (c :: t) = .lit c :: scanPct t := by
  rw [scanPct.eq_def]
  dsimp only
  rw [if_neg hc]

theorem scanPct_pctByte (b : Nat) (hb : b < 256) (t : PyStr) :
    scanPct (pctByte b ++ t) = .byte b :: scanPct t := by
  have e1 : isHexCp (hexDigitU (b / 16)) = true := isHexCp_hexDigitU _ (by omega)
  have e2 : isHexCp (hexDigitU (b % 16)) = true := isHexCp_hexDigitU _ (by omega)
  have e3 : hexVal (hexDigitU (b / 16)) = b / 16 := hexVal_hexDigitU _ (by omega)
  have e4 : hexVal (hexDigitU (b % 16)) = b % 16 := hexVal_hexDigitU _ (by omega)
  rw [pctByte, List.cons_append, List.cons_append, List.cons_append, List.nil_append,
    scanPct.eq_def]
  dsimp only
  rw [if_pos rfl, if_pos (by simp [e1, e2])]
  rw [e3, e4]
  rw [show 16 * (b / 16) + b % 16 = b by omega]

theorem scanPct_bytes (B : List Nat) (hB : ∀ b ∈ B, b < 256) (t : PyStr) :
    scanPct (B.flatMap pctByte ++ t) = B.map .byte ++ scanPct t := by
  induction B with
  | nil => simp
  | cons b B ih =>
    rw [List.flatMap_cons, List.append_assoc, scanPct_pctByte b (hB b (by simp)) _]
    rw [ih fun x hx => hB x (by simp [hx])]
    simp

theorem isQuoteSafe_ne37 (c : Nat) (h : isQuoteSafe c = true) : c ≠ 37 := by
  intro he
  subst he
  simp [isQuoteSafe, isAlnumCp] at h

theorem scanPct_quote (s : PyStr) : (∀ c ∈ s, ValidCp c) →
    scanPct (quote s) = s.flatMap tokChunk := by
  induction s with
  | nil => intro _; simp [quote, scanPct]
  | cons c s ih =>
    intro hv
    have hvs : ∀ x ∈ s, ValidCp x := fun x hx => hv x (by simp [hx])
    rw [quote_cons, List.flatMap_cons]
    by_cases hs : isQuoteSafe c
    · rw [if_pos hs, List.cons_append, List.nil_append,
        scanPct_cons_ne c (isQuoteSafe_ne37 c hs) _, ih hvs, tokChunk, if_pos hs]
      rfl
    · rw [if_neg hs, scanPct_bytes _ (utf8Encode_lt256 c (hv c (by simp))) _, ih hvs,
        tokChunk, if_neg hs]

theorem unTokens_bytes (B : List Nat) (T : List UTok) (run : List Nat) :
    unTokens (B.map .byte ++ T) run = unTokens T (B.reverse ++ run) := by
  induction B generalizing run with
  | nil => simp
  | cons b B ih =>
    rw [List.map_cons, List.cons_append, unTokens, ih]
    simp

theorem unTokens_chunks (s : PyStr) : (∀ c ∈ s, ValidCp c) → ∀ (cs : List Nat),
    (∀ c ∈ cs, ValidCp c) →
    unTokens (s.flatMap tokChunk) (cs.flatMap utf8Encode).reverse = cs ++ s := by
  induction s with
  | nil =>
    intro _ cs hcs
    rw [List.flatMap_nil, unTokens, List.reverse_reverse, utf8DecodeRun_flatMap cs hcs]
    simp
  | cons c s ih =>
    intro hv cs hcs
    have hvs : ∀ x ∈ s, ValidCp x := fun x hx => hv x (by simp [hx])
    rw [List.flatMap_cons]
    by_cases hs : isQuoteSafe c
    · rw [tokChunk, if_pos hs, List.cons_append, List.nil_append, unTokens,
        List.reverse_reverse, utf8DecodeRun_flatMap cs hcs]
      have h0 := ih hvs [] (by simp)
      simp only [List.flatMap_nil, List.reverse_nil, List.nil_append] at h0
      rw [h0]
    · rw [tokChunk, if_neg hs, unTokens_bytes]
      have harg : (utf8Encode c).reverse ++ (cs.flatMap utf8Encode).reverse
          = ((cs ++ [c]).flatMap utf8Encode).reverse := by
        rw [List.flatMap_append]
        simp
      rw [harg, ih hvs (cs ++ [c]) ?_]
      · simp
      · intro x hx
        rcases List.mem_append.mp hx with h | h
        · exact hcs x h
        · simp at h; subst h; exact hv _ (by simp)

theorem unquote_quote (s : PyStr) (hv : ∀ c ∈ s, ValidCp c) : unquote (quote s) = s := by
  rw [unquote, scanPct_quote s hv]
  have h0 := unTokens_chunks s hv [] (by simp)
  simpa using h0

theorem mem_quote (s : PyStr) (hv : ∀ c ∈ s, ValidCp c) (x : Nat) (hx : x ∈ quote s) :
    (x ∈ s ∧ isQuoteSafe x = true) ∨ x = 37 ∨ (∃ n < 16, x = hexDigitU n) := by
  rw [quote] at hx
  rcases List.mem_flatMap.mp hx with ⟨c, hc, hmem⟩
  by_cases hs : isQuoteSafe c
  · rw [if_pos hs] at hmem
    simp at hmem
    subst hmem
    exact Or.inl ⟨hc, hs⟩
  · rw [if_neg hs] at hmem
    rcases List.mem_flatMap.mp hmem with ⟨b, hbm, hb2⟩
    have hb256 : b < 256 := utf8Encode_lt256 c (hv c hc) b hbm
    rw [pctByte] at hb2
    simp at hb2
    rcases hb2 with h | h | h
    · exact Or.inr (Or.inl h)
    · exact Or.inr (Or.inr ⟨b / 16, by omega, h⟩)
    · exact Or.inr (Or.inr ⟨b % 16, by omega, h⟩)

theorem quote_no_plus (s : PyStr) (hv : ∀ c ∈ s, ValidCp c) : ∀ x ∈ quote s, x ≠ 43 := by
  intro x hx he
  subst he
  rcases mem_quote s hv 43 hx with ⟨_, hsafe⟩ | h | ⟨n, hn, he⟩
  · simp [isQuoteSafe, isAlnumCp] at hsafe
  · omega
  · rw [hexDigitU] at he
    split at he <;> omega

theorem unquote_plus_quote (s : PyStr) (hv : ∀ c ∈ s, ValidCp c) :
    unquote_plus (quote s) = s := by
  rw [unquote_plus]
  have hmap : ((quote s).map fun c => if c == 43 then 32 else c) = quote s := by
    conv_rhs => rw [← List.map_id (quote s)]
    apply List.map_congr_left
    intro x hx
    have hne := quote_no_plus s hv x hx
    simp [hne]
  rw [hmap, unquote_quote s hv]

/-! ### Path lemmas -/

theorem normStep_names (cs : AbsP) (a : AbsP) :
    (cs.map PTok.name).foldl normStep a = a ++ cs := by
  induction cs generalizing a with
  | nil => simp
  | cons c cs ih => simp [normStep, ih]

theorem normStep_dotdots (k : Nat) (a : AbsP) :
    (List.replicate k PTok.dotdot).foldl normStep a = a.take (a.length - k) := by
  induction k generalizing a with
  | zero => simp
  | succ k ih =>
    rw [List.replicate_succ, List.foldl_cons]
    show (List.replicate k PTok.dotdot).foldl normStep a.dropLast = _
    rw [ih, List.dropLast_eq_take, List.length_take, List.take_take]
    congr 1
    omega

theorem commonPrefixLen_le_left (a b : AbsP) : commonPrefixLen a b ≤ a.length := by
  induction a generalizing b with
  | nil => simp [commonPrefixLen]
  | cons x xs ih =>
    cases b with
    | nil => simp [commonPrefixLen]
    | cons y ys =>
      rw [commonPrefixLen]
      split
      · have := ih ys
        simp only [List.length_cons]
        omega
      · simp

theorem commonPrefixLen_le_right (a b : AbsP) : commonPrefixLen a b ≤ b.length := by
  induction a generalizing b with
  | nil => simp [commonPrefixLen]
  | cons x xs ih =>
    cases b with
    | nil => simp [commonPrefixLen]
    | cons y ys =>
      rw [commonPrefixLen]
      split
      · have := ih ys
        simp only [List.length_cons]
        omega
      · simp

theorem commonPrefixLen_take (a b : AbsP) :
    a.take (commonPrefixLen a b) = b.take (commonPrefixLen a b) := by
  induction a generalizing b with
  | nil => simp [commonPrefixLen]
  | cons x xs ih =>
    cases b with
    | nil => simp [commonPrefixLen]
    | cons y ys =>
      rw [commonPrefixLen]
      split
      · rename_i he
        subst he
        simp only [Nat.add_comm 1, List.take_succ_cons]
        rw [ih ys]
      · simp

/-- The heart of the reference round trip: walking `relpath(dest, start)`
from `start` lands exactly on `dest`. -/
theorem foldl_relTokens (dest start : AbsP) :
    (relTokens dest start).foldl normStep start = dest := by
  rw [relTokens]
  set i := commonPrefixLen start dest with hi
  have hle : i ≤ start.length := commonPrefixLen_le_left _ _
  have hri : i ≤ dest.length := commonPrefixLen_le_right _ _
  have htake : start.take i = dest.take i := commonPrefixLen_take _ _
  by_cases hz : List.replicate (start.length - i) PTok.dotdot ++ (dest.drop i).map PTok.name = []
  · rw [if_pos hz]
    rcases List.append_eq_nil.mp hz with ⟨h1, h2⟩
    have hlen : start.length = i := by
      have h1' : start.length - i = 0 := by simpa using h1
      omega
    have hdrop : dest.drop i = [] := by
      cases hd : dest.drop i with
      | nil => rfl
      | cons z zs => rw [hd] at h2; simp at h2
    have hdlen : dest.length ≤ i := by
      have := List.drop_eq_nil_iff.mp hdrop
      omega
    have hstart : start = dest := by
      calc start = start.take i := by rw [← hlen]; simp
        _ = dest.take i := htake
        _ = dest := by
            apply List.take_of_length_le
            omega
    simp [normStep, hstart]
  · rw [if_neg hz, List.foldl_append, normStep_dotdots, normStep_names]
    have htt : start.length - (start.length - i) = i := by omega
    rw [htt, htake, List.take_append_drop]

theorem splitSlash_ne_nil (s : PyStr) : splitSlash s ≠ [] := by
  cases s with
  | nil => simp [splitSlash]
  | cons c rest =>
    rw [splitSlash]
    split
    · simp
    · split <;> simp

theorem splitSlash_noslash (x : PyStr) (hx : ∀ c ∈ x, c ≠ 47) : splitSlash x = [x] := by
  induction x with
  | nil => rfl
  | cons c rest ih =>
    rw [splitSlash, if_neg (hx c (by simp))]
    rw [ih fun a ha => hx a (by simp [ha])]

theorem splitSlash_sep (x : PyStr) (hx : ∀ c ∈ x, c ≠ 47) (r : PyStr) :
    splitSlash (x ++ 47 :: r) = x :: splitSlash r := by
  induction x with
  | nil => simp [splitSlash]
  | cons c rest ih =>
    rw [List.cons_append, splitSlash, if_neg (hx c (by simp))]
    rw [ih fun a ha => hx a (by simp [ha])]

theorem splitSlash_joinSlash (ps : List PyStr) (hne : ps ≠ [])
    (hp : ∀ x ∈ ps, ∀ c ∈ x, c ≠ 47) : splitSlash (joinSlash ps) = ps := by
  induction ps with
  | nil => exact absurd rfl hne
  | cons x ps ih =>
    rw [joinSlash]
    cases ps with
    | nil => simpa using splitSlash_noslash x (hp x (by simp))
    | cons y qs =>
      rw [List.flatMap_cons]
      have hjoin : y ++ qs.flatMap (fun z => 47 :: z) = joinSlash (y :: qs) := by
        rw [joinSlash]
      rw [show x ++ (47 :: y ++ qs.flatMap fun z => 47 :: z)
          = x ++ 47 :: (y ++ qs.flatMap fun z => 47 :: z) by simp]
      rw [splitSlash_sep x (hp x (by simp)), hjoin]
      rw [ih (by simp) fun z hz c hc => hp z (by simp [hz]) c hc]

theorem parseTok_renderTok (t : PTok) (hw : ∀ c, t = PTok.name c → WfComp c) :
    parseTok (renderTok t) = some t := by
  cases t with
  | dot => rfl
  | dotdot => rfl
  | name c =>
    obtain ⟨h1, h2, h3, _⟩ := hw c rfl
    rw [renderTok, parseTok, if_neg h1, if_neg h2, if_neg h3]

theorem renderTok_ne_nil (t : PTok) (hw : WfTok t) : renderTok t ≠ [] := by
  cases t with
  | dot => simp [renderTok]
  | dotdot => simp [renderTok]
  | name c => exact (hw c rfl).1

theorem renderTok_noslash (t : PTok) (hw : WfTok t) : ∀ c ∈ renderTok t, c ≠ 47 := by
  cases t with
  | dot => intro c hc; simp [renderTok] at hc; omega
  | dotdot => intro c hc; simp [renderTok] at hc; omega
  | name x =>
    intro c hc
    exact ((hw x rfl).2.2.2 c hc).2.2

theorem parseTokens_renderRel (ts : List PTok) (hne : ts ≠ []) (hw : ∀ t ∈ ts, WfTok t) :
    parseTokens (renderRel ts) = ts := by
  rw [parseTokens, renderRel]
  rw [splitSlash_joinSlash (ts.map renderTok) (by simpa using hne) ?hs]
  case hs =>
    intro x hx c hc
    rcases List.mem_map.mp hx with ⟨t, ht, he⟩
    subst he
    exact renderTok_noslash t (hw t ht) c hc
  rw [List.filterMap_map]
  have : (fun t => parseTok (renderTok t)) = fun t : PTok =>
      if WfTok t then some t else parseTok (renderTok t) := by
    funext t
    split
    · exact parseTok_renderTok t (by assumption)
    · rfl
  induction ts with
  | nil => simp
  | cons t ts ih =>
    rw [List.filterMap_cons, Function.comp_apply, parseTok_renderTok t (hw t (by simp))]
    cases ts with
    | nil => simp
    | cons u us =>
      rw [ih (by simp) (fun a ha => hw a (by simp [ha]))]

/-! ### Parsing a percent-encoded plain path -/

theorem splitFirst_not_mem (sep : Nat) (s : PyStr) (h : sep ∉ s) : splitFirst sep s = none := by
  induction s with
  | nil => rfl
  | cons c rest ih =>
    have hc : c ≠ sep := fun he => h (by simp [he])
    rw [splitFirst, if_neg hc, ih fun hm => h (by simp [hm])]

theorem quote_mem_range (s : PyStr) (hv : ∀ c ∈ s, ValidCp c) :
    ∀ x ∈ quote s, isQuoteSafe x = true ∨ x = 37 ∨ isHexCp x = true := by
  intro x hx
  rcases mem_quote s hv x hx with ⟨_, hs⟩ | h | ⟨n, hn, he⟩
  · exact Or.inl hs
  · exact Or.inr (Or.inl h)
  · exact Or.inr (Or.inr (he ▸ isHexCp_hexDigitU n hn))

theorem quote_not_special (s : PyStr) (hv : ∀ c ∈ s, ValidCp c) (x : Nat)
    (hspec : x = 35 ∨ x = 58 ∨ x = 59 ∨ x = 63) : x ∉ quote s := by
  intro hx
  rcases quote_mem_range s hv x hx with hs | h | hh
  · rcases hspec with h | h | h | h <;> (subst h; simp [isQuoteSafe, isAlnumCp] at hs)
  · omega
  · rcases hspec with h | h | h | h <;> (subst h; simp [isHexCp] at hh)

theorem quote_chars_ge37 (s : PyStr) (hv : ∀ c ∈ s, ValidCp c) :
    ∀ x ∈ quote s, 32 < x ∧ x ≠ 9 ∧ x ≠ 10 ∧ x ≠ 13 := by
  intro x hx
  rcases quote_mem_range s hv x hx with hs | h | hh
  · simp [isQuoteSafe, isAlnumCp] at hs
    omega
  · omega
  · simp [isHexCp] at hh
    omega

theorem quote_ne_nil (s : PyStr) (hne : s ≠ []) : quote s ≠ [] := by
  cases s with
  | nil => exact absurd rfl hne
  | cons c rest =>
    rw [quote_cons]
    intro he
    rcases List.append_eq_nil.mp he with ⟨h1, _⟩
    split at h1
    · simp at h1
    · have : utf8Encode c ≠ [] := by
        rw [utf8Encode]
        split
        · simp
        · split
          · simp
          · split <;> simp
      cases hd : utf8Encode c with
      | nil => exact absurd hd this
      | cons b bs =>
        rw [hd, List.flatMap_cons, pctByte] at h1
        simp at h1

theorem quote_head (c : Nat) (s : PyStr) :
    ∃ d t, quote (c :: s) = d :: t ∧ (d = c ∨ d = 37) := by
  rw [quote_cons]
  by_cases hs : isQuoteSafe c
  · rw [if_pos hs]
    exact ⟨c, quote s, rfl, Or.inl rfl⟩
  · rw [if_neg hs]
    have : ∃ b bs, utf8Encode c = b :: bs := by
      rw [utf8Encode]
      split
      · exact ⟨_, _, rfl⟩
      · split
        · exact ⟨_, _, rfl⟩
        · split
          · exact ⟨_, _, rfl⟩
          · exact ⟨_, _, rfl⟩
    obtain ⟨b, bs, hb⟩ := this
    rw [hb, List.flatMap_cons, pctByte]
    refine ⟨37, hexDigitU (b / 16) :: hexDigitU (b % 16) :: (bs.flatMap pctByte ++ quote s),
      ?_, Or.inr rfl⟩
    simp

/-- Parsing a string with none of the URL metacharacters gives a pure
path (this is the shape of every percent-encoded relative path the
planner emits). -/
theorem urlsplitM_plain (p : PyStr) (h58 : 58 ∉ p) (h35 : 35 ∉ p) (h63 : 63 ∉ p)
    (hgt : ∀ x ∈ p, 32 < x ∧ x ≠ 9 ∧ x ≠ 10 ∧ x ≠ 13) (h47 : p.take 1 ≠ [47]) :
    urlsplitM p = some ⟨[], [], p, [], []⟩ := by
  rw [urlsplitM]
  have hdrop : p.dropWhile (fun c => decide (c ≤ 32)) = p := by
    cases p with
    | nil => rfl
    | cons c rest =>
      rw [List.dropWhile_cons]
      rw [if_neg (by simpa using (hgt c (by simp)).1)]
  rw [hdrop]
  have hfilt : p.filter (fun c => c ≠ 9 && c ≠ 10 && c ≠ 13) = p := by
    apply List.filter_eq_self.mpr
    intro a ha
    have := hgt a ha
    simp
    omega
  rw [hfilt]
  rw [splitFirst_not_mem 58 p h58]
  simp only
  have htake : ¬ p.take 2 = [47, 47] := by
    intro he
    apply h47
    cases p with
    | nil => simp at he
    | cons c rest =>
      cases rest with
      | nil => simp at he
      | cons d rest2 =>
        simp at he
        simp [he.1]
  rw [if_neg htake]
  simp only
  rw [if_neg (by simp)]
  rw [splitFirst_not_mem 35 p h35]
  simp only
  rw [splitFirst_not_mem 63 p h63]

theorem urlparseM_plain (p : PyStr) (h58 : 58 ∉ p) (h35 : 35 ∉ p) (h63 : 63 ∉ p) (h59 : 59 ∉ p)
    (hgt : ∀ x ∈ p, 32 < x ∧ x ≠ 9 ∧ x ≠ 10 ∧ x ≠ 13) (h47 : p.take 1 ≠ [47]) :
    urlparseM p = some ⟨[], [], p, [], [], []⟩ := by
  rw [urlparseM, urlsplitM_plain p h58 h35 h63 hgt h47]
  simp only
  rw [if_neg (by simpa using h59)]

/-! ### Resolving a planner-emitted href -/

theorem mem_joinSlash (ps : List PyStr) (c : Nat) (hc : c ∈ joinSlash ps) :
    c = 47 ∨ ∃ x ∈ ps, c ∈ x := by
  induction ps with
  | nil => simp [joinSlash] at hc
  | cons x xs ih =>
    rw [joinSlash] at hc
    rcases List.mem_append.mp hc with h | h
    · exact Or.inr ⟨x, by simp, h⟩
    · rcases List.mem_flatMap.mp h with ⟨y, hy, hcy⟩
      rcases List.mem_cons.mp hcy with h47 | hmem
      · exact Or.inl h47
      · exact Or.inr ⟨y, by simp [hy], hmem⟩

theorem renderTok_valid (t : PTok) (hw : WfTok t) : ∀ c ∈ renderTok t, ValidCp c := by
  cases t with
  | dot => intro c hc; simp [renderTok] at hc; subst hc; constructor <;> omega
  | dotdot =>
    intro c hc
    simp [renderTok] at hc
    subst hc
    constructor <;> omega
  | name x =>
    intro c hc
    obtain ⟨h1, h2⟩ := ((hw x rfl).2.2.2 c hc).1, ((hw x rfl).2.2.2 c hc).2.1
    exact ⟨h1, h2⟩

theorem renderRel_valid (ts : List PTok) (hw : ∀ t ∈ ts, WfTok t) :
    ∀ c ∈ renderRel ts, ValidCp c := by
  intro c hc
  rcases mem_joinSlash _ c hc with h | ⟨x, hx, hcx⟩
  · subst h; constructor <;> omega
  · rcases List.mem_map.mp hx with ⟨t, ht, he⟩
    subst he
    exact renderTok_valid t (hw t ht) c hcx

theorem renderRel_ne_nil (ts : List PTok) (hne : ts ≠ []) (hw : ∀ t ∈ ts, WfTok t) :
    renderRel ts ≠ [] := by
  cases ts with
  | nil => exact absurd rfl hne
  | cons t us =>
    rw [renderRel, List.map_cons, joinSlash]
    intro he
    exact renderTok_ne_nil t (hw t (by simp)) (List.append_eq_nil.mp he).1

theorem renderRel_head_ne47 (ts : List PTok) (hw : ∀ t ∈ ts, WfTok t) (c : Nat) (s : PyStr)
    (he : renderRel ts = c :: s) : c ≠ 47 := by
  cases ts with
  | nil => simp [renderRel, joinSlash] at he
  | cons t us =>
    rw [renderRel, List.map_cons, joinSlash] at he
    cases hr : renderTok t with
    | nil => exact absurd hr (renderTok_ne_nil t (hw t (by simp)))
    | cons d ds =>
      rw [hr] at he
      simp at he
      obtain ⟨hdc, -⟩ := he
      subst hdc
      exact renderTok_noslash t (hw t (by simp)) d (by rw [hr]; simp)

theorem relTokens_ne_nil (dest start : AbsP) : relTokens dest start ≠ [] := by
  rw [relTokens]
  split
  · simp
  · assumption

theorem relTokens_wf (dest start : AbsP) (hdest : WfAbs dest) :
    ∀ t ∈ relTokens dest start, WfTok t := by
  intro t ht
  rw [relTokens] at ht
  split at ht
  · simp at ht
    subst ht
    intro c hc
    exact absurd hc (by simp)
  · rcases List.mem_append.mp ht with h | h
    · have := List.eq_of_mem_replicate h
      subst this
      intro c hc
      exact absurd hc (by simp)
    · rcases List.mem_map.mp h with ⟨x, hx, he⟩
      subst he
      intro c hc
      cases hc
      exact hdest x (List.mem_of_mem_drop hx)

/-- Resolving the percent-encoding of a wellformed relative token list
from a referrer walks those tokens from the referrer's directory. -/
theorem referentM_quoted_rel (referrer : AbsP) (ts : List PTok) (hne : ts ≠ [])
    (hw : ∀ t ∈ ts, WfTok t) :
    referentM referrer (quote (renderRel ts)) = some (ts.foldl normStep referrer.dropLast) := by
  have hvchars : ∀ c ∈ renderRel ts, ValidCp c := renderRel_valid ts hw
  have hrne : renderRel ts ≠ [] := renderRel_ne_nil ts hne hw
  have hqne : quote (renderRel ts) ≠ [] := quote_ne_nil _ hrne
  have htake : (quote (renderRel ts)).take 1 ≠ [47] := by
    cases hr : renderRel ts with
    | nil => exact absurd hr hrne
    | cons c s =>
      obtain ⟨d, t, hq, hd⟩ := quote_head c s
      rw [hq]
      have hc47 : c ≠ 47 := renderRel_head_ne47 ts hw c s hr
      have htk : List.take 1 (d :: t) = [d] := by simp
      rw [htk]
      rcases hd with h | h
      · subst h
        intro he
        simp at he
        omega
      · subst h
        simp
  have hparse : urlparseM (quote (renderRel ts)) = some ⟨[], [], quote (renderRel ts), [], [], []⟩ :=
    urlparseM_plain _ (quote_not_special _ hvchars 58 (by simp))
      (quote_not_special _ hvchars 35 (by simp)) (quote_not_special _ hvchars 63 (by simp))
      (quote_not_special _ hvchars 59 (by simp)) (quote_chars_ge37 _ hvchars) htake
  rw [referentM, hparse]
  dsimp only
  rw [if_pos (Or.inl rfl), if_neg hqne]
  rw [unquote_plus_quote _ hvchars]
  have habs : isabs (renderRel ts) = false := by
    cases hr : renderRel ts with
    | nil => exact absurd hr hrne
    | cons c s =>
      have hc47 : c ≠ 47 := renderRel_head_ne47 ts hw c s hr
      simp [isabs, hc47]
  rw [habs]
  simp only [Bool.false_eq_true, if_false]
  congr 1
  rw [realTokensRel, parseTokens_renderRel ts hne hw, List.foldl_append, normStep_names,
    List.foldl_cons]
  simp [normStep]

/-- C3: for every pair of canonical absolute paths `src` and `dest` (with
wellformed components), resolving from `src` the href produced for `dest`
— `path_as_href` applied to the relative path from `src`'s directory to
`dest` — yields exactly the canonical path of `dest`: hrefs for paths
containing special characters round-trip losslessly through
percent-encoding and percent-decoding. -/
theorem C3_href_encode_resolve_roundtrip (src dest : AbsP) (hdest : WfAbs dest) :
    ∃ h, path_as_href (href_path src dest) none = some h
      ∧ referentM src h = some dest := by
  refine ⟨quote (href_path src dest), rfl, ?_⟩
  rw [href_path, referentM_quoted_rel src (relTokens dest src.dropLast)
    (relTokens_ne_nil dest src.dropLast) (relTokens_wf dest src.dropLast hdest)]
  rw [foldl_relTokens]

/-- Witness for C3 at a concrete input with special characters: resolving
from `/notes/sub/a b.md` the emitted href for `/notes/x#1/c d.md`. -/
theorem C3_href_encode_resolve_roundtrip_witness :
    WfAbs [[120, 35, 49], [99, 32, 100, 46, 109, 100]]
    ∧ ∃ h, path_as_href (href_path [[110, 111, 116, 101, 115], [115, 117, 98],
          [97, 32, 98, 46, 109, 100]] [[120, 35, 49], [99, 32, 100, 46, 109, 100]]) none = some h
      ∧ referentM [[110, 111, 116, 101, 115], [115, 117, 98], [97, 32, 98, 46, 109, 100]] h
          = some [[120, 35, 49], [99, 32, 100, 46, 109, 100]] :=
  ⟨by decide, C3_href_encode_resolve_roundtrip _ _ (by decide)⟩

/-- C10: for every referrer path and every href that parses as a URL with
an empty (or local `file`) scheme and an empty path component — e.g. a
pure fragment reference like `#foo` — `LinkInfo.referent` returns the
referrer's own path, rather than nothing. -/
theorem C10_fragment_resolves_to_referrer (referrer : AbsP) (href : PyStr) (u : UrlParts)
    (hu : urlparseM href = some u)
    (hlocal : u.scheme = [] ∨ (u.scheme = fileStr ∧ (u.netloc = [] ∨ u.netloc = localhostStr)))
    (hpath : u.path = []) :
    referentM referrer href = some referrer := by
  rw [referentM, hu]
  dsimp only
  rw [if_pos hlocal, if_pos hpath]

/-- Witness for C10 at `#foo`. -/
theorem C10_fragment_resolves_to_referrer_witness :
    urlparseM [35, 102, 111, 111]
        = some ⟨[], [], [], [], [], [102, 111, 111]⟩
    ∧ referentM [[110], [97, 46, 109, 100]] [35, 102, 111, 111]
        = some [[110], [97, 46, 109, 100]] :=
  ⟨by decide, C10_fragment_resolves_to_referrer _ _ ⟨[], [], [], [], [], [102, 111, 111]⟩
    (by decide) (Or.inl rfl) rfl⟩

theorem stagePath_dropLast (w : RWorld) (n : Nat) (d : AbsP) :
    (stagePath w n d).dropLast = d.dropLast := by
  rw [stagePath, List.dropLast_concat]

theorem rawStage_fold (w : RWorld) (resolved : List (AbsP × AbsP)) (ds : List AbsP)
    (n0 : Nat) (a1 a2 : List MCmd) :
    ds.foldl (rawStageStep w resolved) (n0, a1, a2)
      = (n0 + (ds.filter fun d => (dictLookup d resolved).isSome && w.fsExists d).length,
         a1 ++ ((ds.filter fun d => (dictLookup d resolved).isSome && w.fsExists d).enumFrom
            n0).map (fun nd => MCmd.move nd.2 (stagePath w nd.1 nd.2)),
         a2 ++ ((ds.filter fun d => (dictLookup d resolved).isSome && w.fsExists d).enumFrom
            n0).map fun nd =>
              MCmd.move (stagePath w nd.1 nd.2) ((dictLookup nd.2 resolved).getD [])) := by
  induction ds generalizing n0 a1 a2 with
  | nil => simp
  | cons d ds ih =>
    rw [List.foldl_cons]
    by_cases hc : (dictLookup d resolved).isSome ∧ w.fsExists d = true
    · have hcb : ((dictLookup d resolved).isSome && w.fsExists d) = true := by
        simp [hc.1, hc.2]
      rw [show rawStageStep w resolved (n0, a1, a2) d
          = (n0 + 1, a1 ++ [MCmd.move d (stagePath w n0 d)],
             a2 ++ [MCmd.move (stagePath w n0 d) ((dictLookup d resolved).getD [])]) by
        rw [rawStageStep, if_pos hc]]
      rw [ih]
      simp only [List.filter_cons, hcb, if_true, List.enumFrom_cons, List.length_cons,
        List.map_cons]
      refine congrArg₂ Prod.mk (by omega) (congrArg₂ Prod.mk ?_ ?_) <;> simp
    · have hcb : ((dictLookup d resolved).isSome && w.fsExists d) = false := by
        rcases not_and_or.mp hc with h | h
        · simp [Option.not_isSome_iff_eq_none.mp h]
        · simp [Bool.of_not_eq_true h]
      rw [show rawStageStep w resolved (n0, a1, a2) d = (n0, a1, a2) by
        rw [rawStageStep, if_neg hc]]
      rw [ih]
      simp only [List.filter_cons, hcb, Bool.false_eq_true, if_false]

/-- `edits_for_raw_moves` is exactly: staged phase-1 moves for the
conflicted destinations, then the direct moves, then the phase-2
completions, with temporary names enumerated in order. -/
theorem edits_for_raw_moves_decomp (w : RWorld) (renames : List (AbsP × AbsP)) :
    edits_for_raw_moves w renames
      = ((conflictedDests w (dictOf renames)).enum.map
            fun nd => MCmd.move nd.2 (stagePath w nd.1 nd.2))
        ++ directMoves w (dictOf renames)
        ++ ((conflictedDests w (dictOf renames)).enum.map
            fun nd => MCmd.move (stagePath w nd.1 nd.2) ((dictLookup nd.2 (dictOf renames)).getD [])) := by
  rw [edits_for_raw_moves]
  rw [rawStage_fold]
  rw [conflictedDests, directMoves, List.enum]
  simp

/-- Generic invariant for the planner's accumulating option-folds. -/
theorem foldlM_all_P {α : Type} (P : MCmd → Prop) (step : List MCmd → α → Option (List MCmd))
    (xs : List α)
    (hstep : ∀ acc x, x ∈ xs → ∀ r, step acc x = some r → (∀ e ∈ acc, P e) → ∀ e ∈ r, P e) :
    ∀ acc r, (∀ e ∈ acc, P e) → xs.foldlM step acc = some r → ∀ e ∈ r, P e := by
  induction xs with
  | nil =>
    intro acc r hacc h
    rw [List.foldlM_nil] at h
    cases h
    exact hacc
  | cons x xs ih =>
    intro acc r hacc h
    rw [List.foldlM_cons] at h
    cases hs : step acc x with
    | none => rw [hs] at h; simp at h
    | some a =>
      rw [hs] at h
      simp only [Option.bind_eq_bind, Option.some_bind] at h
      exact ih (fun acc2 x2 hx2 => hstep acc2 x2 (by simp [hx2])) a r
        (hstep acc x (by simp) a hs hacc) h

theorem dictInsert_of_not_mem (k v : AbsP) (d : List (AbsP × AbsP))
    (h : k ∉ d.map (·.1)) : dictInsert k v d = d ++ [(k, v)] := by
  induction d with
  | nil => rfl
  | cons p rest ih =>
    have hne : p.1 ≠ k := fun he => h (by simp [he])
    rw [dictInsert, if_neg hne, ih fun hm => h (by simp; right; simpa using hm)]
    rfl

theorem dictInsert_keys (k v : AbsP) (d : List (AbsP × AbsP)) :
    (dictInsert k v d).map (·.1)
      = if k ∈ d.map (·.1) then d.map (·.1) else d.map (·.1) ++ [k] := by
  induction d with
  | nil => simp [dictInsert]
  | cons p rest ih =>
    rw [dictInsert]
    by_cases he : p.1 = k
    · rw [if_pos he]
      simp [he]
    · rw [if_neg he]
      simp only [List.map_cons, ih]
      by_cases hm : k ∈ rest.map (·.1)
      · rw [if_pos hm, if_pos (by simp [hm])]
      · rw [if_neg hm, if_neg (by simp [hm]; exact fun h3 => absurd h3.symm he)]
        rfl

theorem dictOf_keys_nodup (l : List (AbsP × AbsP)) : ((dictOf l).map (·.1)).Nodup := by
  suffices h : ∀ d : List (AbsP × AbsP), (d.map (·.1)).Nodup →
      ((l.foldl (fun d p => dictInsert p.1 p.2 d) d).map (·.1)).Nodup by
    exact h [] (by simp)
  induction l with
  | nil => intro d hd; simpa using hd
  | cons p rest ih =>
    intro d hd
    rw [List.foldl_cons]
    refine ih (dictInsert p.1 p.2 d) ?_
    rw [dictInsert_keys]
    split
    · exact hd
    · exact List.Nodup.append hd (by simp) (by
        intro a ha hb
        simp at hb
        subst hb
        exact absurd ha (by assumption))

theorem foldl_dictInsert_app (l : List (AbsP × AbsP)) :
    ∀ d : List (AbsP × AbsP), ((d ++ l).map (·.1)).Nodup →
      l.foldl (fun d p => dictInsert p.1 p.2 d) d = d ++ l := by
  induction l with
  | nil => intro d _; simp
  | cons p rest ih =>
    intro d hd
    rw [List.foldl_cons]
    have hnotin : p.1 ∉ d.map (·.1) := by
      intro hm
      simp only [List.map_append, List.map_cons] at hd
      exact (List.nodup_append.mp hd).2.2 hm (by simp)
    rw [dictInsert_of_not_mem p.1 p.2 d hnotin]
    rw [ih (d ++ [(p.1, p.2)]) (by
      simp only [List.map_append, List.map_cons] at hd ⊢
      simpa [List.append_assoc] using hd)]
    simp

theorem dictOf_of_keys_nodup (l : List (AbsP × AbsP)) (h : (l.map (·.1)).Nodup) :
    dictOf l = l := by
  rw [dictOf]
  simpa using foldl_dictInsert_app l [] (by simpa using h)

theorem dictOf_idem (l : List (AbsP × AbsP)) : dictOf (dictOf l) = dictOf l :=
  dictOf_of_keys_nodup (dictOf l) (dictOf_keys_nodup l)

theorem edits_for_path_replacement_all (referrer : AbsP) (hrefs : List PyStr)
    (replacement : AbsP) (r : List MCmd)
    (h : edits_for_path_replacement referrer hrefs replacement = some r) :
    ∀ e ∈ r, isReplaceCmd e = true := by
  rw [edits_for_path_replacement] at h
  refine foldlM_all_P (fun e => isReplaceCmd e = true) _ hrefs ?_ [] r (by simp) h
  intro acc href _ r2 h2 hacc
  cases hp : urlparseM href with
  | none => rw [hp] at h2; simp at h2
  | some url =>
    rw [hp] at h2
    dsimp only at h2
    cases hph : path_as_href (href_path referrer replacement) (some url) with
    | none => rw [hph] at h2; simp at h2
    | some newref =>
      rw [hph] at h2
      cases h2
      intro e he
      rcases List.mem_append.mp he with h3 | h3
      · exact hacc e h3
      · simp at h3
        subst h3
        rfl

theorem outboundEditsOne_all (allMoves : List (AbsP × AbsP)) (src dest : AbsP) (l : MLink)
    (r : List MCmd) (h : outboundEditsOne allMoves src dest l = some r) :
    ∀ e ∈ r, isReplaceCmd e = true := by
  rw [outboundEditsOne] at h
  cases hr : referentM l.referrer l.href with
  | none =>
    rw [hr] at h
    cases h
    simp
  | some referent =>
    rw [hr] at h
    dsimp only at h
    cases hp : urlparseM l.href with
    | none => rw [hp] at h; simp at h
    | some url =>
      rw [hp] at h
      dsimp only at h
      cases hph : path_as_href
          (href_path dest ((dictLookup referent allMoves).getD referent)) (some url) with
      | none => rw [hph] at h; simp at h
      | some newhref =>
        rw [hph] at h
        cases h
        intro e he
        split at he
        · simp at he
        · simp at he
          subst he
          rfl

theorem rearrangeEntryEdits_all (store : AbsP → MFileRearr) (allMoves : List (AbsP × AbsP))
    (src dest : AbsP) (r : List MCmd)
    (h : rearrangeEntryEdits store allMoves src dest = some r) :
    ∀ e ∈ r, isReplaceCmd e = true := by
  rw [rearrangeEntryEdits] at h
  cases hout : (store src).links.foldlM
      (fun acc l => do pure (acc ++ (← outboundEditsOne allMoves src dest l))) ([] : List MCmd) with
  | none => rw [hout] at h; simp at h
  | some out =>
    rw [hout] at h
    have hout_all : ∀ e ∈ out, isReplaceCmd e = true := by
      refine foldlM_all_P (fun e => isReplaceCmd e = true) _ _ ?_ [] out (by simp) hout
      intro acc l _ r2 h2 hacc
      cases ho : outboundEditsOne allMoves src dest l with
      | none => rw [ho] at h2; simp at h2
      | some es =>
        rw [ho] at h2
        simp only [Option.bind_eq_bind, Option.some_bind, Option.pure_def, Option.some.injEq] at h2
        subst h2
        intro e he
        rcases List.mem_append.mp he with h3 | h3
        · exact hacc e h3
        · exact outboundEditsOne_all allMoves src dest l es ho e h3
    cases hinb : (store src).backlinks.foldlM
        (fun acc l =>
          if (dictLookup l.referrer allMoves).isSome then pure acc
          else do pure (acc ++ (← edits_for_path_replacement l.referrer [l.href] dest)))
        ([] : List MCmd) with
    | none => rw [hinb] at h; simp at h
    | some inb =>
      rw [hinb] at h
      simp only [Option.bind_eq_bind, Option.some_bind, Option.pure_def, Option.some.injEq] at h
      subst h
      have hinb_all : ∀ e ∈ inb, isReplaceCmd e = true := by
        refine foldlM_all_P (fun e => isReplaceCmd e = true) _ _ ?_ [] inb (by simp) hinb
        intro acc l _ r2 h2 hacc
        split at h2
        · cases h2
          exact hacc
        · cases he : edits_for_path_replacement l.referrer [l.href] dest with
          | none => rw [he] at h2; simp at h2
          | some es =>
            rw [he] at h2
            simp only [Option.bind_eq_bind, Option.some_bind, Option.pure_def,
              Option.some.injEq] at h2
            subst h2
            intro e hme
            rcases List.mem_append.mp hme with h3 | h3
            · exact hacc e h3
            · exact edits_for_path_replacement_all l.referrer [l.href] dest es he e h3
      intro e he
      rcases List.mem_append.mp he with h3 | h3
      · exact hout_all e h3
      · exact hinb_all e h3

/-- C4: for every rename map given to the rearrange planner, the emitted
command list is ordered so that every ReplaceHref edit precedes every
Move command; among the moves, every destination that coincides with a
pending source (and exists) is first moved to a temporary file created in
the destination's parent directory (phase 1), the non-conflicting moves
are emitted in phase 1 as well, and the temporary files are moved to
their final destinations only after all phase-1 moves (phase 2). -/
theorem C4_planner_output_order (store : AbsP → MFileRearr) (w : RWorld)
    (renames : List (AbsP × AbsP)) (L : List MCmd)
    (hL : edits_for_rearrange store w renames = some L) :
    ∃ R, L = R
        ++ ((conflictedDests w (dictOf renames)).enum.map
            fun nd => MCmd.move nd.2 (stagePath w nd.1 nd.2))
        ++ directMoves w (dictOf renames)
        ++ ((conflictedDests w (dictOf renames)).enum.map
            fun nd => MCmd.move (stagePath w nd.1 nd.2) ((dictLookup nd.2 (dictOf renames)).getD []))
      ∧ (∀ e ∈ R, isReplaceCmd e = true)
      ∧ ∀ n d, (stagePath w n d).dropLast = d.dropLast := by
  rw [edits_for_rearrange] at hL
  cases hrw : (allMovesOf w (dictOf renames)).foldlM
      (fun acc sd => do
        pure (acc ++ (← rearrangeEntryEdits store (allMovesOf w (dictOf renames)) sd.1 sd.2)))
      ([] : List MCmd) with
  | none => rw [hrw] at hL; simp at hL
  | some rewrites =>
    rw [hrw] at hL
    simp only [Option.bind_eq_bind, Option.some_bind, Option.pure_def, Option.some.injEq] at hL
    refine ⟨rewrites, ?_, ?_, fun n d => stagePath_dropLast w n d⟩
    · rw [← hL, edits_for_raw_moves_decomp, dictOf_idem]
      simp [List.append_assoc]
    · refine foldlM_all_P (fun e => isReplaceCmd e = true) _ _ ?_ [] rewrites (by simp) hrw
      intro acc sd _ r2 h2 hacc
      cases he : rearrangeEntryEdits store (allMovesOf w (dictOf renames)) sd.1 sd.2 with
      | none => rw [he] at h2; simp at h2
      | some es =>
        rw [he] at h2
        simp only [Option.bind_eq_bind, Option.some_bind, Option.pure_def,
          Option.some.injEq] at h2
        subst h2
        intro e hme
        rcases List.mem_append.mp hme with h3 | h3
        · exact hacc e h3
        · exact rearrangeEntryEdits_all _ _ _ _ es he e h3

/-- Witness for C4 on the swap scenario. -/
theorem C4_planner_output_order_witness :
    ∃ R, ([MCmd.move [[98]] [[98, 116, 48]], MCmd.move [[97]] [[97, 116, 49]],
           MCmd.move [[98, 116, 48]] [[97]], MCmd.move [[97, 116, 49]] [[98]]] : List MCmd)
        = R
        ++ ((conflictedDests rearrWorldW (dictOf rearrRenamesW)).enum.map
            fun nd => MCmd.move nd.2 (stagePath rearrWorldW nd.1 nd.2))
        ++ directMoves rearrWorldW (dictOf rearrRenamesW)
        ++ ((conflictedDests rearrWorldW (dictOf rearrRenamesW)).enum.map
            fun nd => MCmd.move (stagePath rearrWorldW nd.1 nd.2)
              ((dictLookup nd.2 (dictOf rearrRenamesW)).getD []))
      ∧ (∀ e ∈ R, isReplaceCmd e = true)
      ∧ ∀ n d, (stagePath rearrWorldW n d).dropLast = d.dropLast :=
  C4_planner_output_order rearrStoreW rearrWorldW rearrRenamesW _ (by decide)

/-! ### Re-parsing the planner's rewritten hrefs (C7) -/

theorem splitFirst_some (sep : Nat) (s : PyStr) (a b : PyStr)
    (h : splitFirst sep s = some (a, b)) : s = a ++ sep :: b ∧ sep ∉ a := by
  induction s generalizing a with
  | nil => simp [splitFirst] at h
  | cons c rest ih =>
    rw [splitFirst] at h
    by_cases hc : c = sep
    · rw [if_pos hc] at h
      cases h
      subst hc
      simp
    · rw [if_neg hc] at h
      cases hs : splitFirst sep rest with
      | none => rw [hs] at h; simp at h
      | some ab =>
        rw [hs] at h
        simp at h
        obtain ⟨h1, h2⟩ := h
        obtain ⟨hs1, hs2⟩ := ih ab.1 (by rw [hs, ← h2])
        constructor
        · rw [← h1, List.cons_append, hs1]
        · rw [← h1]
          simp
          exact ⟨fun he => hc he.symm, hs2⟩

theorem splitFirst_append_sep (sep : Nat) (a b : PyStr) (ha : sep ∉ a) :
    splitFirst sep (a ++ sep :: b) = some (a, b) := by
  induction a with
  | nil => simp [splitFirst]
  | cons c rest ih =>
    rw [List.cons_append, splitFirst, if_neg (fun he => ha (by simp [he]))]
    rw [ih fun hm => ha (by simp [hm])]

theorem filter_noTabNl (s : PyStr) (h : NoTabNl s) :
    s.filter (fun c => c ≠ 9 && c ≠ 10 && c ≠ 13) = s := by
  apply List.filter_eq_self.mpr
  intro a ha
  obtain ⟨h1, h2, h3⟩ := h a ha
  simp [h1, h2, h3]

theorem splitFirst_none (sep : Nat) (s : PyStr) (h : splitFirst sep s = none) : sep ∉ s := by
  induction s with
  | nil => simp
  | cons c rest ih =>
    rw [splitFirst] at h
    by_cases hc : c = sep
    · rw [if_pos hc] at h
      simp at h
    · rw [if_neg hc] at h
      cases hs : splitFirst sep rest with
      | none =>
        intro hm
        rcases List.mem_cons.mp hm with he | hm2
        · exact hc he.symm
        · exact ih hs hm2
      | some ab => rw [hs] at h; simp at h

theorem urlsplit_scheme_skip (p rest : PyStr) (h58p : 58 ∉ p)
    (hm : rest = [] ∨ ∃ m t, rest = m :: t ∧ (m = 63 ∨ m = 35)) (a b : PyStr)
    (hsp : splitFirst 58 (p ++ rest) = some (a, b)) :
    ((!a.isEmpty) && a.head?.elim false isAsciiAlpha && a.all isSchemeChar) = false := by
  obtain ⟨heq, hna⟩ := splitFirst_some 58 _ a b hsp
  rcases hm with hr | ⟨m, t, hr, hm2⟩
  · subst hr
    rw [List.append_nil] at heq
    exact absurd (heq ▸ (by simp : (58 : Nat) ∈ a ++ 58 :: b)) h58p
  · subst hr
    rcases List.append_eq_append_iff.mp heq with ⟨k, hk1, hk2⟩ | ⟨k, hk1, hk2⟩
    · cases k with
      | nil =>
        rw [List.append_nil] at hk1
        simp at hk2
        obtain ⟨hm58, -⟩ := hk2
        rcases hm2 with h | h <;> omega
      | cons y ys =>
        have hym : y = m := by
          rw [List.cons_append] at hk2
          exact (List.cons.injEq _ _ _ _ ▸ hk2).1.symm
        have hma : m ∈ a := by
          rw [hk1, hym]
          simp
        have hmsc : isSchemeChar m = false := by
          rcases hm2 with h | h <;> (subst h; decide)
        have hall : a.all isSchemeChar = false := by
          rw [List.all_eq_false]
          exact ⟨m, hma, by simp [hmsc]⟩
        simp [hall]
    · cases k with
      | nil =>
        rw [List.append_nil] at hk1
        simp at hk2
        obtain ⟨hm58, -⟩ := hk2
        rcases hm2 with h | h <;> omega
      | cons y ys =>
        have hy58 : y = 58 := by
          rw [List.cons_append] at hk2
          exact (List.cons.injEq _ _ _ _ ▸ hk2).1.symm
        have : (58 : Nat) ∈ p := by
          rw [hk1, hy58]
          simp
        exact absurd this h58p

theorem dropWhile_head_gt32 (p X : PyStr) (hpne : p ≠ []) (hhd : ∀ x ∈ p, 32 < x) :
    (p ++ X).dropWhile (fun c => decide (c ≤ 32)) = p ++ X := by
  cases p with
  | nil => exact absurd rfl hpne
  | cons c cs =>
    rw [List.cons_append, List.dropWhile_cons]
    rw [if_neg (by simpa using Nat.not_le.mpr (hhd c (by simp)))]

theorem take2_ne_slashes (p X : PyStr) (hpne : p ≠ []) (h47 : p.take 1 ≠ [47]) :
    (p ++ X).take 2 ≠ [47, 47] := by
  cases p with
  | nil => exact absurd rfl hpne
  | cons c cs =>
    have hc : c ≠ 47 := by
      intro he
      exact h47 (by simp [he])
    rw [List.cons_append]
    intro he
    rw [show (2 : Nat) = 1 + 1 from rfl, List.take_succ_cons] at he
    exact hc (List.cons.injEq _ _ _ _ ▸ he).1

theorem urlsplitM_eval_tail (p tailRaw tail2 : PyStr) (hpne : p ≠ []) (h58 : 58 ∉ p)
    (hgt : ∀ x ∈ p, 32 < x ∧ x ≠ 9 ∧ x ≠ 10 ∧ x ≠ 13) (h47 : p.take 1 ≠ [47])
    (hmt : tail2 = [] ∨ ∃ m t, tail2 = m :: t ∧ (m = 63 ∨ m = 35))
    (hfilt : (p ++ tailRaw).filter (fun c => c ≠ 9 && c ≠ 10 && c ≠ 13) = p ++ tail2) :
    urlsplitM (p ++ tailRaw)
      = some ⟨[], [],
          (match splitFirst 63 (match splitFirst 35 (p ++ tail2) with
             | some ab => ab.1
             | none => p ++ tail2) with
           | some ab => ab.1
           | none => (match splitFirst 35 (p ++ tail2) with
             | some ab => ab.1
             | none => p ++ tail2)),
          (match splitFirst 63 (match splitFirst 35 (p ++ tail2) with
             | some ab => ab.1
             | none => p ++ tail2) with
           | some ab => ab.2
           | none => []),
          (match splitFirst 35 (p ++ tail2) with
           | some ab => ab.2
           | none => [])⟩ := by
  rw [urlsplitM]
  rw [dropWhile_head_gt32 p tailRaw hpne (fun x hx => (hgt x hx).1)]
  rw [hfilt]
  have hscheme : (match splitFirst 58 (p ++ tail2) with
      | some (before, after) =>
        if (!before.isEmpty) && before.head?.elim false isAsciiAlpha && before.all isSchemeChar
        then (lowerStr before, after)
        else ([], p ++ tail2)
      | none => ([], p ++ tail2)) = (([] : PyStr), p ++ tail2) := by
    cases hsp : splitFirst 58 (p ++ tail2) with
    | none => rfl
    | some ab =>
      have := urlsplit_scheme_skip p tail2 h58 hmt ab.1 ab.2 (by rw [hsp])
      simp only [this]
      rfl
  rw [hscheme]
  dsimp only
  rw [if_neg (take2_ne_slashes p tail2 hpne h47)]
  dsimp only
  rw [if_neg (by simp)]
  cases hf : splitFirst 35 (p ++ tail2) with
  | none =>
    cases hq : splitFirst 63 (p ++ tail2) with
    | none => rfl
    | some cd => rfl
  | some ab =>
    cases hq : splitFirst 63 ab.1 with
    | none => rfl
    | some cd => rfl

theorem urlparseM_quoted_qf (p query fragment : PyStr)
    (hpne : p ≠ []) (h58 : 58 ∉ p) (h35 : 35 ∉ p) (h63 : 63 ∉ p) (h59 : 59 ∉ p)
    (hgt : ∀ x ∈ p, 32 < x ∧ x ≠ 9 ∧ x ≠ 10 ∧ x ≠ 13) (h47 : p.take 1 ≠ [47])
    (hq35 : 35 ∉ query) (hqc : NoTabNl query) :
    ∃ u, urlparseM (urlunsplitM [] [] p query fragment) = some u
      ∧ u.scheme = [] ∧ u.netloc = [] ∧ u.path = p := by
  have hp2 : ¬ (([] : PyStr) ≠ [] ∨ (p ≠ [] ∧ p.take 2 = [47, 47])) := by
    rintro (h | ⟨-, h2⟩)
    · exact h rfl
    · exact take2_ne_slashes p [] hpne h47 (by simpa using h2)
  have hpf : p.filter (fun c => c ≠ 9 && c ≠ 10 && c ≠ 13) = p :=
    filter_noTabNl p fun c hc => ⟨(hgt c hc).2.1, (hgt c hc).2.2.1, (hgt c hc).2.2.2⟩
  have hqf : query.filter (fun c => c ≠ 9 && c ≠ 10 && c ≠ 13) = query := filter_noTabNl query hqc
  by_cases hqe : query = []
  · by_cases hfe : fragment = []
    · -- bare path
      have huns : urlunsplitM [] [] p query fragment = p ++ [] := by
        rw [urlunsplitM, if_neg hp2]
        simp [hqe, hfe]
      rw [huns]
      rw [urlparseM, urlsplitM_eval_tail p [] [] hpne h58 hgt h47 (Or.inl rfl)
        (by simpa using hpf)]
      rw [splitFirst_not_mem 35 _ (by simpa using h35)]
      dsimp only
      rw [splitFirst_not_mem 63 _ (by simpa using h63)]
      dsimp only
      rw [if_neg (by simpa using h59)]
      exact ⟨_, rfl, rfl, rfl, by simp⟩
    · -- fragment only
      have huns : urlunsplitM [] [] p query fragment = p ++ (35 :: fragment) := by
        rw [urlunsplitM, if_neg hp2]
        simp [hqe, hfe]
      rw [huns]
      have hfl : (p ++ 35 :: fragment).filter (fun c => c ≠ 9 && c ≠ 10 && c ≠ 13)
          = p ++ 35 :: fragment.filter (fun c => c ≠ 9 && c ≠ 10 && c ≠ 13) := by
        rw [List.filter_append, hpf, List.filter_cons]
        norm_num
      rw [urlparseM, urlsplitM_eval_tail p (35 :: fragment)
        (35 :: fragment.filter fun c => c ≠ 9 && c ≠ 10 && c ≠ 13) hpne h58 hgt h47
        (Or.inr ⟨35, _, rfl, Or.inr rfl⟩) hfl]
      rw [splitFirst_append_sep 35 p _ h35]
      dsimp only
      rw [splitFirst_not_mem 63 _ (by simpa using h63)]
      dsimp only
      rw [if_neg (by simpa using h59)]
      exact ⟨_, rfl, rfl, rfl, by simp⟩
  · by_cases hfe : fragment = []
    · -- query only
      have huns : urlunsplitM [] [] p query fragment = p ++ (63 :: query) := by
        rw [urlunsplitM, if_neg hp2]
        simp [hqe, hfe]
      rw [huns]
      have hfl : (p ++ 63 :: query).filter (fun c => c ≠ 9 && c ≠ 10 && c ≠ 13)
          = p ++ 63 :: query := by
        rw [List.filter_append, hpf, List.filter_cons]
        norm_num
        exact fun a ha => ⟨⟨(hqc a ha).1, (hqc a ha).2.1⟩, (hqc a ha).2.2⟩
      rw [urlparseM, urlsplitM_eval_tail p (63 :: query) (63 :: query) hpne h58 hgt h47
        (Or.inr ⟨63, _, rfl, Or.inl rfl⟩) hfl]
      rw [splitFirst_not_mem 35 _ (by
        simp only [List.mem_append, List.mem_cons]
        rintro (h | h | h)
        · exact h35 h
        · omega
        · exact hq35 h)]
      dsimp only
      rw [splitFirst_append_sep 63 p _ h63]
      dsimp only
      rw [if_neg (by simpa using h59)]
      exact ⟨_, rfl, rfl, rfl, by simp⟩
    · -- query and fragment
      have huns : urlunsplitM [] [] p query fragment
          = p ++ (63 :: (query ++ 35 :: fragment)) := by
        rw [urlunsplitM, if_neg hp2]
        simp [hqe, hfe]
      rw [huns]
      have hfl : (p ++ 63 :: (query ++ 35 :: fragment)).filter
            (fun c => c ≠ 9 && c ≠ 10 && c ≠ 13)
          = p ++ 63 :: (query ++ 35 ::
              fragment.filter fun c => c ≠ 9 && c ≠ 10 && c ≠ 13) := by
        rw [List.filter_append, hpf, List.filter_cons]
        norm_num
        exact fun a ha => ⟨⟨(hqc a ha).1, (hqc a ha).2.1⟩, (hqc a ha).2.2⟩
      rw [urlparseM, urlsplitM_eval_tail p (63 :: (query ++ 35 :: fragment))
        (63 :: (query ++ 35 :: fragment.filter fun c => c ≠ 9 && c ≠ 10 && c ≠ 13))
        hpne h58 hgt h47 (Or.inr ⟨63, _, rfl, Or.inl rfl⟩) hfl]
      have hre : p ++ 63 :: (query ++ 35 ::
            fragment.filter (fun c => c ≠ 9 && c ≠ 10 && c ≠ 13))
          = (p ++ 63 :: query) ++ 35 ::
            fragment.filter (fun c => c ≠ 9 && c ≠ 10 && c ≠ 13) := by
        simp
      rw [hre]
      rw [splitFirst_append_sep 35 (p ++ 63 :: query) _ (by
        simp only [List.mem_append, List.mem_cons]
        rintro (h | h | h)
        · exact h35 h
        · omega
        · exact hq35 h)]
      dsimp only
      rw [splitFirst_append_sep 63 p _ h63]
      dsimp only
      rw [if_neg (by simpa using h59)]
      exact ⟨_, rfl, rfl, rfl, by simp⟩

/-! ### Cleanliness of parsed query strings -/

theorem splitFirst_sub (sep : Nat) (s a b : PyStr) (h : splitFirst sep s = some (a, b)) :
    (∀ c ∈ a, c ∈ s) ∧ (∀ c ∈ b, c ∈ s) := by
  obtain ⟨he, -⟩ := splitFirst_some sep s a b h
  subst he
  exact ⟨fun c hc => by simp [hc], fun c hc => by simp [hc]⟩

theorem urlsplitM_as_tail (url0 : PyStr) :
    urlsplitM url0 =
      (let url1 := url0.dropWhile fun c => c ≤ 32
       let url := url1.filter fun c => c ≠ 9 && c ≠ 10 && c ≠ 13
       let sr : PyStr × PyStr :=
         match splitFirst 58 url with
         | some (before, after) =>
           if (!before.isEmpty) && before.head?.elim false isAsciiAlpha && before.all isSchemeChar
           then (lowerStr before, after)
           else ([], url)
         | none => ([], url)
       let nr : PyStr × PyStr :=
         if sr.2.take 2 = [47, 47] then splitnetlocM (sr.2.drop 2) else ([], sr.2)
       urlsplitTail sr.1 nr.1 nr.2) := rfl

theorem mem_of_mem_dropWhile (p : Nat → Bool) (l : List Nat) (c : Nat)
    (h : c ∈ l.dropWhile p) : c ∈ l := by
  induction l with
  | nil => simp at h
  | cons x xs ih =>
    rw [List.dropWhile_cons] at h
    split at h
    · exact List.mem_cons_of_mem x (ih h)
    · exact h

theorem urlsplitTail_query_clean (schemeV netloc rest2 : PyStr) (u : SplitUrl)
    (hcl : ∀ c ∈ rest2, c ≠ 9 ∧ c ≠ 10 ∧ c ≠ 13)
    (h : urlsplitTail schemeV netloc rest2 = some u) :
    35 ∉ u.query ∧ NoTabNl u.query := by
  rw [urlsplitTail] at h
  split at h
  · simp at h
  · dsimp only at h
    cases h35 : splitFirst 35 rest2 with
    | none =>
      rw [h35] at h
      dsimp only at h
      cases h63 : splitFirst 63 rest2 with
      | none =>
        rw [h63] at h
        dsimp only at h
        cases h
        exact ⟨by simp, by intro c hc; simp at hc⟩
      | some cd =>
        rw [h63] at h
        dsimp only at h
        cases h
        have hsub := splitFirst_sub 63 rest2 cd.1 cd.2 (by rw [h63])
        have h35n := splitFirst_none 35 rest2 h35
        refine ⟨fun hm => h35n (hsub.2 35 hm), fun c hc => hcl c (hsub.2 c hc)⟩
    | some ab =>
      rw [h35] at h
      dsimp only at h
      have hsub35 := splitFirst_sub 35 rest2 ab.1 ab.2 (by rw [h35])
      have h35na : 35 ∉ ab.1 := (splitFirst_some 35 rest2 ab.1 ab.2 (by rw [h35])).2
      cases h63 : splitFirst 63 ab.1 with
      | none =>
        rw [h63] at h
        dsimp only at h
        cases h
        exact ⟨by simp, by intro c hc; simp at hc⟩
      | some cd =>
        rw [h63] at h
        dsimp only at h
        cases h
        have hsub := splitFirst_sub 63 ab.1 cd.1 cd.2 (by rw [h63])
        refine ⟨fun hm => h35na (hsub.2 35 hm), fun c hc => hcl c (hsub35.1 c (hsub.2 c hc))⟩

theorem urlsplitM_query_clean (s : PyStr) (u : SplitUrl) (h : urlsplitM s = some u) :
    35 ∉ u.query ∧ NoTabNl u.query := by
  rw [urlsplitM_as_tail] at h
  dsimp only at h
  set url := List.filter (fun c => decide (c ≠ 9) && decide (c ≠ 10) && decide (c ≠ 13))
    (List.dropWhile (fun c => decide (c ≤ 32)) s) with hurl
  have hclean : ∀ c ∈ url, c ≠ 9 ∧ c ≠ 10 ∧ c ≠ 13 := by
    intro c hc
    rw [hurl] at hc
    have := List.of_mem_filter hc
    simp at this
    exact ⟨this.1.1, this.1.2, this.2⟩
  clear_value url
  clear hurl
  have hnet : ∀ x : PyStr, (∀ c ∈ x, c ≠ 9 ∧ c ≠ 10 ∧ c ≠ 13) →
      ∀ c ∈ (splitnetlocM (x.drop 2)).2, c ≠ 9 ∧ c ≠ 10 ∧ c ≠ 13 := by
    intro x hx c hc
    rw [splitnetlocM] at hc
    dsimp only at hc
    exact hx c (List.mem_of_mem_drop (mem_of_mem_dropWhile _ _ _ hc))
  cases h58 : splitFirst 58 url with
  | none =>
    rw [h58] at h
    dsimp only at h
    split at h
    · exact urlsplitTail_query_clean _ _ _ u (hnet url hclean) h
    · exact urlsplitTail_query_clean _ _ _ u hclean h
  | some ba =>
    rw [h58] at h
    dsimp only at h
    split at h
    · have hba : ∀ c ∈ ba.2, c ≠ 9 ∧ c ≠ 10 ∧ c ≠ 13 := by
        intro c hc
        exact hclean c ((splitFirst_sub 58 url ba.1 ba.2 (by rw [h58])).2 c hc)
      split at h
      · exact urlsplitTail_query_clean _ _ _ u (hnet ba.2 hba) h
      · exact urlsplitTail_query_clean _ _ _ u hba h
    · split at h
      · exact urlsplitTail_query_clean _ _ _ u (hnet url hclean) h
      · exact urlsplitTail_query_clean _ _ _ u hclean h

theorem urlparseM_query_clean (s : PyStr) (u : UrlParts) (h : urlparseM s = some u) :
    35 ∉ u.query ∧ NoTabNl u.query := by
  rw [urlparseM] at h
  cases hs : urlsplitM s with
  | none => rw [hs] at h; simp at h
  | some su =>
    rw [hs] at h
    dsimp only at h
    cases h
    exact urlsplitM_query_clean s su hs

/-! ### Resolving a rewritten href (C7) -/

theorem quote_renderRel_take1 (ts : List PTok) (hne : ts ≠ []) (hw : ∀ t ∈ ts, WfTok t) :
    (quote (renderRel ts)).take 1 ≠ [47] := by
  cases hr : renderRel ts with
  | nil => exact absurd hr (renderRel_ne_nil ts hne hw)
  | cons c s =>
    obtain ⟨d, t, hq, hd⟩ := quote_head c s
    rw [hq]
    have hc47 : c ≠ 47 := renderRel_head_ne47 ts hw c s hr
    have htk : List.take 1 (d :: t) = [d] := by simp
    rw [htk]
    rcases hd with h | h
    · subst h
      intro he
      simp at he
      omega
    · subst h
      simp

/-- Any href whose parse has empty scheme and whose path is the
percent-encoding of a wellformed relative token list resolves by walking
those tokens from the referrer's directory. -/
theorem referentM_of_parse (referrer : AbsP) (s : PyStr) (u : UrlParts) (ts : List PTok)
    (hu : urlparseM s = some u) (hsc : u.scheme = [])
    (hpath : u.path = quote (renderRel ts))
    (hne : ts ≠ []) (hw : ∀ t ∈ ts, WfTok t) :
    referentM referrer s = some (ts.foldl normStep referrer.dropLast) := by
  have hvchars : ∀ c ∈ renderRel ts, ValidCp c := renderRel_valid ts hw
  have hrne : renderRel ts ≠ [] := renderRel_ne_nil ts hne hw
  have hqne : u.path ≠ [] := by rw [hpath]; exact quote_ne_nil _ hrne
  rw [referentM, hu]
  dsimp only
  rw [if_pos (Or.inl hsc), if_neg hqne, hpath]
  rw [unquote_plus_quote _ hvchars]
  have habs : isabs (renderRel ts) = false := by
    cases hr : renderRel ts with
    | nil => exact absurd hr hrne
    | cons c s =>
      have hc47 : c ≠ 47 := renderRel_head_ne47 ts hw c s hr
      simp [isabs, hc47]
  rw [habs]
  simp only [Bool.false_eq_true, if_false]
  congr 1
  rw [realTokensRel, parseTokens_renderRel ts hne hw, List.foldl_append, normStep_names,
    List.foldl_cons]
  simp [normStep]

/-- The replacement href the planner builds for an inbound link — the
re-encoded relative path to `dest`, carrying over the original URL's
query and fragment — resolves from the referrer to `dest`. -/
theorem inbound_newref_resolves (referrer dest : AbsP) (u : UrlParts) (newref : PyStr)
    (hdest : WfAbs dest)
    (hsc : u.scheme = []) (hnl : u.netloc = []) (hpar : u.params = [])
    (hq35 : 35 ∉ u.query) (hqc : NoTabNl u.query)
    (hph : path_as_href (href_path referrer dest) (some u) = some newref) :
    referentM referrer newref = some dest := by
  rw [path_as_href] at hph
  rw [if_neg (by
    rintro ⟨h1 | h1, -⟩
    · exact h1 hsc
    · exact h1 hnl)] at hph
  cases hph
  have hne := relTokens_ne_nil dest referrer.dropLast
  have hw := relTokens_wf dest referrer.dropLast hdest
  have hhp : href_path referrer dest = renderRel (relTokens dest referrer.dropLast) := by
    rw [href_path]
  have hvchars := renderRel_valid (relTokens dest referrer.dropLast) hw
  have huu : urlunparseM { u with path := quote (href_path referrer dest) }
      = urlunsplitM [] [] (quote (renderRel (relTokens dest referrer.dropLast)))
          u.query u.fragment := by
    rw [urlunparseM]
    dsimp only
    rw [hpar]
    rw [if_neg (by simp)]
    rw [hsc, hnl, hhp]
  rw [huu]
  obtain ⟨u2, hp2, hsc2, hnl2, hpath2⟩ := urlparseM_quoted_qf
      (quote (renderRel (relTokens dest referrer.dropLast))) u.query u.fragment
      (quote_ne_nil _ (renderRel_ne_nil _ hne hw))
      (quote_not_special _ hvchars 58 (by simp)) (quote_not_special _ hvchars 35 (by simp))
      (quote_not_special _ hvchars 63 (by simp)) (quote_not_special _ hvchars 59 (by simp))
      (quote_chars_ge37 _ hvchars) (quote_renderRel_take1 _ hne hw) hq35 hqc
  rw [referentM_of_parse referrer _ u2 (relTokens dest referrer.dropLast)
    hp2 hsc2 hpath2 hne hw]
  rw [foldl_relTokens]

theorem edits_for_path_replacement_one (referrer : AbsP) (href : PyStr) (replacement : AbsP)
    (r : List MCmd) (h : edits_for_path_replacement referrer [href] replacement = some r) :
    ∃ url newref, urlparseM href = some url
      ∧ path_as_href (href_path referrer replacement) (some url) = some newref
      ∧ r = [MCmd.replaceHref referrer href newref] := by
  rw [edits_for_path_replacement] at h
  simp only [List.foldlM_cons, List.foldlM_nil] at h
  cases hp : urlparseM href with
  | none => rw [hp] at h; simp at h
  | some url =>
    rw [hp] at h
    dsimp only at h
    cases hph : path_as_href (href_path referrer replacement) (some url) with
    | none => rw [hph] at h; simp at h
    | some newref =>
      rw [hph] at h
      simp at h
      exact ⟨url, newref, rfl, hph, h.symm⟩

/-- An inbound rewrite for a move with `src ≠ dest`, against a consistent
store, never produces an edit whose replacement equals its original. -/
theorem inbound_edit_changes (referrer src dest : AbsP) (href : PyStr)
    (hsrc : referentM referrer href = some src)
    (hu : ∃ u, urlparseM href = some u ∧ u.scheme = [] ∧ u.netloc = [] ∧ u.params = [])
    (hnd : src ≠ dest) (hdest : WfAbs dest)
    (r : List MCmd) (h : edits_for_path_replacement referrer [href] dest = some r) :
    ∀ e ∈ r, ∀ a o n, e = MCmd.replaceHref a o n → o ≠ n := by
  obtain ⟨url, newref, hp, hph, hr⟩ := edits_for_path_replacement_one referrer href dest r h
  obtain ⟨u, hu1, husc, hunl, hupar⟩ := hu
  rw [hp] at hu1
  cases hu1
  obtain ⟨hq35, hqc⟩ := urlparseM_query_clean href url hp
  have hres := inbound_newref_resolves referrer dest url newref hdest husc hunl hupar hq35 hqc hph
  subst hr
  intro e he a o n hee
  simp at he
  subst he
  cases hee
  intro heq
  rw [heq, hres] at hsrc
  exact hnd (Option.some.inj hsrc).symm

/-- An outbound rewrite never produces an edit whose replacement equals
its original: the planner checks exactly this before yielding. -/
theorem outboundEditsOne_changes (allMoves : List (AbsP × AbsP)) (src dest : AbsP)
    (l : MLink) (r : List MCmd) (h : outboundEditsOne allMoves src dest l = some r) :
    ∀ e ∈ r, ∀ a o n, e = MCmd.replaceHref a o n → o ≠ n := by
  rw [outboundEditsOne] at h
  cases hr : referentM l.referrer l.href with
  | none =>
    rw [hr] at h
    cases h
    intro e he
    simp at he
  | some referent =>
    rw [hr] at h
    dsimp only at h
    cases hp : urlparseM l.href with
    | none => rw [hp] at h; simp at h
    | some url =>
      rw [hp] at h
      dsimp only at h
      cases hph : path_as_href
          (href_path dest ((dictLookup referent allMoves).getD referent)) (some url) with
      | none => rw [hph] at h; simp at h
      | some newhref =>
        rw [hph] at h
        cases h
        intro e he a o n hee
        split at he
        · simp at he
        · simp at he
          subst he
          cases hee
          assumption

theorem edits_for_raw_moves_no_replace (w : RWorld) (renames : List (AbsP × AbsP)) :
    ∀ e ∈ edits_for_raw_moves w renames, ∀ a o n, e = MCmd.replaceHref a o n → False := by
  intro e he a o n hee
  rw [edits_for_raw_moves_decomp] at he
  subst hee
  rcases List.mem_append.mp he with h1 | h2
  · rcases List.mem_append.mp h1 with h3 | h4
    · rcases List.mem_map.mp h3 with ⟨x, -, hx⟩
      simp at hx
    · rw [directMoves] at h4
      rcases List.mem_filterMap.mp h4 with ⟨x, -, hx⟩
      split at hx
      · simp at hx
      · simp at hx
  · rcases List.mem_map.mp h2 with ⟨x, -, hx⟩
    simp at hx

theorem rearrangeEntryEdits_changes (store : AbsP → MFileRearr) (allMoves : List (AbsP × AbsP))
    (src dest : AbsP) (r : List MCmd)
    (hnd : src ≠ dest) (hdest : WfAbs dest)
    (hbk : ∀ l ∈ (store src).backlinks,
        referentM l.referrer l.href = some src
        ∧ ∃ u, urlparseM l.href = some u ∧ u.scheme = [] ∧ u.netloc = [] ∧ u.params = [])
    (h : rearrangeEntryEdits store allMoves src dest = some r) :
    ∀ e ∈ r, ∀ a o n, e = MCmd.replaceHref a o n → o ≠ n := by
  rw [rearrangeEntryEdits] at h
  cases hout : (store src).links.foldlM
      (fun acc l => do pure (acc ++ (← outboundEditsOne allMoves src dest l))) ([] : List MCmd) with
  | none => rw [hout] at h; simp at h
  | some out =>
    rw [hout] at h
    have hout_all : ∀ e ∈ out, ∀ a o n, e = MCmd.replaceHref a o n → o ≠ n := by
      refine foldlM_all_P (fun e => ∀ a o n, e = MCmd.replaceHref a o n → o ≠ n) _ _ ?_
        [] out (by simp) hout
      intro acc l _ r2 h2 hacc
      cases ho : outboundEditsOne allMoves src dest l with
      | none => rw [ho] at h2; simp at h2
      | some es =>
        rw [ho] at h2
        simp only [Option.bind_eq_bind, Option.some_bind, Option.pure_def,
          Option.some.injEq] at h2
        subst h2
        intro e he
        rcases List.mem_append.mp he with h3 | h3
        · exact hacc e h3
        · exact outboundEditsOne_changes allMoves src dest l es ho e h3
    cases hinb : (store src).backlinks.foldlM
        (fun acc l =>
          if (dictLookup l.referrer allMoves).isSome then pure acc
          else do pure (acc ++ (← edits_for_path_replacement l.referrer [l.href] dest)))
        ([] : List MCmd) with
    | none => rw [hinb] at h; simp at h
    | some inb =>
      rw [hinb] at h
      simp only [Option.bind_eq_bind, Option.some_bind, Option.pure_def, Option.some.injEq] at h
      subst h
      have hinb_all : ∀ e ∈ inb, ∀ a o n, e = MCmd.replaceHref a o n → o ≠ n := by
        refine foldlM_all_P (fun e => ∀ a o n, e = MCmd.replaceHref a o n → o ≠ n) _ _ ?_
          [] inb (by simp) hinb
        intro acc l hl r2 h2 hacc
        split at h2
        · cases h2
          exact hacc
        · cases he : edits_for_path_replacement l.referrer [l.href] dest with
          | none => rw [he] at h2; simp at h2
          | some es =>
            rw [he] at h2
            simp only [Option.bind_eq_bind, Option.some_bind, Option.pure_def,
              Option.some.injEq] at h2
            subst h2
            intro e hme
            rcases List.mem_append.mp hme with h3 | h3
            · exact hacc e h3
            · exact inbound_edit_changes l.referrer src dest l.href (hbk l hl).1 (hbk l hl).2
                hnd hdest es he e h3
      intro e he
      rcases List.mem_append.mp he with h3 | h3
      · exact hout_all e h3
      · exact hinb_all e h3

/-- C7 (amended): for every rename map whose expanded moves all have
`src ≠ dest` (the spec filters moves onto themselves before planning) and
wellformed destinations, and whose recorded backlinks are consistent —
each backlink href resolves to the moved source and parses as a plain
relative URL (empty scheme, netloc and params) — the rearrange planner
never emits a ReplaceHref edit whose replacement string equals its
original string. -/
theorem C7_no_identity_rewrite (store : AbsP → MFileRearr) (w : RWorld)
    (renames : List (AbsP × AbsP)) (L : List MCmd)
    (hL : edits_for_rearrange store w renames = some L)
    (hmv : ∀ p ∈ allMovesOf w (dictOf renames), p.1 ≠ p.2 ∧ WfAbs p.2)
    (hbk : ∀ p ∈ allMovesOf w (dictOf renames), ∀ l ∈ (store p.1).backlinks,
        referentM l.referrer l.href = some p.1
        ∧ ∃ u, urlparseM l.href = some u ∧ u.scheme = [] ∧ u.netloc = [] ∧ u.params = []) :
    ∀ a o n, MCmd.replaceHref a o n ∈ L → o ≠ n := by
  rw [edits_for_rearrange] at hL
  cases hrw : (allMovesOf w (dictOf renames)).foldlM
      (fun acc sd => do
        pure (acc ++ (← rearrangeEntryEdits store (allMovesOf w (dictOf renames)) sd.1 sd.2)))
      ([] : List MCmd) with
  | none => rw [hrw] at hL; simp at hL
  | some rewrites =>
    rw [hrw] at hL
    simp only [Option.bind_eq_bind, Option.some_bind, Option.pure_def, Option.some.injEq] at hL
    have hrw_all : ∀ e ∈ rewrites, ∀ a o n, e = MCmd.replaceHref a o n → o ≠ n := by
      refine foldlM_all_P (fun e => ∀ a o n, e = MCmd.replaceHref a o n → o ≠ n) _ _ ?_
        [] rewrites (by simp) hrw
      intro acc sd hsd r2 h2 hacc
      cases he : rearrangeEntryEdits store (allMovesOf w (dictOf renames)) sd.1 sd.2 with
      | none => rw [he] at h2; simp at h2
      | some es =>
        rw [he] at h2
        simp only [Option.bind_eq_bind, Option.some_bind, Option.pure_def,
          Option.some.injEq] at h2
        subst h2
        intro e hme
        rcases List.mem_append.mp hme with h3 | h3
        · exact hacc e h3
        · exact rearrangeEntryEdits_changes store (allMovesOf w (dictOf renames)) sd.1 sd.2
            es (hmv sd hsd).1 (hmv sd hsd).2 (hbk sd hsd) he e h3
    intro a o n hmem
    rw [← hL] at hmem
    rcases List.mem_append.mp hmem with h1 | h2
    · exact hrw_all _ h1 a o n rfl
    · exact absurd rfl (fun he =>
        edits_for_raw_moves_no_replace w (dictOf renames) _ h2 a o n he)

/-- C7 counterexample: for the identity rename of `/r/a.md` onto itself —
which `edits_for_rearrange` does not filter out — the inbound backlink
`a.md` in `/r/x.md` is re-encoded to the very same string `a.md`, and the
planner emits the ReplaceHref edit anyway (its first command below has
`original = replacement = "a.md"`): the outbound loop checks
`link.href == newhref` before yielding, but `edits_for_path_replacement`
has no such check. -/
theorem C7_identity_edit_emitted :
    edits_for_rearrange c7Store c7World c7Renames
      = some [MCmd.replaceHref [[114], [120, 46, 109, 100]] [97, 46, 109, 100] [97, 46, 109, 100],
              MCmd.move [[114], [97, 46, 109, 100]] [[114], [97, 46, 109, 100, 116, 48]],
              MCmd.move [[114], [97, 46, 109, 100, 116, 48]] [[114], [97, 46, 109, 100]]] := by
  decide

/-- Witness for the amended C7 on the rename `/r/a.md` to `/r/b.md` with
the backlink `a.md` in `/r/x.md`. -/
theorem C7_no_identity_rewrite_witness :
    ∃ L, edits_for_rearrange c7Store c7World c7wRenames = some L
      ∧ (∀ p ∈ allMovesOf c7World (dictOf c7wRenames), p.1 ≠ p.2 ∧ WfAbs p.2)
      ∧ (∀ p ∈ allMovesOf c7World (dictOf c7wRenames), ∀ l ∈ (c7Store p.1).backlinks,
          referentM l.referrer l.href = some p.1
          ∧ ∃ u, urlparseM l.href = some u ∧ u.scheme = [] ∧ u.netloc = [] ∧ u.params = [])
      ∧ ∀ a o n, MCmd.replaceHref a o n ∈ L → o ≠ n := by
  have hmv : ∀ p ∈ allMovesOf c7World (dictOf c7wRenames), p.1 ≠ p.2 ∧ WfAbs p.2 := by decide
  have hbk : ∀ p ∈ allMovesOf c7World (dictOf c7wRenames), ∀ l ∈ (c7Store p.1).backlinks,
      referentM l.referrer l.href = some p.1
      ∧ ∃ u, urlparseM l.href = some u ∧ u.scheme = [] ∧ u.netloc = [] ∧ u.params = [] := by
    intro p hp l hl
    have hm : allMovesOf c7World (dictOf c7wRenames)
        = [([[114], [97, 46, 109, 100]], [[114], [98, 46, 109, 100]])] := by decide
    rw [hm] at hp
    simp at hp
    subst hp
    have hb : (c7Store [[114], [97, 46, 109, 100]]).backlinks
        = [⟨[[114], [120, 46, 109, 100]], [97, 46, 109, 100]⟩] := by decide
    rw [hb] at hl
    simp at hl
    subst hl
    refine ⟨?_, ⟨[], [], [97, 46, 109, 100], [], [], []⟩, by decide, rfl, rfl, rfl⟩
    exact referentM_quoted_rel [[114], [120, 46, 109, 100]] [PTok.name [97, 46, 109, 100]]
      (by simp) (by
        intro t ht c htc
        simp at ht
        subst ht
        cases htc
        decide)
  exact ⟨_, rfl, hmv, hbk, C7_no_identity_rewrite c7Store c7World c7wRenames _ rfl hmv hbk⟩

theorem walk_fold_cold (fs : List FsEntry) :
    ∀ (F : List FileRow) (T : List (Nat × PyStr)) (L : List LinkRow) (n : Nat)
      (fnd : List AbsP) (ids : List (AbsP × Nat)) (lta : List (Nat × AbsP × PyStr)),
    fs.foldl (walkStep []) ⟨⟨F, T, L, n⟩, fnd, ids, lta⟩
      = ⟨⟨F ++ coldRows n fs, T ++ coldTags n fs, L, n + fs.length⟩,
         fnd ++ fs.map (·.path), ids ++ coldIds n fs, lta ++ coldLinks n fs⟩ := by
  induction fs with
  | nil => intro F T L n fnd ids lta; simp [coldRows, coldTags, coldIds, coldLinks]
  | cons e fs ih =>
    intro F T L n fnd ids lta
    rw [List.foldl_cons]
    have hstep : walkStep [] ⟨⟨F, T, L, n⟩, fnd, ids, lta⟩ e
        = ⟨⟨F ++ [coldRow n e], T ++ (parsedOf e).2.2.1.map (fun t => (n, t)), L, n + 1⟩,
           fnd ++ [e.path], ids ++ [(e.path, n)],
           lta ++ (parsedOf e).2.2.2.map (fun h => (n, e.path, h))⟩ := by
      rw [walkStep]
      rfl
    rw [hstep, ih]
    simp [coldRows, coldTags, coldIds, coldLinks, coldRow]
    omega

theorem linkStep_shape (prior : List FileRow) (st : RSt) (x : Nat × AbsP × PyStr) :
    ∃ ph rid ex,
      (linkStep prior st x).db.files = st.db.files ++ ph
      ∧ (∀ r ∈ ph, r.existent = false)
      ∧ (linkStep prior st x).db.tags = st.db.tags
      ∧ (linkStep prior st x).db.links = st.db.links ++ [⟨x.1, rid, x.2.2⟩]
      ∧ (linkStep prior st x).found = st.found ++ ex := by
  rw [linkStep]
  cases hr : referentM x.2.1 x.2.2 with
  | none => exact ⟨[], none, [], by simp, by simp, rfl, rfl, by simp⟩
  | some ref =>
    dsimp only
    cases hi : st.idsByPath.find? fun p => decide (p.1 = ref) with
    | some p => exact ⟨[], some p.2, [ref], by simp, by simp, rfl, rfl, rfl⟩
    | none =>
      dsimp only
      cases hp : rowByPath ref prior with
      | some r => exact ⟨[], some r.id, [ref], by simp, by simp, rfl, rfl, rfl⟩
      | none =>
        exact ⟨[⟨st.db.nextId, ref, false, none, none, none⟩], some st.db.nextId, [ref],
          rfl, by simp, rfl, rfl, rfl⟩

theorem link_fold_shape (prior : List FileRow) (lta : List (Nat × AbsP × PyStr)) :
    ∀ st : RSt,
    ∃ ph ex,
      (lta.foldl (linkStep prior) st).db.files = st.db.files ++ ph
      ∧ (∀ r ∈ ph, r.existent = false)
      ∧ (lta.foldl (linkStep prior) st).db.tags = st.db.tags
      ∧ ((lta.foldl (linkStep prior) st).db.links.map fun l => (l.referrerId, l.href))
          = (st.db.links.map fun l => (l.referrerId, l.href))
            ++ lta.map (fun x => (x.1, x.2.2))
      ∧ (lta.foldl (linkStep prior) st).found = st.found ++ ex := by
  induction lta with
  | nil => intro st; exact ⟨[], [], by simp, by simp, rfl, by simp, by simp⟩
  | cons x lta ih =>
    intro st
    rw [List.foldl_cons]
    obtain ⟨ph1, rid, ex1, hf1, hph1, ht1, hl1, hfd1⟩ := linkStep_shape prior st x
    obtain ⟨ph2, ex2, hf2, hph2, ht2, hl2, hfd2⟩ := ih (linkStep prior st x)
    refine ⟨ph1 ++ ph2, ex1 ++ ex2, ?_, ?_, ?_, ?_, ?_⟩
    · rw [hf2, hf1, List.append_assoc]
    · intro r hrm
      rcases List.mem_append.mp hrm with h | h
      · exact hph1 r h
      · exact hph2 r h
    · rw [ht2, ht1]
    · rw [hl2, hl1]
      simp
    · rw [hfd2, hfd1, List.append_assoc]

theorem coldTags_filter_small (k : Nat) (fs : List FsEntry) :
    ∀ n, k < n → (coldTags n fs).filter (fun t => t.1 = k) = [] := by
  induction fs with
  | nil => intro n _; rfl
  | cons e fs ih =>
    intro n hk
    rw [coldTags, List.filter_append, List.filter_map]
    rw [List.filter_eq_nil_iff.mpr (by
      intro t _
      simp [Function.comp]
      omega)]
    simp only [List.map_nil, List.nil_append]
    exact ih (n + 1) (by omega)

theorem coldLinks_filter_small (k : Nat) (fs : List FsEntry) :
    ∀ n, k < n → (coldLinks n fs).filter (fun x => x.1 = k) = [] := by
  induction fs with
  | nil => intro n _; rfl
  | cons e fs ih =>
    intro n hk
    rw [coldLinks, List.filter_append, List.filter_map]
    rw [List.filter_eq_nil_iff.mpr (by
      intro t _
      simp [Function.comp]
      omega)]
    simp only [List.map_nil, List.nil_append]
    exact ih (n + 1) (by omega)

theorem cold_entry (fs : List FsEntry) (e : FsEntry) :
    ∀ n, e ∈ fs → (fs.map (·.path)).Nodup →
    ∃ k, n ≤ k
      ∧ rowByPath e.path (coldRows n fs) = some (coldRow k e)
      ∧ (coldTags n fs).filter (fun t => t.1 = k) = (parsedOf e).2.2.1.map (fun t => (k, t))
      ∧ ((coldLinks n fs).filter (fun x => x.1 = k)).map (fun x => x.2.2)
          = (parsedOf e).2.2.2 := by
  induction fs with
  | nil => intro n he; exact absurd he (by simp)
  | cons f fs ih =>
    intro n he hnd
    simp only [List.map_cons, List.nodup_cons] at hnd
    rcases List.mem_cons.mp he with he1 | he2
    · subst he1
      refine ⟨n, le_refl n, ?_, ?_, ?_⟩
      · rw [coldRows, rowByPath, List.find?_cons_of_pos _ (by simp [coldRow])]
      · rw [coldTags, List.filter_append, coldTags_filter_small n fs (n + 1) (by omega)]
        rw [List.filter_map]
        rw [List.filter_eq_self.mpr (by intro t _; simp [Function.comp])]
        simp
      · rw [coldLinks, List.filter_append, coldLinks_filter_small n fs (n + 1) (by omega)]
        rw [List.filter_map]
        rw [List.filter_eq_self.mpr (by intro t _; simp [Function.comp])]
        rw [List.append_nil, List.map_map]
        exact (List.map_congr_left fun a _ => rfl).trans (List.map_id _)
    · obtain ⟨k, hk, hrow, htags, hlinks⟩ := ih (n + 1) he2 hnd.2
      have hne : f.path ≠ e.path := by
        intro hc
        exact hnd.1 (hc ▸ List.mem_map_of_mem (·.path) he2)
      refine ⟨k, by omega, ?_, ?_, ?_⟩
      · rw [coldRows, rowByPath, List.find?_cons_of_neg _ (by simp [coldRow]; exact fun hc => hne hc)]
        exact hrow
      · rw [coldTags, List.filter_append, htags, List.filter_map]
        rw [List.filter_eq_nil_iff.mpr (by
          intro t _
          simp [Function.comp]
          omega)]
        simp
      · rw [coldLinks, List.filter_append, List.filter_map]
        rw [List.filter_eq_nil_iff.mpr (by
          intro t _
          simp [Function.comp]
          omega)]
        simpa using hlinks

theorem proj_filter (links : List LinkRow) (k : Nat) :
    ((links.filter fun l => l.referrerId = k).map (·.href))
      = (((links.map fun l => (l.referrerId, l.href)).filter fun x => x.1 = k).map (·.2)) := by
  induction links with
  | nil => rfl
  | cons l links ih =>
    simp only [List.map_cons, List.filter_cons]
    by_cases hk : l.referrerId = k
    · simp [hk, ih]
    · simp [hk, ih]

theorem coldRows_existent (fs : List FsEntry) : ∀ n,
    (coldRows n fs).filter (·.existent) = coldRows n fs := by
  induction fs with
  | nil => intro n; rfl
  | cons e fs ih =>
    intro n
    rw [coldRows, List.filter_cons, ih (n + 1)]
    simp [coldRow]

theorem coldRows_paths (fs : List FsEntry) : ∀ n,
    (coldRows n fs).map (·.path) = fs.map (·.path) := by
  induction fs with
  | nil => intro n; rfl
  | cons e fs ih =>
    intro n
    rw [coldRows, List.map_cons, ih (n + 1)]
    rfl

theorem sqlite_info_cold (fs : List FsEntry) (db : DB) (ph : List FileRow)
    (hfiles : db.files = coldRows 1 fs ++ ph)
    (htags : db.tags = coldTags 1 fs)
    (hproj : db.links.map (fun l => (l.referrerId, l.href))
        = (coldLinks 1 fs).map (fun x => (x.1, x.2.2)))
    (e : FsEntry) (he : e ∈ fs) (hnd : (fs.map (·.path)).Nodup)
    (hsort : List.Sorted (fun a b => lexLe a b = true) e.links) :
    sqlite_info db e.path true true false = direct_info e := by
  obtain ⟨k, hk, hrow, hktags, hklinks⟩ := cold_entry fs e 1 he hnd
  have hfind : rowByPath e.path db.files = some (coldRow k e) := by
    rw [hfiles, rowByPath]
    rw [rowByPath] at hrow
    rw [List.find?_append, hrow]
    rfl
  rw [sqlite_info, hfind]
  have hid : (coldRow k e).id = k := rfl
  have htagsv : ((db.tags.filter fun t => t.1 = (coldRow k e).id).map (·.2))
      = (parsedOf e).2.2.1 := by
    rw [hid, htags, hktags, List.map_map]
    exact (List.map_congr_left fun a _ => rfl).trans (List.map_id _)
  have hlinksv : ((db.links.filter fun l => l.referrerId = (coldRow k e).id).map (·.href))
      = (parsedOf e).2.2.2 := by
    rw [hid, proj_filter, hproj, List.filter_map]
    rw [List.filter_congr
      (p := (fun (x : Nat × PyStr) => decide (x.1 = k))
        ∘ fun (x : Nat × AbsP × PyStr) => (x.1, x.2.2))
      (q := fun (x : Nat × AbsP × PyStr) => decide (x.1 = k))
      (l := coldLinks 1 fs) (fun x _ => rfl)]
    rw [List.map_map]
    exact (List.map_congr_left fun a _ => rfl).trans hklinks
  have hsorted : ((db.links.filter fun l => l.referrerId = (coldRow k e).id).map
        (·.href)).insertionSort (fun a b => lexLe a b = true) = (parsedOf e).2.2.2 := by
    rw [hlinksv]
    rw [parsedOf]
    split
    · rfl
    · exact List.Sorted.insertionSort_eq hsort
  rw [direct_info]
  by_cases hs : e.skipParse
  · have hp : parsedOf e = (none, none, [], []) := by rw [parsedOf, if_pos hs]
    rw [hp] at htagsv hsorted
    simp [hs, MFileInfo.mk.injEq, htagsv, hsorted]
    exact ⟨show (coldRow k e).title = none from by simp [coldRow, hp],
           show (coldRow k e).created = none from by simp [coldRow, hp]⟩
  · have hp : parsedOf e = (e.title, e.created, e.tags, e.links) := by
      rw [parsedOf, if_neg hs]
    rw [hp] at htagsv hsorted
    simp [hs, MFileInfo.mk.injEq, htagsv, hsorted]
    exact ⟨show (coldRow k e).title = e.title from by simp [coldRow, hp],
           show (coldRow k e).created = e.created from by simp [coldRow, hp]⟩

/-- C1 (amended, cold cache): refreshing an empty cache and querying it
gives exactly the direct repository's query results, for every tag
filter and sort spec, provided the walked paths are distinct and each
file's links are in sorted order (as every accessor emits them). -/
theorem C1_cold_cache_query_equiv (fs : List FsEntry) (q : MQuery)
    (hnd : (fs.map (·.path)).Nodup)
    (hsort : ∀ e ∈ fs, List.Sorted (fun a b => lexLe a b = true) e.links) :
    sqlite_query (sqlite_refresh fs emptyDB) q = direct_query fs q := by
  have hdb : sqlite_refresh fs emptyDB
      = ((coldLinks 1 fs).foldl (linkStep [])
          ⟨⟨coldRows 1 fs, coldTags 1 fs, [], 1 + fs.length⟩,
           fs.map (·.path), coldIds 1 fs, []⟩).db := by
    rw [sqlite_refresh]
    dsimp only [emptyDB]
    rw [walk_fold_cold fs [] [] [] 1 [] [] []]
    dsimp only
    simp only [List.nil_append, List.filter_nil, List.foldl_nil]
  obtain ⟨ph, ex, hf, hph, ht, hl, hfd⟩ := link_fold_shape [] (coldLinks 1 fs)
    ⟨⟨coldRows 1 fs, coldTags 1 fs, [], 1 + fs.length⟩, fs.map (·.path), coldIds 1 fs, []⟩
  rw [hdb, sqlite_query, direct_query]
  dsimp only at hf ht hl
  have hexist : ((((coldLinks 1 fs).foldl (linkStep [])
          ⟨⟨coldRows 1 fs, coldTags 1 fs, [], 1 + fs.length⟩,
           fs.map (·.path), coldIds 1 fs, []⟩).db.files.filter (·.existent)).map (·.path))
      = fs.map (·.path) := by
    rw [hf, List.filter_append, coldRows_existent fs 1]
    rw [List.filter_eq_nil_iff.mpr (by
      intro r hr
      simp [hph r hr])]
    rw [List.append_nil, coldRows_paths fs 1]
  rw [hexist]
  have hinfos : (fs.map (·.path)).map
        (fun p => sqlite_info (((coldLinks 1 fs).foldl (linkStep [])
          ⟨⟨coldRows 1 fs, coldTags 1 fs, [], 1 + fs.length⟩,
           fs.map (·.path), coldIds 1 fs, []⟩).db) p true true false)
      = fs.map direct_info := by
    rw [List.map_map]
    refine List.map_congr_left fun e he => ?_
    exact sqlite_info_cold fs _ ph hf ht (by rw [hl]; simp) e he hnd (hsort e he)
  rw [hinfos]

/-- Witness for C1 (amended) on the two-file world. -/
theorem C1_cold_cache_query_equiv_witness :
    ((c1wFs.map (·.path)).Nodup
      ∧ ∀ e ∈ c1wFs, List.Sorted (fun a b => lexLe a b = true) e.links)
    ∧ sqlite_query (sqlite_refresh c1wFs emptyDB) c1wQ = direct_query c1wFs c1wQ :=
  ⟨⟨by decide, by decide⟩,
   C1_cold_cache_query_equiv c1wFs c1wQ (by decide) (by decide)⟩

theorem c1_href_resolves : referentM c1A c1Href = some c1B := by
  have h := referentM_quoted_rel c1A [PTok.name c1Href] (by simp) (by
    intro t ht c htc
    simp at ht
    subst ht
    cases htc
    decide)
  exact h

theorem c1_href_resolves_lit :
    referentM [[110], [97, 46, 109, 100]] [98, 46, 109, 100]
      = some [[110], [98, 46, 109, 100]] := c1_href_resolves

theorem c1_db1_eval : sqlite_refresh c1Fs1 emptyDB = c1Db1 := by
  simp [sqlite_refresh, c1Fs1, emptyDB, walkStep, linkStep, rowByPath, parsedOf,
    deleteStep, c1_href_resolves_lit, c1Db1, c1A, c1B, c1Href]

theorem c1_db2_eval : sqlite_refresh c1Fs2 c1Db1 = c1Db2 := by
  simp [sqlite_refresh, c1Fs2, c1Db1, walkStep, linkStep, rowByPath, parsedOf,
    deleteStep, c1_href_resolves_lit, c1Db2, c1A, c1B, c1Href]

/-- C1 counterexample (warm cache): after deleting `/n/b.md` and
touching `/n/a.md`, the second refresh re-parses `/n/a.md`, resolves its
link to `/n/b.md`, and thereby adds `/n/b.md` to `found_paths` — so the
deletion loop skips it.  The cached query still returns the deleted
file; the direct query does not. -/
theorem C1_warm_cache_diverges :
    sqlite_query (sqlite_refresh c1Fs2 (sqlite_refresh c1Fs1 emptyDB)) c1Q
      ≠ direct_query c1Fs2 c1Q := by
  rw [c1_db1_eval, c1_db2_eval]
  decide

/-- C5: the record of `/n/b.md` — absent from the second walk, still
referenced by `/n/a.md`'s link row — is neither deleted nor downgraded
to a phantom: it keeps `existent = TRUE`, its stale stat signature, and
is returned by queries, because `_refresh` adds every re-parsed file's
resolved referent to `found_paths`, shielding it from the deletion
loop. -/
theorem C5_absent_file_keeps_existent_row :
    ∃ r, rowByPath c1B (sqlite_refresh c1Fs2 (sqlite_refresh c1Fs1 emptyDB)).files = some r
      ∧ r.existent = true
      ∧ c1B ∉ c1Fs2.map (·.path)
      ∧ (sqlite_refresh c1Fs2 (sqlite_refresh c1Fs1 emptyDB)).links.filter
          (fun l => l.referentId = some r.id) ≠ [] := by
  rw [c1_db1_eval, c1_db2_eval]
  exact ⟨⟨2, c1B, true, some (0, 0, 1), none, none⟩, by decide, rfl, by decide, by decide⟩

/-! ### C6: tag filtering -/

theorem apply_sorting_perm (q : MQuery) (l : List MFileInfo) :
    (apply_sorting q l).Perm l := by
  rw [apply_sorting]
  generalize q.sortBy.reverse = ss
  induction ss generalizing l with
  | nil => exact List.Perm.refl l
  | cons s ss ih =>
    rw [List.foldl_cons]
    exact (ih (l.insertionSort (sortPassLe s))).trans (List.perm_insertionSort _ l)

/-- C6: for every query with include tags `I` and exclude tags `E`, the
direct repository's query returns exactly those files — among the
non-ignored files the walk yields — whose info's tag set contains every
tag of `I` and none of `E`; the sort passes only permute the results. -/
theorem C6_tag_filter_exact (fs : List FsEntry) (q : MQuery) (i : MFileInfo) :
    i ∈ direct_query fs q
      ↔ ∃ e ∈ fs, i = direct_info e
          ∧ (∀ t ∈ q.includeTags, t ∈ i.tags)
          ∧ (∀ t ∈ q.excludeTags, t ∉ i.tags) := by
  rw [direct_query, (apply_sorting_perm q _).mem_iff, apply_filtering, List.mem_filter]
  constructor
  · rintro ⟨hm, hp⟩
    obtain ⟨e, he, hie⟩ := List.mem_map.mp hm
    simp only [Bool.and_eq_true, List.all_eq_true, decide_eq_true_eq] at hp
    exact ⟨e, he, hie.symm, hp.1, fun t ht => by simpa using hp.2 t ht⟩
  · rintro ⟨e, he, hie, hinc, hexc⟩
    refine ⟨List.mem_map.mpr ⟨e, he, hie.symm⟩, ?_⟩
    simp only [Bool.and_eq_true, List.all_eq_true, decide_eq_true_eq]
    exact ⟨hinc, fun t ht => by simpa using hexc t ht⟩

/-! ### C8: the refresh pass's frame -/

theorem rowByPath_map (p : AbsP) (l : List FileRow) (f : FileRow → FileRow)
    (hf : ∀ x, (f x).path = x.path) :
    rowByPath p (l.map f) = (rowByPath p l).map f := by
  induction l with
  | nil => rfl
  | cons x xs ih =>
    rw [List.map_cons, rowByPath, rowByPath]
    by_cases hp : x.path = p
    · rw [List.find?_cons_of_pos _ (by simp [hf, hp]), List.find?_cons_of_pos _ (by simp [hp])]
      rfl
    · rw [List.find?_cons_of_neg _ (by simp [hf, hp]), List.find?_cons_of_neg _ (by simp [hp])]
      exact ih

theorem rowByPath_filter (p : AbsP) (l : List FileRow) (q : FileRow → Bool)
    (h : ∀ row ∈ l, row.path = p → q row = true) :
    rowByPath p (l.filter q) = rowByPath p l := by
  induction l with
  | nil => rfl
  | cons x xs ih =>
    rw [List.filter_cons]
    by_cases hq : q x = true
    · rw [if_pos hq, rowByPath, rowByPath]
      by_cases hp : x.path = p
      · rw [List.find?_cons_of_pos _ (by simp [hp]), List.find?_cons_of_pos _ (by simp [hp])]
      · rw [List.find?_cons_of_neg _ (by simp [hp]), List.find?_cons_of_neg _ (by simp [hp])]
        exact ih fun row hr => h row (by simp [hr])
    · rw [if_neg hq]
      have hp : x.path ≠ p := fun hc => hq (h x (by simp) hc)
      have hrhs : rowByPath p (x :: xs) = rowByPath p xs := by
        rw [rowByPath, List.find?_cons_of_neg _ (by simp [hp])]
        rfl
      rw [hrhs]
      exact ih fun row hr => h row (by simp [hr])

theorem rowByPath_append_some (p : AbsP) (l1 l2 : List FileRow) (r : FileRow)
    (h : rowByPath p l1 = some r) : rowByPath p (l1 ++ l2) = some r := by
  rw [rowByPath, List.find?_append]
  rw [rowByPath] at h
  rw [h]
  rfl

theorem rowByPath_append_none (p : AbsP) (l1 l2 : List FileRow)
    (h : rowByPath p l1 = none) : rowByPath p (l1 ++ l2) = rowByPath p l2 := by
  rw [rowByPath, List.find?_append]
  rw [rowByPath] at h
  rw [h]
  rfl

theorem rowByPath_mem_and_path (p : AbsP) (l : List FileRow) (r : FileRow)
    (h : rowByPath p l = some r) : r ∈ l ∧ r.path = p := by
  rw [rowByPath] at h
  refine ⟨List.mem_of_find?_eq_some h, ?_⟩
  have := List.find?_some h
  simpa using this

/-- The link loop appends rows: the new rows' `(referrer_id, href)`
projection is exactly `links_to_add`'s. -/
theorem link_fold_rows (prior : List FileRow) (lta : List (Nat × AbsP × PyStr)) :
    ∀ st : RSt,
    ∃ nr, (lta.foldl (linkStep prior) st).db.links = st.db.links ++ nr
      ∧ nr.map (fun l => (l.referrerId, l.href)) = lta.map (fun x => (x.1, x.2.2)) := by
  induction lta with
  | nil => intro st; exact ⟨[], by simp, by simp⟩
  | cons x lta ih =>
    intro st
    rw [List.foldl_cons]
    obtain ⟨ph1, rid, ex1, hf1, hph1, ht1, hl1, hfd1⟩ := linkStep_shape prior st x
    obtain ⟨nr, hnr, hnrp⟩ := ih (linkStep prior st x)
    refine ⟨⟨x.1, rid, x.2.2⟩ :: nr, ?_, ?_⟩
    · rw [hnr, hl1]
      simp
    · simp [hnrp]

theorem filter_key_of_del {α : Type} (l : List α) (f : α → Nat) (j k : Nat) (hjk : j ≠ k) :
    ((l.filter fun a => f a ≠ j).filter fun a => f a = k) = l.filter fun a => f a = k := by
  induction l with
  | nil => rfl
  | cons x xs ih =>
    rw [List.filter_cons]
    by_cases hx : f x = k
    · rw [if_pos (by simp [hx]; omega), List.filter_cons, if_pos (by simp [hx]),
        List.filter_cons, if_pos (by simp [hx]), ih]
    · by_cases hj : f x = j
      · rw [if_neg (by simp [hj]), List.filter_cons, if_neg (by simp [hx]), ih]
      · rw [if_pos (by simp [hj]), List.filter_cons, if_neg (by simp [hx]),
          List.filter_cons, if_neg (by simp [hx]), ih]

theorem filter_key_app_ne {α : Type} (l1 l2 : List α) (f : α → Nat) (k : Nat)
    (h : ∀ a ∈ l2, f a ≠ k) :
    ((l1 ++ l2).filter fun a => f a = k) = l1.filter fun a => f a = k := by
  rw [List.filter_append]
  have h2 : (l2.filter fun a => f a = k) = [] := List.filter_eq_nil_iff.mpr (by
    intro a ha
    simp [h a ha])
  rw [h2, List.append_nil]

/-- One walk-loop iteration for an entry whose path is not `ppath` keeps
every fact about `ppath`'s row (id `k`) and about id `k`'s tag and link
rows; it only ever touches ids of other prior rows or fresh ids. -/
theorem walkStep_frame (prior : List FileRow) (ppath : AbsP) (k : Nat) (st : RSt) (e2 : FsEntry)
    (hne : e2.path ≠ ppath)
    (hprid : ∀ r2 ∈ prior, r2.path ≠ ppath → r2.id ≠ k)
    (hI1 : ∀ row ∈ st.db.files, row.path = ppath → row.id = k)
    (hk : k < st.db.nextId) :
    rowByPath ppath (walkStep prior st e2).db.files = rowByPath ppath st.db.files
    ∧ ((walkStep prior st e2).db.tags.filter fun t => t.1 = k)
        = (st.db.tags.filter fun t => t.1 = k)
    ∧ ((walkStep prior st e2).db.links.filter fun l => l.referrerId = k)
        = (st.db.links.filter fun l => l.referrerId = k)
    ∧ ((walkStep prior st e2).linksToAdd.filter fun x => x.1 = k)
        = (st.linksToAdd.filter fun x => x.1 = k)
    ∧ st.db.nextId ≤ (walkStep prior st e2).db.nextId
    ∧ (∀ row ∈ (walkStep prior st e2).db.files, row.path = ppath → row.id = k)
    ∧ st.found ⊆ (walkStep prior st e2).found
    ∧ st.idsByPath ⊆ (walkStep prior st e2).idsByPath := by
  rw [walkStep]
  cases hrow : rowByPath e2.path prior with
  | some r2 =>
    obtain ⟨hr2m, hr2p⟩ := rowByPath_mem_and_path _ _ _ hrow
    have hr2k : r2.id ≠ k := hprid r2 hr2m (by rw [hr2p]; exact hne)
    dsimp only
    by_cases hskip : e2.skipParse
    · rw [if_pos hskip]
      exact ⟨rfl, rfl, rfl, rfl, le_refl _, hI1, fun a ha => List.mem_append_left _ ha,
        fun a ha => ha⟩
    · rw [if_neg hskip]
      by_cases hsig : r2.sig = some e2.sig
      · rw [if_pos hsig]
        exact ⟨rfl, rfl, rfl, rfl, le_refl _, hI1, fun a ha => List.mem_append_left _ ha,
        fun a ha => ha⟩
      · rw [if_neg hsig]
        dsimp only
        refine ⟨?_, ?_, ?_, ?_, le_refl _, ?_, fun a ha => List.mem_append_left _ ha,
          fun a ha => List.mem_append_left _ ha⟩
        · rw [rowByPath_map _ _ _ (by
            intro x
            split
            · rfl
            · rfl)]
          cases hf : rowByPath ppath st.db.files with
          | none => rfl
          | some rf =>
            obtain ⟨hrfm, hrfp⟩ := rowByPath_mem_and_path _ _ _ hf
            have hrfk : rf.id = k := hI1 rf hrfm hrfp
            dsimp only [Option.map]
            rw [if_neg (by rw [hrfk]; exact fun hc => hr2k hc.symm)]
        · rw [filter_key_app_ne _ _ (fun t : Nat × PyStr => t.1) _ (by
            intro a ha
            rcases List.mem_map.mp ha with ⟨t, -, ht⟩
            rw [← ht]
            exact fun hc => hr2k hc)]
          exact filter_key_of_del _ _ _ _ hr2k
        · exact filter_key_of_del _ _ _ _ hr2k
        · exact filter_key_app_ne _ _ (fun x : Nat × AbsP × PyStr => x.1) _ (by
            intro a ha
            rcases List.mem_map.mp ha with ⟨t, -, ht⟩
            rw [← ht]
            exact fun hc => hr2k hc)
        · intro row hrm hrp
          rcases List.mem_map.mp hrm with ⟨row0, hrow0, hrow0e⟩
          subst hrow0e
          have hp0 : row0.path = ppath := by
            revert hrp
            split
            · exact fun h => h
            · exact fun h => h
          have hk0 := hI1 row0 hrow0 hp0
          split
          · exact hk0
          · exact hk0
  | none =>
    dsimp only
    refine ⟨?_, ?_, rfl, ?_, by simp, ?_, fun a ha => List.mem_append_left _ ha,
      fun a ha => List.mem_append_left _ ha⟩
    · cases hf : rowByPath ppath st.db.files with
      | some rf => rw [rowByPath_append_some _ _ _ _ hf]
      | none =>
        rw [rowByPath_append_none _ _ _ hf, rowByPath,
          List.find?_cons_of_neg _ (by simp [hne])]
        rfl
    · exact filter_key_app_ne _ _ (fun t : Nat × PyStr => t.1) _ (by
        intro a ha
        rcases List.mem_map.mp ha with ⟨t, -, ht⟩
        rw [← ht]
        intro hc
        dsimp at hc
        omega)
    · exact filter_key_app_ne _ _ (fun x : Nat × AbsP × PyStr => x.1) _ (by
        intro a ha
        rcases List.mem_map.mp ha with ⟨t, -, ht⟩
        rw [← ht]
        intro hc
        dsimp at hc
        omega)
    · intro row hrm hrp
      rcases List.mem_append.mp hrm with h1 | h1
      · exact hI1 row h1 hrp
      · simp at h1
        rw [h1] at hrp
        exact absurd hrp hne

theorem walk_fold_frame (prior : List FileRow) (ppath : AbsP) (k : Nat)
    (entries : List FsEntry)
    (hne : ∀ e2 ∈ entries, e2.path ≠ ppath)
    (hprid : ∀ r2 ∈ prior, r2.path ≠ ppath → r2.id ≠ k) :
    ∀ st : RSt, (∀ row ∈ st.db.files, row.path = ppath → row.id = k) →
      k < st.db.nextId →
    rowByPath ppath (entries.foldl (walkStep prior) st).db.files
        = rowByPath ppath st.db.files
    ∧ ((entries.foldl (walkStep prior) st).db.tags.filter fun t => t.1 = k)
        = (st.db.tags.filter fun t => t.1 = k)
    ∧ ((entries.foldl (walkStep prior) st).db.links.filter fun l => l.referrerId = k)
        = (st.db.links.filter fun l => l.referrerId = k)
    ∧ ((entries.foldl (walkStep prior) st).linksToAdd.filter fun x => x.1 = k)
        = (st.linksToAdd.filter fun x => x.1 = k)
    ∧ st.db.nextId ≤ (entries.foldl (walkStep prior) st).db.nextId
    ∧ (∀ row ∈ (entries.foldl (walkStep prior) st).db.files, row.path = ppath → row.id = k)
    ∧ st.found ⊆ (entries.foldl (walkStep prior) st).found
    ∧ st.idsByPath ⊆ (entries.foldl (walkStep prior) st).idsByPath := by
  induction entries with
  | nil =>
    intro st hI1 hk
    exact ⟨rfl, rfl, rfl, rfl, le_refl _, hI1, fun a ha => ha, fun a ha => ha⟩
  | cons e2 es ih =>
    intro st hI1 hk
    rw [List.foldl_cons]
    obtain ⟨s1, s2, s3, s4, s5, s6, s7, s8⟩ :=
      walkStep_frame prior ppath k st e2 (hne e2 (by simp)) hprid hI1 hk
    obtain ⟨t1, t2, t3, t4, t5, t6, t7, t8⟩ :=
      ih (fun x hx => hne x (by simp [hx])) (walkStep prior st e2) s6 (by omega)
    exact ⟨t1.trans s1, t2.trans s2, t3.trans s3, t4.trans s4, by omega, t6,
      fun a ha => t7 (s7 ha), fun a ha => t8 (s8 ha)⟩

theorem linkStep_frame (prior : List FileRow) (ppath : AbsP) (k : Nat) (st : RSt)
    (x : Nat × AbsP × PyStr)
    (hpp : rowByPath ppath prior ≠ none ∨ ∃ idp ∈ st.idsByPath, idp.1 = ppath)
    (hI1 : ∀ row ∈ st.db.files, row.path = ppath → row.id = k) :
    rowByPath ppath (linkStep prior st x).db.files = rowByPath ppath st.db.files
    ∧ (∀ row ∈ (linkStep prior st x).db.files, row.path = ppath → row.id = k)
    ∧ (rowByPath ppath prior ≠ none ∨ ∃ idp ∈ (linkStep prior st x).idsByPath, idp.1 = ppath)
    ∧ st.found ⊆ (linkStep prior st x).found := by
  rw [linkStep]
  cases hr : referentM x.2.1 x.2.2 with
  | none => exact ⟨rfl, hI1, hpp, fun a ha => ha⟩
  | some ref =>
    dsimp only
    cases hi : st.idsByPath.find? fun p => decide (p.1 = ref) with
    | some p =>
      exact ⟨rfl, hI1, by
        rcases hpp with h | ⟨idp, hidp, hidpe⟩
        · exact Or.inl h
        · exact Or.inr ⟨idp, hidp, hidpe⟩, fun a ha => List.mem_append_left _ ha⟩
    | none =>
      dsimp only
      cases hp : rowByPath ref prior with
      | some r =>
        exact ⟨rfl, hI1, by
          rcases hpp with h | ⟨idp, hidp, hidpe⟩
          · exact Or.inl h
          · exact Or.inr ⟨idp, hidp, hidpe⟩, fun a ha => List.mem_append_left _ ha⟩
      | none =>
        have hrefne : ref ≠ ppath := by
          intro hc
          subst hc
          rcases hpp with h | ⟨idp, hidp, hidpe⟩
          · exact h hp
          · have : st.idsByPath.find? (fun p => decide (p.1 = ref)) ≠ none := by
              intro hnone
              have := List.find?_eq_none.mp hnone idp hidp
              simp [hidpe] at this
            exact this hi
        refine ⟨?_, ?_, ?_, fun a ha => List.mem_append_left _ ha⟩
        · cases hf : rowByPath ppath st.db.files with
          | some rf => exact rowByPath_append_some _ _ _ _ hf
          | none =>
            rw [rowByPath_append_none _ _ _ hf, rowByPath,
              List.find?_cons_of_neg _ (by simp [hrefne])]
            rfl
        · intro row hrm hrp
          rcases List.mem_append.mp hrm with h1 | h1
          · exact hI1 row h1 hrp
          · simp at h1
            rw [h1] at hrp
            exact absurd hrp hrefne
        · rcases hpp with h | ⟨idp, hidp, hidpe⟩
          · exact Or.inl h
          · exact Or.inr ⟨idp, List.mem_append_left _ hidp, hidpe⟩

theorem link_fold_frame (prior : List FileRow) (ppath : AbsP) (k : Nat)
    (lta : List (Nat × AbsP × PyStr)) :
    ∀ st : RSt,
    (rowByPath ppath prior ≠ none ∨ ∃ idp ∈ st.idsByPath, idp.1 = ppath) →
    (∀ row ∈ st.db.files, row.path = ppath → row.id = k) →
    rowByPath ppath (lta.foldl (linkStep prior) st).db.files = rowByPath ppath st.db.files
    ∧ (∀ row ∈ (lta.foldl (linkStep prior) st).db.files, row.path = ppath → row.id = k)
    ∧ st.found ⊆ (lta.foldl (linkStep prior) st).found := by
  induction lta with
  | nil => intro st hpp hI1; exact ⟨rfl, hI1, fun a ha => ha⟩
  | cons x lta ih =>
    intro st hpp hI1
    rw [List.foldl_cons]
    obtain ⟨s1, s2, s3, s4⟩ := linkStep_frame prior ppath k st x hpp hI1
    obtain ⟨t1, t2, t3⟩ := ih (linkStep prior st x) s3 s2
    exact ⟨t1.trans s1, t2, fun a ha => t3 (s4 ha)⟩

theorem deleteStep_frame (ppath : AbsP) (k : Nat) (db : DB) (r3 : FileRow)
    (hr3 : r3.id ≠ k)
    (hI1 : ∀ row ∈ db.files, row.path = ppath → row.id = k) :
    rowByPath ppath (deleteStep db r3).files = rowByPath ppath db.files
    ∧ ((deleteStep db r3).tags.filter fun t => t.1 = k) = (db.tags.filter fun t => t.1 = k)
    ∧ ((deleteStep db r3).links.filter fun l => l.referrerId = k)
        = (db.links.filter fun l => l.referrerId = k)
    ∧ (∀ row ∈ (deleteStep db r3).files, row.path = ppath → row.id = k) := by
  rw [deleteStep]
  dsimp only
  refine ⟨?_, ?_, ?_, ?_⟩
  · split
    · exact rowByPath_filter _ _ _ (by
        intro row hrm hrp
        have := hI1 row hrm hrp
        simp [this]
        omega)
    · rw [rowByPath_map _ _ _ (by
        intro y
        split
        · rfl
        · rfl)]
      cases hf : rowByPath ppath db.files with
      | none => rfl
      | some rf =>
        obtain ⟨hrfm, hrfp⟩ := rowByPath_mem_and_path _ _ _ hf
        have hrfk : rf.id = k := hI1 rf hrfm hrfp
        dsimp only [Option.map]
        rw [if_neg (by rw [hrfk]; exact fun hc => hr3 hc.symm)]
  · exact filter_key_of_del _ _ _ _ (fun hc => hr3 hc)
  · exact filter_key_of_del _ _ _ _ (fun hc => hr3 hc)
  · intro row hrm hrp
    split at hrm
    · exact hI1 row (List.mem_of_mem_filter hrm) hrp
    · rcases List.mem_map.mp hrm with ⟨row0, hrow0, hrow0e⟩
      subst hrow0e
      have hp0 : row0.path = ppath := by
        revert hrp
        split
        · exact fun h => h
        · exact fun h => h
      have hk0 := hI1 row0 hrow0 hp0
      split
      · exact hk0
      · exact hk0

theorem delete_fold_frame (ppath : AbsP) (k : Nat) (stale : List FileRow)
    (hst : ∀ r3 ∈ stale, r3.id ≠ k) :
    ∀ db : DB, (∀ row ∈ db.files, row.path = ppath → row.id = k) →
    rowByPath ppath (stale.foldl deleteStep db).files = rowByPath ppath db.files
    ∧ ((stale.foldl deleteStep db).tags.filter fun t => t.1 = k)
        = (db.tags.filter fun t => t.1 = k)
    ∧ ((stale.foldl deleteStep db).links.filter fun l => l.referrerId = k)
        = (db.links.filter fun l => l.referrerId = k) := by
  induction stale with
  | nil => intro db hI1; exact ⟨rfl, rfl, rfl⟩
  | cons r3 stale ih =>
    intro db hI1
    rw [List.foldl_cons]
    obtain ⟨s1, s2, s3, s4⟩ := deleteStep_frame ppath k db r3 (hst r3 (by simp)) hI1
    obtain ⟨t1, t2, t3⟩ := ih (fun x hx => hst x (by simp [hx])) (deleteStep db r3) s4
    exact ⟨t1.trans s1, t2.trans s2, t3.trans s3⟩

theorem walkStep_bound (prior : List FileRow) (st : RSt) (e2 : FsEntry)
    (hpr : ∀ r2 ∈ prior, r2.id < st.db.nextId)
    (ht : ∀ t ∈ st.db.tags, t.1 < st.db.nextId)
    (hl : ∀ l ∈ st.db.links, l.referrerId < st.db.nextId)
    (hx : ∀ x ∈ st.linksToAdd, x.1 < st.db.nextId) :
    st.db.nextId ≤ (walkStep prior st e2).db.nextId
    ∧ (∀ t ∈ (walkStep prior st e2).db.tags, t.1 < (walkStep prior st e2).db.nextId)
    ∧ (∀ l ∈ (walkStep prior st e2).db.links, l.referrerId < (walkStep prior st e2).db.nextId)
    ∧ (∀ x ∈ (walkStep prior st e2).linksToAdd, x.1 < (walkStep prior st e2).db.nextId) := by
  rw [walkStep]
  cases hrow : rowByPath e2.path prior with
  | some r2 =>
    obtain ⟨hr2m, -⟩ := rowByPath_mem_and_path _ _ _ hrow
    have hr2lt := hpr r2 hr2m
    dsimp only
    by_cases hskip : e2.skipParse
    · rw [if_pos hskip]
      exact ⟨le_refl _, ht, hl, hx⟩
    · rw [if_neg hskip]
      by_cases hsig : r2.sig = some e2.sig
      · rw [if_pos hsig]
        exact ⟨le_refl _, ht, hl, hx⟩
      · rw [if_neg hsig]
        dsimp only
        refine ⟨le_refl _, ?_, ?_, ?_⟩
        · intro t htm
          rcases List.mem_append.mp htm with h1 | h1
          · exact ht t (List.mem_of_mem_filter h1)
          · rcases List.mem_map.mp h1 with ⟨t0, -, ht0⟩
            rw [← ht0]
            exact hr2lt
        · intro l hlm
          exact hl l (List.mem_of_mem_filter hlm)
        · intro x hxm
          rcases List.mem_append.mp hxm with h1 | h1
          · exact hx x h1
          · rcases List.mem_map.mp h1 with ⟨h0, -, hh0⟩
            rw [← hh0]
            exact hr2lt
  | none =>
    dsimp only
    refine ⟨by omega, ?_, ?_, ?_⟩
    · intro t htm
      rcases List.mem_append.mp htm with h1 | h1
      · have := ht t h1
        omega
      · rcases List.mem_map.mp h1 with ⟨t0, -, ht0⟩
        rw [← ht0]
        dsimp only
        omega
    · intro l hlm
      have := hl l hlm
      omega
    · intro x hxm
      rcases List.mem_append.mp hxm with h1 | h1
      · have := hx x h1
        omega
      · rcases List.mem_map.mp h1 with ⟨h0, -, hh0⟩
        rw [← hh0]
        dsimp only
        omega

theorem walk_fold_bound (prior : List FileRow) (entries : List FsEntry) :
    ∀ st : RSt,
    (∀ r2 ∈ prior, r2.id < st.db.nextId) →
    (∀ t ∈ st.db.tags, t.1 < st.db.nextId) →
    (∀ l ∈ st.db.links, l.referrerId < st.db.nextId) →
    (∀ x ∈ st.linksToAdd, x.1 < st.db.nextId) →
    st.db.nextId ≤ (entries.foldl (walkStep prior) st).db.nextId
    ∧ (∀ t ∈ (entries.foldl (walkStep prior) st).db.tags,
        t.1 < (entries.foldl (walkStep prior) st).db.nextId)
    ∧ (∀ l ∈ (entries.foldl (walkStep prior) st).db.links,
        l.referrerId < (entries.foldl (walkStep prior) st).db.nextId)
    ∧ (∀ x ∈ (entries.foldl (walkStep prior) st).linksToAdd,
        x.1 < (entries.foldl (walkStep prior) st).db.nextId) := by
  induction entries with
  | nil => intro st h1 h2 h3 h4; exact ⟨le_refl _, h2, h3, h4⟩
  | cons e2 es ih =>
    intro st h1 h2 h3 h4
    rw [List.foldl_cons]
    obtain ⟨s1, s2, s3, s4⟩ := walkStep_bound prior st e2 h1 h2 h3 h4
    obtain ⟨t1, t2, t3, t4⟩ := ih (walkStep prior st e2)
      (fun r2 hr2 => lt_of_lt_of_le (h1 r2 hr2) s1) s2 s3 s4
    exact ⟨le_trans s1 t1, t2, t3, t4⟩

theorem filter_key_self_del {α : Type} (l : List α) (f : α → Nat) (k : Nat) :
    ((l.filter fun a => f a ≠ k).filter fun a => f a = k) = [] := by
  refine List.filter_eq_nil_iff.mpr ?_
  intro a ha
  have := List.of_mem_filter ha
  simp at this
  simp [this]

theorem walk_fold_none (prior : List FileRow) (ppath : AbsP) (entries : List FsEntry)
    (hne : ∀ x ∈ entries, x.path ≠ ppath) :
    ∀ st : RSt, rowByPath ppath st.db.files = none →
      rowByPath ppath (entries.foldl (walkStep prior) st).db.files = none := by
  induction entries with
  | nil => intro st h; exact h
  | cons e2 es ih =>
    intro st h
    rw [List.foldl_cons]
    refine ih (fun x hx => hne x (by simp [hx])) _ ?_
    rw [walkStep]
    cases hrow : rowByPath e2.path prior with
    | some r2 =>
      dsimp only
      by_cases hskip : e2.skipParse
      · rw [if_pos hskip]
        exact h
      · rw [if_neg hskip]
        by_cases hsig : r2.sig = some e2.sig
        · rw [if_pos hsig]
          exact h
        · rw [if_neg hsig]
          dsimp only
          rw [rowByPath_map _ _ _ (by
            intro y
            split
            · rfl
            · rfl), h]
          rfl
    | none =>
      dsimp only
      rw [rowByPath_append_none _ _ _ h, rowByPath,
        List.find?_cons_of_neg _ (by simp [hne e2 (by simp)])]
      rfl

theorem c8_part1 (fs : List FsEntry) (db : DB) (e : FsEntry) (r : FileRow)
    (hwf : WfDB db) (hnd : (fs.map (·.path)).Nodup) (he : e ∈ fs)
    (hrow : rowByPath e.path db.files = some r) (hsig : r.sig = some e.sig) :
    rowByPath e.path (sqlite_refresh fs db).files = some r
    ∧ ((sqlite_refresh fs db).tags.filter fun t => t.1 = r.id)
        = (db.tags.filter fun t => t.1 = r.id)
    ∧ ((sqlite_refresh fs db).links.filter fun l => l.referrerId = r.id)
        = (db.links.filter fun l => l.referrerId = r.id) := by
  obtain ⟨hrm, hrp⟩ := rowByPath_mem_and_path _ _ _ hrow
  obtain ⟨hids, hpaths, hlt, htb, hlb⟩ := hwf
  have hI1 : ∀ row ∈ db.files, row.path = e.path → row.id = r.id := by
    intro row hm hp
    have : row = r := List.inj_on_of_nodup_map hpaths hm hrm (by rw [hp, hrp])
    rw [this]
  have hprid : ∀ r2 ∈ db.files, r2.path ≠ e.path → r2.id ≠ r.id := by
    intro r2 hm hp hc
    have : r2 = r := List.inj_on_of_nodup_map hids hm hrm hc
    rw [this] at hp
    exact hp hrp
  have hk : r.id < db.nextId := hlt r hrm
  obtain ⟨fs1, fs2, hfs⟩ := List.append_of_mem he
  subst hfs
  rw [List.map_append, List.map_cons] at hnd
  obtain ⟨hn1, hn2, hdisj⟩ := List.nodup_append.mp hnd
  have hne1 : ∀ x ∈ fs1, x.path ≠ e.path := by
    intro x hx hc
    exact hdisj (List.mem_map_of_mem _ hx) (hc ▸ List.mem_cons_self _ _)
  have hne2 : ∀ x ∈ fs2, x.path ≠ e.path := by
    intro x hx hc
    exact (List.nodup_cons.mp hn2).1 (hc ▸ List.mem_map_of_mem _ hx)
  rw [sqlite_refresh]
  rw [List.foldl_append, List.foldl_cons]
  obtain ⟨a1, a2, a3, a4, a5, a6, a7, a8⟩ :=
    walk_fold_frame db.files e.path r.id fs1 hne1 hprid ⟨db, [], [], []⟩ hI1 hk
  set st1a := fs1.foldl (walkStep db.files) (⟨db, [], [], []⟩ : RSt) with hst1a
  have hestep : walkStep db.files st1a e = { st1a with found := st1a.found ++ [e.path] } := by
    rw [walkStep, hrow]
    dsimp only
    by_cases hskip : e.skipParse
    · rw [if_pos hskip]
    · rw [if_neg hskip, if_pos hsig]
  rw [hestep]
  obtain ⟨b1, b2, b3, b4, b5, b6, b7, b8⟩ :=
    walk_fold_frame db.files e.path r.id fs2 hne2 hprid
      { st1a with found := st1a.found ++ [e.path] } a6 (lt_of_lt_of_le hk a5)
  set st1 := fs2.foldl (walkStep db.files) { st1a with found := st1a.found ++ [e.path] }
    with hst1
  have hF : rowByPath e.path st1.db.files = some r := b1.trans (a1.trans hrow)
  have htags1 : (st1.db.tags.filter fun t => t.1 = r.id)
      = (db.tags.filter fun t => t.1 = r.id) := b2.trans a2
  have hlinks1 : (st1.db.links.filter fun l => l.referrerId = r.id)
      = (db.links.filter fun l => l.referrerId = r.id) := b3.trans a3
  have hlta1 : (st1.linksToAdd.filter fun x => x.1 = r.id) = [] := b4.trans a4
  have hfound1 : e.path ∈ st1.found :=
    b7 (List.mem_append_right _ (by simp))
  obtain ⟨c1, c2, c3⟩ := link_fold_frame db.files e.path r.id st1.linksToAdd
    { st1 with linksToAdd := [] } (Or.inl (by rw [hrow]; simp)) b6
  obtain ⟨ph, ex, d1, d2, d3, d4, d5⟩ := link_fold_shape db.files st1.linksToAdd
    { st1 with linksToAdd := [] }
  obtain ⟨nr, g1, g2⟩ := link_fold_rows db.files st1.linksToAdd
    { st1 with linksToAdd := [] }
  set st2 := st1.linksToAdd.foldl (linkStep db.files) { st1 with linksToAdd := [] } with hst2
  have hnr_ne : ∀ l ∈ nr, l.referrerId ≠ r.id := by
    intro l hl hc
    have hm : (l.referrerId, l.href) ∈ nr.map (fun l => (l.referrerId, l.href)) :=
      List.mem_map_of_mem _ hl
    rw [g2] at hm
    rcases List.mem_map.mp hm with ⟨x, hx, hxe⟩
    have hx1 : x.1 = r.id := by
      have := congrArg Prod.fst hxe
      simp at this
      rw [this, hc]
    have hmem : x ∈ st1.linksToAdd.filter (fun x => x.1 = r.id) :=
      List.mem_filter.mpr ⟨hx, by simp [hx1]⟩
    rw [hlta1] at hmem
    simp at hmem
  have hrow2 : rowByPath e.path st2.db.files = some r := c1.trans hF
  have htags2 : (st2.db.tags.filter fun t => t.1 = r.id)
      = (db.tags.filter fun t => t.1 = r.id) := by
    rw [d3]
    exact htags1
  have hlinks2 : (st2.db.links.filter fun l => l.referrerId = r.id)
      = (db.links.filter fun l => l.referrerId = r.id) := by
    rw [g1, filter_key_app_ne _ _ (fun l : LinkRow => l.referrerId) _ hnr_ne]
    exact hlinks1
  have hfound2 : e.path ∈ st2.found := c3 hfound1
  have hstale : ∀ r3 ∈ db.files.filter (fun r3 => ¬ r3.path ∈ st2.found),
      r3.id ≠ r.id := by
    intro r3 h3 hc
    have hmem := List.mem_of_mem_filter h3
    have hpred := List.of_mem_filter h3
    simp at hpred
    have : r3 = r := List.inj_on_of_nodup_map hids hmem hrm hc
    rw [this, hrp] at hpred
    exact hpred hfound2
  obtain ⟨f1, f2, f3⟩ := delete_fold_frame e.path r.id _ hstale st2.db c2
  exact ⟨f1.trans hrow2, f2.trans htags2, f3.trans hlinks2⟩

theorem c8_part2 (fs : List FsEntry) (db : DB) (e : FsEntry) (r : FileRow)
    (hwf : WfDB db) (hnd : (fs.map (·.path)).Nodup) (he : e ∈ fs)
    (hrow : rowByPath e.path db.files = some r) (hsig : ¬ r.sig = some e.sig)
    (hskip : e.skipParse = false) :
    rowByPath e.path (sqlite_refresh fs db).files
        = some { r with existent := true, sig := some e.sig,
                        title := e.title, created := e.created }
    ∧ ((sqlite_refresh fs db).tags.filter fun t => t.1 = r.id)
        = e.tags.map (fun t => (r.id, t))
    ∧ (((sqlite_refresh fs db).links.filter fun l => l.referrerId = r.id).map (·.href))
        = e.links := by
  obtain ⟨hrm, hrp⟩ := rowByPath_mem_and_path _ _ _ hrow
  obtain ⟨hids, hpaths, hlt, htb, hlb⟩ := hwf
  have hI1 : ∀ row ∈ db.files, row.path = e.path → row.id = r.id := by
    intro row hm hp
    have : row = r := List.inj_on_of_nodup_map hpaths hm hrm (by rw [hp, hrp])
    rw [this]
  have hprid : ∀ r2 ∈ db.files, r2.path ≠ e.path → r2.id ≠ r.id := by
    intro r2 hm hp hc
    have : r2 = r := List.inj_on_of_nodup_map hids hm hrm hc
    rw [this] at hp
    exact hp hrp
  have hk : r.id < db.nextId := hlt r hrm
  obtain ⟨fs1, fs2, hfs⟩ := List.append_of_mem he
  subst hfs
  rw [List.map_append, List.map_cons] at hnd
  obtain ⟨hn1, hn2, hdisj⟩ := List.nodup_append.mp hnd
  have hne1 : ∀ x ∈ fs1, x.path ≠ e.path := by
    intro x hx hc
    exact hdisj (List.mem_map_of_mem _ hx) (hc ▸ List.mem_cons_self _ _)
  have hne2 : ∀ x ∈ fs2, x.path ≠ e.path := by
    intro x hx hc
    exact (List.nodup_cons.mp hn2).1 (hc ▸ List.mem_map_of_mem _ hx)
  have hparsed : parsedOf e = (e.title, e.created, e.tags, e.links) := by
    rw [parsedOf, if_neg (by rw [hskip]; simp)]
  rw [sqlite_refresh]
  rw [List.foldl_append, List.foldl_cons]
  obtain ⟨a1, a2, a3, a4, a5, a6, a7, a8⟩ :=
    walk_fold_frame db.files e.path r.id fs1 hne1 hprid ⟨db, [], [], []⟩ hI1 hk
  set st1a := fs1.foldl (walkStep db.files) (⟨db, [], [], []⟩ : RSt) with hst1a
  have hestep : walkStep db.files st1a e
      = ⟨⟨st1a.db.files.map (fun r2 => if r2.id = r.id then
            { r2 with existent := true, sig := some e.sig,
                      title := e.title, created := e.created } else r2),
          (st1a.db.tags.filter fun t => t.1 ≠ r.id)
            ++ e.tags.map (fun t => (r.id, t)),
          st1a.db.links.filter fun l => l.referrerId ≠ r.id,
          st1a.db.nextId⟩,
         st1a.found ++ [e.path],
         st1a.idsByPath ++ [(e.path, r.id)],
         st1a.linksToAdd ++ e.links.map fun h => (r.id, e.path, h)⟩ := by
    rw [walkStep, hrow]
    dsimp only
    rw [if_neg (by rw [hskip]; simp), if_neg hsig, hparsed]
  rw [hestep]
  have hI1e : ∀ row ∈ st1a.db.files.map (fun r2 => if r2.id = r.id then
        { r2 with existent := true, sig := some e.sig,
                  title := e.title, created := e.created } else r2),
      row.path = e.path → row.id = r.id := by
    intro row hm hp
    rcases List.mem_map.mp hm with ⟨row0, hrow0, hrow0e⟩
    subst hrow0e
    have hp0 : row0.path = e.path := by
      revert hp
      split
      · exact fun h => h
      · exact fun h => h
    have hk0 := a6 row0 hrow0 hp0
    split
    · exact hk0
    · exact hk0
  obtain ⟨b1, b2, b3, b4, b5, b6, b7, b8⟩ :=
    walk_fold_frame db.files e.path r.id fs2 hne2 hprid
      (⟨⟨st1a.db.files.map (fun r2 => if r2.id = r.id then
            { r2 with existent := true, sig := some e.sig,
                      title := e.title, created := e.created } else r2),
          (st1a.db.tags.filter fun t => t.1 ≠ r.id)
            ++ e.tags.map (fun t => (r.id, t)),
          st1a.db.links.filter fun l => l.referrerId ≠ r.id,
          st1a.db.nextId⟩,
         st1a.found ++ [e.path],
         st1a.idsByPath ++ [(e.path, r.id)],
         st1a.linksToAdd ++ e.links.map fun h => (r.id, e.path, h)⟩ : RSt)
      hI1e (lt_of_lt_of_le hk a5)
  set st1 := fs2.foldl (walkStep db.files)
    (⟨⟨st1a.db.files.map (fun r2 => if r2.id = r.id then
          { r2 with existent := true, sig := some e.sig,
                    title := e.title, created := e.created } else r2),
        (st1a.db.tags.filter fun t => t.1 ≠ r.id)
          ++ e.tags.map (fun t => (r.id, t)),
        st1a.db.links.filter fun l => l.referrerId ≠ r.id,
        st1a.db.nextId⟩,
       st1a.found ++ [e.path],
       st1a.idsByPath ++ [(e.path, r.id)],
       st1a.linksToAdd ++ e.links.map fun h => (r.id, e.path, h)⟩ : RSt) with hst1
  have hrowE : rowByPath e.path st1.db.files
      = some { r with existent := true, sig := some e.sig,
                      title := e.title, created := e.created } := by
    rw [b1]
    show rowByPath e.path (st1a.db.files.map _) = _
    rw [rowByPath_map _ _ _ (by
      intro y
      split
      · rfl
      · rfl), a1.trans hrow]
    dsimp only [Option.map]
    rw [if_pos rfl]
  have htagsE : (st1.db.tags.filter fun t => t.1 = r.id)
      = e.tags.map (fun t => (r.id, t)) := by
    rw [b2]
    show (((st1a.db.tags.filter fun t => t.1 ≠ r.id)
        ++ e.tags.map (fun t => (r.id, t))).filter fun t => t.1 = r.id) = _
    rw [List.filter_append, filter_key_self_del _ (fun t : Nat × PyStr => t.1)]
    rw [List.filter_eq_self.mpr (by
      intro a ha
      rcases List.mem_map.mp ha with ⟨t, -, ht⟩
      rw [← ht]
      simp)]
    rw [List.nil_append]
  have hlinksE : (st1.db.links.filter fun l => l.referrerId = r.id) = [] := by
    rw [b3]
    exact filter_key_self_del _ (fun l : LinkRow => l.referrerId) _
  have hltaE : (st1.linksToAdd.filter fun x => x.1 = r.id)
      = e.links.map (fun h => (r.id, e.path, h)) := by
    rw [b4]
    show ((st1a.linksToAdd ++ e.links.map fun h => (r.id, e.path, h)).filter
        fun x => x.1 = r.id) = _
    rw [List.filter_append, a4]
    show List.filter _ [] ++ _ = _
    rw [List.filter_nil, List.nil_append]
    exact List.filter_eq_self.mpr (by
      intro a ha
      rcases List.mem_map.mp ha with ⟨h0, -, hh0⟩
      rw [← hh0]
      simp)
  have hfound1 : e.path ∈ st1.found :=
    b7 (List.mem_append_right _ (by simp))
  obtain ⟨c1, c2, c3⟩ := link_fold_frame db.files e.path r.id st1.linksToAdd
    { st1 with linksToAdd := [] } (Or.inl (by rw [hrow]; simp)) b6
  obtain ⟨ph, ex, d1, d2, d3, d4, d5⟩ := link_fold_shape db.files st1.linksToAdd
    { st1 with linksToAdd := [] }
  obtain ⟨nr, g1, g2⟩ := link_fold_rows db.files st1.linksToAdd
    { st1 with linksToAdd := [] }
  set st2 := st1.linksToAdd.foldl (linkStep db.files) { st1 with linksToAdd := [] } with hst2
  have hrow2 : rowByPath e.path st2.db.files
      = some { r with existent := true, sig := some e.sig,
                      title := e.title, created := e.created } := c1.trans hrowE
  have htags2 : (st2.db.tags.filter fun t => t.1 = r.id)
      = e.tags.map (fun t => (r.id, t)) := by
    rw [d3]
    exact htagsE
  have hlinks2 : ((st2.db.links.filter fun l => l.referrerId = r.id).map (·.href))
      = e.links := by
    rw [g1, List.filter_append]
    have hfirst : (st1.db.links.filter fun l => l.referrerId = r.id) = [] := hlinksE
    rw [hfirst, List.nil_append]
    rw [proj_filter, g2, List.filter_map]
    rw [List.filter_congr
      (p := (fun (x : Nat × PyStr) => decide (x.1 = r.id))
        ∘ fun (x : Nat × AbsP × PyStr) => (x.1, x.2.2))
      (q := fun (x : Nat × AbsP × PyStr) => decide (x.1 = r.id))
      (l := st1.linksToAdd) (fun x _ => rfl)]
    rw [hltaE, List.map_map, List.map_map]
    exact (List.map_congr_left fun a _ => rfl).trans (List.map_id _)
  have hfound2 : e.path ∈ st2.found := c3 hfound1
  have hstale : ∀ r3 ∈ db.files.filter (fun r3 => ¬ r3.path ∈ st2.found),
      r3.id ≠ r.id := by
    intro r3 h3 hc
    have hmem := List.mem_of_mem_filter h3
    have hpred := List.of_mem_filter h3
    simp at hpred
    have : r3 = r := List.inj_on_of_nodup_map hids hmem hrm hc
    rw [this, hrp] at hpred
    exact hpred hfound2
  obtain ⟨f1, f2, f3⟩ := delete_fold_frame e.path r.id _ hstale st2.db c2
  refine ⟨f1.trans hrow2, f2.trans htags2, ?_⟩
  rw [f3]
  exact hlinks2

theorem c8_part3 (fs : List FsEntry) (db : DB) (e : FsEntry)
    (hwf : WfDB db) (hnd : (fs.map (·.path)).Nodup) (he : e ∈ fs)
    (hrow : rowByPath e.path db.files = none) (hskip : e.skipParse = false) :
    ∃ k, rowByPath e.path (sqlite_refresh fs db).files
        = some ⟨k, e.path, true, some e.sig, e.title, e.created⟩
      ∧ ((sqlite_refresh fs db).tags.filter fun t => t.1 = k)
          = e.tags.map (fun t => (k, t))
      ∧ (((sqlite_refresh fs db).links.filter fun l => l.referrerId = k).map (·.href))
          = e.links := by
  obtain ⟨hids, hpaths, hlt, htb, hlb⟩ := hwf
  obtain ⟨fs1, fs2, hfs⟩ := List.append_of_mem he
  subst hfs
  rw [List.map_append, List.map_cons] at hnd
  obtain ⟨hn1, hn2, hdisj⟩ := List.nodup_append.mp hnd
  have hne1 : ∀ x ∈ fs1, x.path ≠ e.path := by
    intro x hx hc
    exact hdisj (List.mem_map_of_mem _ hx) (hc ▸ List.mem_cons_self _ _)
  have hne2 : ∀ x ∈ fs2, x.path ≠ e.path := by
    intro x hx hc
    exact (List.nodup_cons.mp hn2).1 (hc ▸ List.mem_map_of_mem _ hx)
  have hparsed : parsedOf e = (e.title, e.created, e.tags, e.links) := by
    rw [parsedOf, if_neg (by rw [hskip]; simp)]
  rw [sqlite_refresh]
  rw [List.foldl_append, List.foldl_cons]
  obtain ⟨m1, m2, m3, m4⟩ := walk_fold_bound db.files fs1 ⟨db, [], [], []⟩ hlt htb hlb
    (fun x hx => absurd hx (by simp))
  have hnone1 : rowByPath e.path
      (fs1.foldl (walkStep db.files) (⟨db, [], [], []⟩ : RSt)).db.files = none :=
    walk_fold_none db.files e.path fs1 hne1 _ hrow
  set st1a := fs1.foldl (walkStep db.files) (⟨db, [], [], []⟩ : RSt) with hst1a
  have hprid : ∀ r2 ∈ db.files, r2.path ≠ e.path → r2.id ≠ st1a.db.nextId := by
    intro r2 hm _ hc
    have h1 := hlt r2 hm
    have h2 : db.nextId ≤ st1a.db.nextId := m1
    omega
  have hestep : walkStep db.files st1a e
      = ⟨⟨st1a.db.files ++ [⟨st1a.db.nextId, e.path, true, some e.sig, e.title, e.created⟩],
          st1a.db.tags ++ e.tags.map (fun t => (st1a.db.nextId, t)),
          st1a.db.links,
          st1a.db.nextId + 1⟩,
         st1a.found ++ [e.path],
         st1a.idsByPath ++ [(e.path, st1a.db.nextId)],
         st1a.linksToAdd ++ e.links.map fun h => (st1a.db.nextId, e.path, h)⟩ := by
    rw [walkStep, hrow]
    dsimp only
    rw [hparsed]
  rw [hestep]
  have hI1e : ∀ row ∈ st1a.db.files
        ++ [⟨st1a.db.nextId, e.path, true, some e.sig, e.title, e.created⟩],
      row.path = e.path → row.id = st1a.db.nextId := by
    intro row hm hp
    rcases List.mem_append.mp hm with h1 | h1
    · have := List.find?_eq_none.mp hnone1 row h1
      simp [hp] at this
    · simp at h1
      rw [h1]
  obtain ⟨b1, b2, b3, b4, b5, b6, b7, b8⟩ :=
    walk_fold_frame db.files e.path st1a.db.nextId fs2 hne2 hprid
      (⟨⟨st1a.db.files ++ [⟨st1a.db.nextId, e.path, true, some e.sig, e.title, e.created⟩],
          st1a.db.tags ++ e.tags.map (fun t => (st1a.db.nextId, t)),
          st1a.db.links,
          st1a.db.nextId + 1⟩,
         st1a.found ++ [e.path],
         st1a.idsByPath ++ [(e.path, st1a.db.nextId)],
         st1a.linksToAdd ++ e.links.map fun h => (st1a.db.nextId, e.path, h)⟩ : RSt)
      hI1e (by show st1a.db.nextId < st1a.db.nextId + 1; omega)
  set st1 := fs2.foldl (walkStep db.files)
    (⟨⟨st1a.db.files ++ [⟨st1a.db.nextId, e.path, true, some e.sig, e.title, e.created⟩],
        st1a.db.tags ++ e.tags.map (fun t => (st1a.db.nextId, t)),
        st1a.db.links,
        st1a.db.nextId + 1⟩,
       st1a.found ++ [e.path],
       st1a.idsByPath ++ [(e.path, st1a.db.nextId)],
       st1a.linksToAdd ++ e.links.map fun h => (st1a.db.nextId, e.path, h)⟩ : RSt) with hst1
  have hrowE : rowByPath e.path st1.db.files
      = some ⟨st1a.db.nextId, e.path, true, some e.sig, e.title, e.created⟩ := by
    rw [b1]
    show rowByPath e.path (st1a.db.files ++ _) = _
    rw [rowByPath_append_none _ _ _ hnone1, rowByPath,
      List.find?_cons_of_pos _ (by simp)]
  have htagsE : (st1.db.tags.filter fun t => t.1 = st1a.db.nextId)
      = e.tags.map (fun t => (st1a.db.nextId, t)) := by
    rw [b2]
    show ((st1a.db.tags ++ e.tags.map (fun t => (st1a.db.nextId, t))).filter
        fun t => t.1 = st1a.db.nextId) = _
    rw [List.filter_append]
    rw [List.filter_eq_nil_iff.mpr (by
      intro t ht
      have := m2 t ht
      simp
      omega)]
    rw [List.nil_append]
    exact List.filter_eq_self.mpr (by
      intro a ha
      rcases List.mem_map.mp ha with ⟨t, -, ht⟩
      rw [← ht]
      simp)
  have hlinksE : (st1.db.links.filter fun l => l.referrerId = st1a.db.nextId) = [] := by
    rw [b3]
    show (st1a.db.links.filter fun l => l.referrerId = st1a.db.nextId) = []
    exact List.filter_eq_nil_iff.mpr (by
      intro l hl
      have := m3 l hl
      simp
      omega)
  have hltaE : (st1.linksToAdd.filter fun x => x.1 = st1a.db.nextId)
      = e.links.map (fun h => (st1a.db.nextId, e.path, h)) := by
    rw [b4]
    show ((st1a.linksToAdd ++ e.links.map fun h => (st1a.db.nextId, e.path, h)).filter
        fun x => x.1 = st1a.db.nextId) = _
    rw [List.filter_append]
    rw [List.filter_eq_nil_iff.mpr (by
      intro x hx
      have := m4 x hx
      simp
      omega)]
    rw [List.nil_append]
    exact List.filter_eq_self.mpr (by
      intro a ha
      rcases List.mem_map.mp ha with ⟨h0, -, hh0⟩
      rw [← hh0]
      simp)
  have hfound1 : e.path ∈ st1.found :=
    b7 (List.mem_append_right _ (by simp))
  have hids1 : (e.path, st1a.db.nextId) ∈ st1.idsByPath :=
    b8 (List.mem_append_right _ (by simp))
  obtain ⟨c1, c2, c3⟩ := link_fold_frame db.files e.path st1a.db.nextId st1.linksToAdd
    { st1 with linksToAdd := [] } (Or.inr ⟨(e.path, st1a.db.nextId), hids1, rfl⟩) b6
  obtain ⟨ph, ex, d1, d2, d3, d4, d5⟩ := link_fold_shape db.files st1.linksToAdd
    { st1 with linksToAdd := [] }
  obtain ⟨nr, g1, g2⟩ := link_fold_rows db.files st1.linksToAdd
    { st1 with linksToAdd := [] }
  set st2 := st1.linksToAdd.foldl (linkStep db.files) { st1 with linksToAdd := [] } with hst2
  have hrow2 : rowByPath e.path st2.db.files
      = some ⟨st1a.db.nextId, e.path, true, some e.sig, e.title, e.created⟩ :=
    c1.trans hrowE
  have htags2 : (st2.db.tags.filter fun t => t.1 = st1a.db.nextId)
      = e.tags.map (fun t => (st1a.db.nextId, t)) := by
    rw [d3]
    exact htagsE
  have hlinks2 : ((st2.db.links.filter fun l => l.referrerId = st1a.db.nextId).map (·.href))
      = e.links := by
    rw [g1, List.filter_append, hlinksE, List.nil_append]
    rw [proj_filter, g2, List.filter_map]
    rw [List.filter_congr
      (p := (fun (x : Nat × PyStr) => decide (x.1 = st1a.db.nextId))
        ∘ fun (x : Nat × AbsP × PyStr) => (x.1, x.2.2))
      (q := fun (x : Nat × AbsP × PyStr) => decide (x.1 = st1a.db.nextId))
      (l := st1.linksToAdd) (fun x _ => rfl)]
    rw [hltaE, List.map_map, List.map_map]
    exact (List.map_congr_left fun a _ => rfl).trans (List.map_id _)
  have hfound2 : e.path ∈ st2.found := c3 hfound1
  have hstale : ∀ r3 ∈ db.files.filter (fun r3 => ¬ r3.path ∈ st2.found),
      r3.id ≠ st1a.db.nextId := by
    intro r3 h3
    have hmem := List.mem_of_mem_filter h3
    have h1 := hlt r3 hmem
    have h2 : db.nextId ≤ st1a.db.nextId := m1
    omega
  obtain ⟨f1, f2, f3⟩ := delete_fold_frame e.path st1a.db.nextId _ hstale st2.db c2
  refine ⟨st1a.db.nextId, f1.trans hrow2, f2.trans htags2, ?_⟩
  rw [f3]
  exact hlinks2

/-- C8: in one refresh pass, a walked file whose current stat signature
equals the stored one is not re-parsed — its files row is untouched
(even its cached title and created), and its tag rows and outbound link
rows are exactly as before; a walked file whose signature differs, or
that has no row yet, is re-parsed, and its tag rows and outbound link
rows are deleted and replaced wholesale with the freshly parsed
values. -/
theorem C8_refresh_frame (fs : List FsEntry) (db : DB) (e : FsEntry)
    (hwf : WfDB db) (hnd : (fs.map (·.path)).Nodup) (he : e ∈ fs) :
    (∀ r, rowByPath e.path db.files = some r → r.sig = some e.sig →
      rowByPath e.path (sqlite_refresh fs db).files = some r
      ∧ ((sqlite_refresh fs db).tags.filter fun t => t.1 = r.id)
          = (db.tags.filter fun t => t.1 = r.id)
      ∧ ((sqlite_refresh fs db).links.filter fun l => l.referrerId = r.id)
          = (db.links.filter fun l => l.referrerId = r.id))
    ∧ (∀ r, rowByPath e.path db.files = some r → ¬ r.sig = some e.sig →
        e.skipParse = false →
      rowByPath e.path (sqlite_refresh fs db).files
          = some { r with existent := true, sig := some e.sig,
                          title := e.title, created := e.created }
      ∧ ((sqlite_refresh fs db).tags.filter fun t => t.1 = r.id)
          = e.tags.map (fun t => (r.id, t))
      ∧ (((sqlite_refresh fs db).links.filter fun l => l.referrerId = r.id).map
            (·.href))
          = e.links)
    ∧ (rowByPath e.path db.files = none → e.skipParse = false →
      ∃ k, rowByPath e.path (sqlite_refresh fs db).files
          = some ⟨k, e.path, true, some e.sig, e.title, e.created⟩
        ∧ ((sqlite_refresh fs db).tags.filter fun t => t.1 = k)
            = e.tags.map (fun t => (k, t))
        ∧ (((sqlite_refresh fs db).links.filter fun l => l.referrerId = k).map
              (·.href))
            = e.links) :=
  ⟨fun r h1 h2 => c8_part1 fs db e r hwf hnd he h1 h2,
   fun r h1 h2 h3 => c8_part2 fs db e r hwf hnd he h1 h2 h3,
   fun h1 h2 => c8_part3 fs db e hwf hnd he h1 h2⟩

/-- Witness for C8 on the one-file world. -/
theorem C8_refresh_frame_witness :
    (WfDB c8wDb ∧ (c8wFs.map (·.path)).Nodup
      ∧ ⟨[[110], [97, 46, 109, 100]], (1, 1, 1), false, none, none, [], []⟩ ∈ c8wFs)
    ∧ ((∀ r, rowByPath [[110], [97, 46, 109, 100]] c8wDb.files = some r →
          r.sig = some (1, 1, 1) →
        rowByPath [[110], [97, 46, 109, 100]] (sqlite_refresh c8wFs c8wDb).files = some r
        ∧ ((sqlite_refresh c8wFs c8wDb).tags.filter fun t => t.1 = r.id)
            = (c8wDb.tags.filter fun t => t.1 = r.id)
        ∧ ((sqlite_refresh c8wFs c8wDb).links.filter fun l => l.referrerId = r.id)
            = (c8wDb.links.filter fun l => l.referrerId = r.id))) :=
  ⟨⟨by decide, by decide, by decide⟩,
   (C8_refresh_frame c8wFs c8wDb
      ⟨[[110], [97, 46, 109, 100]], (1, 1, 1), false, none, none, [], []⟩
      (by decide) (by decide) (by decide)).1⟩

/-- C2 counterexample: for an existing, non-skip-parse path whose
accessor raises `ParseError`, `DirectRepo.info` does not return a
`FileInfo` — the exception propagates (there is no handler in
`DirectRepo.info`) — and one unreadable document aborts a corpus-wide
`query` over a two-file corpus whose second file is unreadable. -/
theorem C2_parse_error_aborts :
    direct_info_err ⟨[[110], [98, 46, 109, 100]], false, true, Except.error ()⟩
        = Except.error ()
    ∧ direct_query_err
        [⟨[[110], [97, 46, 109, 100]], false, true, Except.ok (none, none, [], [])⟩,
         ⟨[[110], [98, 46, 109, 100]], false, true, Except.error ()⟩]
        ⟨[], [], []⟩
        = Except.error () := by
  exact ⟨rfl, rfl⟩

/-- C2 (amended): `DirectRepo.info` returns an otherwise-empty
`FileInfo` carrying just the path for a missing or skip-parse path, and
the accessor's parse (with the path attribute set) for a parseable file;
but when the accessor raises `ParseError`, the error propagates out of
`info` instead of yielding an empty `FileInfo`. -/
theorem C2_info_error_contract (e : FsEntryE) :
    (e.skipParse = true ∨ e.fsExists = false →
      direct_info_err e = Except.ok ⟨e.path, [], [], none, none, []⟩)
    ∧ (∀ i, direct_info_err e = Except.ok i → i.path = e.path)
    ∧ (∀ u, e.skipParse = false → e.fsExists = true → e.parse = Except.error u →
        direct_info_err e = Except.error u) := by
  refine ⟨?_, ?_, ?_⟩
  · intro h
    rw [direct_info_err, if_pos (by rcases h with h | h <;> simp [h])]
  · intro i hi
    rw [direct_info_err] at hi
    split at hi
    · cases hi
      rfl
    · split at hi
      · cases hi
      · cases hi
        rfl
  · intro u hs hf hp
    rw [direct_info_err, if_neg (by simp [hs, hf]), hp]

/-- Witness for the amended C2 at a missing path, a parse error, and a
parseable file. -/
theorem C2_info_error_contract_witness :
    ((false = true ∨ (false : Bool) = false →
      direct_info_err ⟨[[110]], false, false, Except.error ()⟩
        = Except.ok ⟨[[110]], [], [], none, none, []⟩)
    ∧ (∀ i, direct_info_err ⟨[[110]], false, false, Except.error ()⟩ = Except.ok i →
        i.path = [[110]])
    ∧ (∀ u, (false : Bool) = false → (false : Bool) = true →
        (⟨[[110]], false, false, Except.error ()⟩ : FsEntryE).parse = Except.error u →
        direct_info_err ⟨[[110]], false, false, Except.error ()⟩ = Except.error u)) :=
  C2_info_error_contract ⟨[[110]], false, false, Except.error ()⟩

/-- C9 counterexample: moving `/n/a.md` to `/n/b.md` while `/n/b.md`
exists is not refused: `Notesdir.move` silently renames the destination
to `/n/b_x.md` (the stem plus `_<shortuuid>`) and proceeds.  (With
`check_exists=False` it would proceed against the existing path
itself.) -/
theorem C9_existing_dest_not_refused :
    movePlan c9World 10 true true [([[110], [97, 46, 109, 100]], [[110], [98, 46, 109, 100]])]
      = some [([[110], [97, 46, 109, 100]], [[110], [98, 95, 120, 46, 109, 100]])]
    ∧ c9World.fsExists [[110], [98, 46, 109, 100]] = true := by
  exact ⟨by decide, by decide⟩

theorem findAvailLoop_spec (w : MoveWorld) (stem suffix : PyStr) (unavailable : List AbsP) :
    ∀ fuel cnt dest d c, findAvailLoop w stem suffix unavailable fuel cnt dest = some (d, c) →
      d ∉ unavailable ∧ w.fsExists d = false := by
  intro fuel
  induction fuel with
  | zero => intro cnt dest d c h; exact absurd h (by rw [findAvailLoop]; simp)
  | succ fuel ih =>
    intro cnt dest d c h
    rw [findAvailLoop] at h
    split at h
    · exact ih _ _ _ _ h
    · rename_i hcond
      cases h
      push_neg at hcond
      exact ⟨hcond.1, by simpa using hcond.2⟩

theorem find_available_name_spec (w : MoveWorld) (fuel cnt : Nat) (dest : AbsP)
    (unavailable : List AbsP) (d : AbsP) (c : Nat)
    (h : find_available_name w fuel cnt dest unavailable = some (d, c)) :
    d ∉ unavailable ∧ w.fsExists d = false := by
  rw [find_available_name] at h
  exact findAvailLoop_spec w _ _ unavailable fuel cnt dest d c h

theorem movePlan_fold_spec (w : MoveWorld) (fuel : Nat) (intoDirs : Bool)
    (moves1 : List (AbsP × AbsP)) :
    ∀ st : List (AbsP × AbsP) × List AbsP × Nat,
    (∀ p ∈ st.1, w.fsExists p.2 = false) → ((st.1.map (·.2)).Nodup) →
    (∀ p ∈ st.1, p.2 ∈ st.2.1) →
    ∀ r, moves1.foldlM (movePlanStep w fuel true intoDirs) st = some r →
      (∀ p ∈ r.1, w.fsExists p.2 = false) ∧ ((r.1.map (·.2)).Nodup) := by
  induction moves1 with
  | nil =>
    intro st h1 h2 h3 r h
    rw [List.foldlM_nil] at h
    cases h
    exact ⟨h1, h2⟩
  | cons sd moves1 ih =>
    intro st h1 h2 h3 r h
    rw [List.foldlM_cons] at h
    cases hs : movePlanStep w fuel true intoDirs st sd with
    | none => rw [hs] at h; simp at h
    | some st2 =>
      rw [hs] at h
      simp only [Option.bind_eq_bind, Option.some_bind] at h
      rw [movePlanStep] at hs
      split at hs
      · simp at hs
      · dsimp only at hs
        cases hfa : find_available_name w fuel st.2.2
            (if w.isDir sd.2 = true ∧ intoDirs = true
             then sd.2 ++ [sd.1.getLast?.getD []] else sd.2) st.2.1 with
        | none =>
          rw [if_pos rfl, hfa] at hs
          simp at hs
        | some dc =>
          rw [if_pos rfl, hfa] at hs
          cases hs
          obtain ⟨hnm, hne⟩ := find_available_name_spec w fuel st.2.2 _ st.2.1 dc.1 dc.2 hfa
          refine ih _ ?_ ?_ ?_ r h
          · intro p hp
            rcases List.mem_append.mp hp with hp1 | hp1
            · exact h1 p hp1
            · simp at hp1
              rw [hp1]
              exact hne
          · rw [List.map_append]
            refine List.Nodup.append h2 (by simp) ?_
            intro a ha hb
            simp at hb
            rcases List.mem_map.mp ha with ⟨p, hp, hpe⟩
            rw [hb] at hpe
            exact hnm (hpe ▸ h3 p hp)
          · intro p hp
            rcases List.mem_append.mp hp with hp1 | hp1
            · exact List.mem_append_left _ (h3 p hp1)
            · simp at hp1
              rw [hp1]
              exact List.mem_append_right _ (by simp)

/-- C9 (amended): when `check_exists` is set (the default), `move` never
refuses an existing destination, but it also never overwrites: every
final destination it plans is a path that does not exist, and no two
moves share a final destination — occupied names are sidestepped by
appending a fresh shortuuid. -/
theorem C9_no_overwrite (w : MoveWorld) (fuel : Nat) (intoDirs : Bool)
    (moves : List (AbsP × AbsP)) (finals : List (AbsP × AbsP))
    (h : movePlan w fuel true intoDirs moves = some finals) :
    (∀ p ∈ finals, w.fsExists p.2 = false) ∧ ((finals.map (·.2)).Nodup) := by
  rw [movePlan] at h
  cases hf : ((dictOf moves).filter fun kv => kv.1 ≠ kv.2).foldlM
      (movePlanStep w fuel true intoDirs) ([], [], 0) with
  | none => rw [hf] at h; simp at h
  | some st =>
    rw [hf] at h
    simp only [Option.bind_eq_bind, Option.some_bind, Option.pure_def, Option.some.injEq] at h
    subst h
    exact movePlan_fold_spec w fuel intoDirs _ ([], [], 0) (by simp) (by simp) (by simp) st hf

/-- Witness for the amended C9: the swap plan on the counterexample
world. -/
theorem C9_no_overwrite_witness :
    movePlan c9World 10 true true [([[110], [97, 46, 109, 100]], [[110], [98, 46, 109, 100]])]
        = some [([[110], [97, 46, 109, 100]], [[110], [98, 95, 120, 46, 109, 100]])]
    ∧ ((∀ p ∈ [([[110], [97, 46, 109, 100]], [[110], [98, 95, 120, 46, 109, 100]])],
          c9World.fsExists p.2 = false)
        ∧ ((([([[110], [97, 46, 109, 100]], [[110], [98, 95, 120, 46, 109, 100]])] : List (AbsP × AbsP)).map (·.2)).Nodup)) :=
  ⟨by decide, C9_no_overwrite c9World 10 true
    [([[110], [97, 46, 109, 100]], [[110], [98, 46, 109, 100]])]
    [([[110], [97, 46, 109, 100]], [[110], [98, 95, 120, 46, 109, 100]])] (by decide)⟩
